import Mathlib

/-!
# 3DTK: spherical quadtree and indexed k-d tree

A shallow embedding of `src/spherical_quadtree/spherical_quadtree.cc`, of the
query entry points of `src/slam6d/kdIndexed.cc` and of the argument check of the
adaptive normal computations of `src/slam6d/normals.cc`.

* `double` is embedded as an arbitrary linearly ordered field `K`; the calls into
  the C math library (`sqrt`, `asin`, `acos`, `cos`, `M_PI`) are the fields of a
  record `Libm K` handed to every function that uses them.  All definitions are
  computable; theorems about exact real arithmetic instantiate `K` with `ℝ` and
  ask the record to be the real functions (`Libm.Exact`).  Statements that hold
  whatever the arithmetic does are proved for every `K` and every record; the
  effect of rounding is shown on records that are the real functions except for
  one value of `sqrt`, which is the nearest `double`, or for a relative error of
  `2^-53` in `acos`.
* `size_t` values are natural numbers, reduced modulo `2 ^ 64` where the source
  can wrap.
* `std::vector` is `List`, `std::unordered_map` is an association list.
* C++ exceptions are the `Except.error` results.
-/

set_option autoImplicit false

namespace Slam6D

/-! ## Vectors and the helpers of `slam6d/globals.icc` -/

/-- A `double[3]` / `std::array<double, 3>`. -/
@[ext]
structure Vec3 (K : Type) where
  x : K
  y : K
  z : K

/-- The functions of the C math library used by the sources. -/
structure Libm (K : Type) where
  sqrt : K → K
  asin : K → K
  acos : K → K
  cos : K → K
  pi : K

section Defs

variable {K : Type} [LinearOrderedField K]

/-- Reading `v[i]` from a vertex or point vector; an index that is out of range
(undefined behaviour in the source) reads the zero vector. -/
def getVec (v : List (Vec3 K)) (i : Nat) : Vec3 K :=
  v.getD i ⟨0, 0, 0⟩

/-- Modelled from the spec: `sqr` of `globals.icc` (not among the sources), the
square of a number. -/
def sqr (a : K) : K := a * a

/-- Modelled from the spec: `Len2` of `globals.icc` (not among the sources), the
squared Euclidean length. -/
def Len2 (v : Vec3 K) : K := sqr v.x + sqr v.y + sqr v.z

/-- Modelled from the spec: `Len` of `globals.icc` (not among the sources), the
Euclidean length. -/
def Len (M : Libm K) (v : Vec3 K) : K := M.sqrt (Len2 v)

/-- Modelled from the spec: `Cross` of `globals.icc` (not among the sources), the
vector product. -/
def Cross (a b : Vec3 K) : Vec3 K :=
  ⟨a.y * b.z - a.z * b.y, a.z * b.x - a.x * b.z, a.x * b.y - a.y * b.x⟩

/-- Modelled from the spec: `Normalize3` of `globals.icc` (not among the
sources), division of the three components by the Euclidean length. -/
def Normalize3 (M : Libm K) (v : Vec3 K) : Vec3 K :=
  let norm := M.sqrt (v.x * v.x + v.y * v.y + v.z * v.z)
  ⟨v.x / norm, v.y / norm, v.z / norm⟩

/-- The scalar product written out in `search` (`p[0]*q[0] + p[1]*q[1] + p[2]*q[2]`). -/
def dot3 (a b : Vec3 K) : K := a.x * b.x + a.y * b.y + a.z * b.z

/-! ## `spherical_quadtree.cc` -/

/-- `circumcircle`: the centre `p` (on the unit sphere) and the half angle
`theta` of the circle through `v1`, `v2`, `v3`. -/
def circumcircle (M : Libm K) (v1 v2 v3 : Vec3 K) : Vec3 K × K :=
  let a : Vec3 K := ⟨v1.x - v3.x, v1.y - v3.y, v1.z - v3.z⟩
  let b : Vec3 K := ⟨v2.x - v3.x, v2.y - v3.y, v2.z - v3.z⟩
  let c : Vec3 K := ⟨a.x - b.x, a.y - b.y, a.z - b.z⟩
  let la := Len M a
  let la2 := sqr la
  let lb := Len M b
  let lb2 := sqr lb
  let axb := Cross a b
  let laxb := Len M axb
  let laxb2 := 2 * sqr laxb
  let r := (la * lb * Len M c) / (2 * laxb)
  let theta := M.asin r
  let sa : Vec3 K := ⟨lb2 * a.x, lb2 * a.y, lb2 * a.z⟩
  let sb : Vec3 K := ⟨la2 * b.x, la2 * b.y, la2 * b.z⟩
  let di : Vec3 K := ⟨sb.x - sa.x, sb.y - sa.y, sb.z - sa.z⟩
  let p := Cross di axb
  let p : Vec3 K := ⟨p.x / laxb2 + v3.x, p.y / laxb2 + v3.y, p.z / laxb2 + v3.z⟩
  (Normalize3 M p, theta)

/-- `tripleproduct`: `(a × b) · c`. -/
def tripleproduct (a b c : Vec3 K) : K :=
  let tmp := Cross a b
  tmp.x * c.x + tmp.y * c.y + tmp.z * c.z

/-- The `std::unordered_map<std::pair<size_t, size_t>, size_t>` of midpoints. -/
abbrev MiddleMap := List ((Nat × Nat) × Nat)

/-- `middle`: the index of the midpoint vertex of `a` and `b`, together with the
vertex pool and the midpoint map after the call. -/
def middle (M : Libm K) (a b : Nat) (vertices : List (Vec3 K)) (middlemap : MiddleMap) :
    Nat × List (Vec3 K) × MiddleMap :=
  let key : Nat × Nat := (a, b)
  match middlemap.lookup key with
  | some i => (i, vertices, middlemap)
  | none =>
    let va := getVec vertices a
    let vb := getVec vertices b
    let norm : Vec3 K := ⟨(va.x + vb.x) / 2, (va.y + vb.y) / 2, (va.z + vb.z) / 2⟩
    let norm := Normalize3 M norm
    let vertices := vertices ++ [norm]
    let i := vertices.length - 1
    (i, vertices, (key, i) :: middlemap)

/-- A `QuadNode`: the cached circumcircle `(ccp, ccr)`, the cached `area`, and
either the stored indices (`isleaf`) or the four children `t1 .. t4`.  The
reference member `pts` is passed to the member functions instead. -/
inductive QuadNode (K : Type) where
  | leaf (ccp : Vec3 K) (ccr area : K) (indices : List Nat) : QuadNode K
  | inner (ccp : Vec3 K) (ccr area : K) (t1 t2 t3 t4 : QuadNode K) : QuadNode K

/-- The member `ccp`. -/
def QuadNode.ccp : QuadNode K → Vec3 K
  | .leaf ccp _ _ _ => ccp
  | .inner ccp _ _ _ _ _ _ => ccp

/-- The member `ccr`. -/
def QuadNode.ccr : QuadNode K → K
  | .leaf _ ccr _ _ => ccr
  | .inner _ ccr _ _ _ _ _ => ccr

/-- The member `area`. -/
def QuadNode.area : QuadNode K → K
  | .leaf _ _ area _ => area
  | .inner _ _ area _ _ _ _ => area

/-- The member `isleaf`. -/
def QuadNode.isleaf : QuadNode K → Bool
  | .leaf _ _ _ _ => true
  | .inner _ _ _ _ _ _ _ => false

/-- The area computed in the constructor: the spherical excess
`alpha + beta + gamma - M_PI` from the normals of the three edge planes. -/
def triangleArea (M : Libm K) (w1 w2 w3 : Vec3 K) : K :=
  let a : Vec3 K := ⟨w1.x - w2.x, w1.y - w2.y, w1.z - w2.z⟩
  let b : Vec3 K := ⟨w2.x - w3.x, w2.y - w3.y, w2.z - w3.z⟩
  let c : Vec3 K := ⟨w3.x - w1.x, w3.y - w1.y, w3.z - w1.z⟩
  let A := Normalize3 M (Cross a w1)
  let B := Normalize3 M (Cross b w2)
  let C := Normalize3 M (Cross c w3)
  let alpha := M.pi - M.acos (A.x * B.x + A.y * B.y + A.z * B.z)
  let beta := M.pi - M.acos (B.x * C.x + B.y * C.y + B.z * C.z)
  let gamma := M.pi - M.acos (C.x * A.x + C.y * A.y + C.z * A.z)
  alpha + beta + gamma - M.pi

/-- The three-test cascade of the constructor: the child (1 to 4) that receives
the point `p`. -/
def childOf (w4 w5 w6 p : Vec3 K) : Nat :=
  if tripleproduct w4 w6 p ≥ 0 then 1
  else if tripleproduct w5 w4 p ≥ 0 then 2
  else if tripleproduct w6 w5 p ≥ 0 then 3
  else 4

/-- The commented-out in-triangle version of the cascade in the constructor:
four groups of three edge tests, tried in order; `none` is the last branch,
which prints `impossible` and exits. -/
def childOf12 (w1 w2 w3 w4 w5 w6 p : Vec3 K) : Option Nat :=
  if tripleproduct w1 w4 p ≥ 0 ∧ tripleproduct w4 w6 p ≥ 0 ∧ tripleproduct w6 w1 p ≥ 0 then
    some 1
  else if tripleproduct w2 w5 p ≥ 0 ∧ tripleproduct w5 w4 p ≥ 0 ∧ tripleproduct w4 w2 p ≥ 0 then
    some 2
  else if tripleproduct w3 w6 p ≥ 0 ∧ tripleproduct w6 w5 p ≥ 0 ∧ tripleproduct w5 w3 p ≥ 0 then
    some 3
  else if tripleproduct w4 w5 p ≥ 0 ∧ tripleproduct w5 w6 p ≥ 0 ∧ tripleproduct w6 w4 p ≥ 0 then
    some 4
  else none

/-- The constructor `QuadNode::QuadNode` (called `ctor` here).  The recursion of the source is not
structural, so the embedding carries a recursion budget: `none` means the budget
was used up, `some` is the node together with the vertex pool and the midpoint
map after the construction. -/
def QuadNode.ctor (M : Libm K) :
    Nat → Nat → Nat → Nat → List Nat → List (Vec3 K) → List (Vec3 K) → MiddleMap →
      Option (QuadNode K × List (Vec3 K) × MiddleMap)
  | 0, _, _, _, _, _, _, _ => none
  | fuel + 1, v1, v2, v3, _indices, _pts, vertices, middlemap =>
    let w1 := getVec vertices v1
    let w2 := getVec vertices v2
    let w3 := getVec vertices v3
    let cc := circumcircle M w1 w2 w3
    let ccp := cc.1
    let ccr := cc.2
    let area := triangleArea M w1 w2 w3
    if _indices.length ≤ 100 ∨ ccr < 1 / 10 ^ 10 then
      some (.leaf ccp ccr area _indices, vertices, middlemap)
    else
      let m4 := middle M v1 v2 vertices middlemap
      let v4 := m4.1
      let m5 := middle M v2 v3 m4.2.1 m4.2.2
      let v5 := m5.1
      let m6 := middle M v3 v1 m5.2.1 m5.2.2
      let v6 := m6.1
      let vertices := m6.2.1
      let middlemap := m6.2.2
      let w4 := getVec vertices v4
      let w5 := getVec vertices v5
      let w6 := getVec vertices v6
      let indices1 := _indices.filter (fun i => childOf w4 w5 w6 (getVec _pts i) = 1)
      let indices2 := _indices.filter (fun i => childOf w4 w5 w6 (getVec _pts i) = 2)
      let indices3 := _indices.filter (fun i => childOf w4 w5 w6 (getVec _pts i) = 3)
      let indices4 := _indices.filter (fun i => childOf w4 w5 w6 (getVec _pts i) = 4)
      match QuadNode.ctor M fuel v1 v4 v6 indices1 _pts vertices middlemap with
      | none => none
      | some (t1, vertices, middlemap) =>
        match QuadNode.ctor M fuel v2 v5 v4 indices2 _pts vertices middlemap with
        | none => none
        | some (t2, vertices, middlemap) =>
          match QuadNode.ctor M fuel v3 v6 v5 indices3 _pts vertices middlemap with
          | none => none
          | some (t3, vertices, middlemap) =>
            match QuadNode.ctor M fuel v4 v5 v6 indices4 _pts vertices middlemap with
            | none => none
            | some (t4, vertices, middlemap) =>
              some (.inner ccp ccr area t1 t2 t3 t4, vertices, middlemap)

/-- `QuadNode::getall`: the indices at or below the node (each `insert` is at
`res.begin()`, so the fourth child comes first). -/
def QuadNode.getall : QuadNode K → List Nat
  | .leaf _ _ _ indices => indices
  | .inner _ _ _ t1 t2 t3 t4 => t4.getall ++ (t3.getall ++ (t2.getall ++ t1.getall))

/-- `QuadNode::search`. -/
def QuadNode.search (M : Libm K) (pts : List (Vec3 K)) : QuadNode K → Vec3 K → K → List Nat
  | .leaf _ _ _ indices, p, r =>
    indices.filter (fun i =>
      let dot := p.x * (getVec pts i).x + p.y * (getVec pts i).y + p.z * (getVec pts i).z
      if dot ≥ 1 then true
      else
        let angle := M.acos dot
        decide (angle < r))
  | .inner ccp ccr area t1 t2 t3 t4, p, r =>
    let dot := p.x * ccp.x + p.y * ccp.y + p.z * ccp.z
    let angle := M.acos dot
    if angle > r + ccr then []
    else if angle < r - ccr then (QuadNode.inner ccp ccr area t1 t2 t3 t4).getall
    else
      let res1 := t1.search M pts p r
      let res2 := t2.search M pts p r
      let res3 := t3.search M pts p r
      let res4 := t4.search M pts p r
      res4 ++ (res3 ++ (res2 ++ res1))

/-- The loop over `all` in `QuadNode::reduce`: one draw of the Bernoulli
distribution `d` per element, in order; an element is kept when the draw is
`true`.  `bernoulli prob gen` is a draw of `std::bernoulli_distribution(prob)`
from the generator state `gen`, with the generator state after the draw. -/
def sampleAll {G : Type} (bernoulli : K → G → Bool × G) (prob : K) : List Nat → G → List Nat × G
  | [], gen => ([], gen)
  | i :: rest, gen =>
    let d := bernoulli prob gen
    let r := sampleAll bernoulli prob rest d.2
    (if d.1 then i :: r.1 else r.1, r.2)

/-- The body of the branch `isleaf || ccr * 2 < theta` of `QuadNode::reduce`,
applied to `all = getall()`. -/
def reduceHere {G : Type} (bernoulli : K → G → Bool × G) (cap_area : K) (numpts : Int)
    (area : K) (all : List Nat) (gen : G) : List Nat × G :=
  let new_numpts := (numpts : K) * area / cap_area
  if (all.length : K) ≤ new_numpts then (all, gen)
  else sampleAll bernoulli (new_numpts / (all.length : K)) all gen

/-- `QuadNode::reduce`, with the state of the global generator `gen` passed in
and out.  A `throw` is an `Except.error`; the generator state is then the one at
the `throw`. -/
def QuadNode.reduce {G : Type} (bernoulli : K → G → Bool × G) (theta cap_area : K)
    (numpts : Int) : QuadNode K → G → Except String (List Nat) × G
  | .leaf _ _ area indices, gen =>
    if numpts = 0 then (.error "nr of pts per quad cannot be zero", gen)
    else if numpts < 0 then (.error "nr of pts per quad cannot be less than zero", gen)
    else
      let r := reduceHere bernoulli cap_area numpts area indices gen
      (.ok r.1, r.2)
  | .inner ccp ccr area t1 t2 t3 t4, gen =>
    if numpts = 0 then (.error "nr of pts per quad cannot be zero", gen)
    else if numpts < 0 then (.error "nr of pts per quad cannot be less than zero", gen)
    else if ccr * 2 < theta then
      let r := reduceHere bernoulli cap_area numpts area
        (QuadNode.inner ccp ccr area t1 t2 t3 t4).getall gen
      (.ok r.1, r.2)
    else
      match t1.reduce bernoulli theta cap_area numpts gen with
      | (.error e, gen) => (.error e, gen)
      | (.ok res1, gen) =>
        match t2.reduce bernoulli theta cap_area numpts gen with
        | (.error e, gen) => (.error e, gen)
        | (.ok res2, gen) =>
          match t3.reduce bernoulli theta cap_area numpts gen with
          | (.error e, gen) => (.error e, gen)
          | (.ok res3, gen) =>
            match t4.reduce bernoulli theta cap_area numpts gen with
            | (.error e, gen) => (.error e, gen)
            | (.ok res4, gen) => (.ok (res1 ++ (res2 ++ (res3 ++ res4))), gen)

/-- A `QuadTree`: the normalized points, the vertex pool, the midpoint map and
the eight root nodes `trees[0] .. trees[7]`. -/
structure QuadTree (K : Type) where
  pts : List (Vec3 K)
  vertices : List (Vec3 K)
  middlemap : MiddleMap
  trees : List (QuadNode K)

/-- The body of the three nested loops of `QuadTree::QuadTree` for the signs
`x`, `y`, `z`: the vertex indices of the octant triangle, the first and the third
swapped when `(x > 0) ^ (y > 0) ^ (z > 0)` is `false`. -/
def mainvertex (x y z : Int) : Nat × Nat × Nat :=
  let v1 : Nat := if x < 0 then 0 else 1
  let v2 : Nat := if y < 0 then 2 else 3
  let v3 : Nat := if z < 0 then 4 else 5
  if (xor (xor (decide (x > 0)) (decide (y > 0))) (decide (z > 0))) = false then (v3, v2, v1)
  else (v1, v2, v3)

/-- The vector `mainvertices` of `QuadTree::QuadTree`. -/
def mainvertices : List (Nat × Nat × Nat) :=
  ([-1, 1] : List Int).flatMap fun x =>
    ([-1, 1] : List Int).flatMap fun y =>
      ([-1, 1] : List Int).map fun z => mainvertex x y z

/-- The six vertices pushed first by `QuadTree::QuadTree`. -/
def seedVertices : List (Vec3 K) :=
  [⟨-1, 0, 0⟩, ⟨1, 0, 0⟩, ⟨0, -1, 0⟩, ⟨0, 1, 0⟩, ⟨0, 0, -1⟩, ⟨0, 0, 1⟩]

/-- The bucket index of a normalized point:
`(int)(p[0] > 0) << 2 | (int)(p[1] > 0) << 1 | (int)(p[2] > 0)`. -/
def bucketIdx (p : Vec3 K) : Nat :=
  (((if p.x > 0 then 1 else 0) <<< 2) ||| ((if p.y > 0 then 1 else 0) <<< 1)) |||
    (if p.z > 0 then 1 else 0)

/-- The array `buckets` of `QuadTree::QuadTree`: bucket `k` holds, in increasing
order, the indices whose bucket index is `k`. -/
def buckets (pts : List (Vec3 K)) : List (List Nat) :=
  (List.range 8).map fun k => (List.range pts.length).filter fun i => bucketIdx (getVec pts i) = k

/-- The last loop of `QuadTree::QuadTree`: the root nodes are constructed one
after the other on the shared vertex pool and midpoint map. -/
def buildTrees (M : Libm K) (fuel : Nat) (pts : List (Vec3 K)) :
    List ((Nat × Nat × Nat) × List Nat) → List (Vec3 K) → MiddleMap →
      Option (List (QuadNode K) × List (Vec3 K) × MiddleMap)
  | [], vertices, middlemap => some ([], vertices, middlemap)
  | (mv, bucket) :: rest, vertices, middlemap =>
    match QuadNode.ctor M fuel mv.1 mv.2.1 mv.2.2 bucket pts vertices middlemap with
    | none => none
    | some (t, vertices, middlemap) =>
      match buildTrees M fuel pts rest vertices middlemap with
      | none => none
      | some (ts, vertices, middlemap) => some (t :: ts, vertices, middlemap)

/-- The constructor `QuadTree::QuadTree` (called `ctor` here); `fuel` is the
recursion budget of each root node. -/
def QuadTree.ctor (M : Libm K) (fuel : Nat) (_pts : List (Vec3 K)) : Option (QuadTree K) :=
  let pts := _pts.map (Normalize3 M)
  match buildTrees M fuel pts (mainvertices.zip (buckets pts)) seedVertices [] with
  | none => none
  | some (trees, vertices, middlemap) => some ⟨pts, vertices, middlemap, trees⟩

/-- `QuadTree::search`: the results of the eight roots, appended in order. -/
def QuadTree.search (M : Libm K) (t : QuadTree K) (p : Vec3 K) (r : K) : List Nat :=
  t.trees.flatMap fun n => n.search M t.pts p r

/-- The loop of `QuadTree::reduce` over the root nodes. -/
def reduceTrees {G : Type} (bernoulli : K → G → Bool × G) (theta cap_area : K) (numpts : Int) :
    List (QuadNode K) → G → Except String (List Nat) × G
  | [], gen => (.ok [], gen)
  | n :: rest, gen =>
    match n.reduce bernoulli theta cap_area numpts gen with
    | (.error e, gen) => (.error e, gen)
    | (.ok res, gen) =>
      match reduceTrees bernoulli theta cap_area numpts rest gen with
      | (.error e, gen) => (.error e, gen)
      | (.ok result, gen) => (.ok (res ++ result), gen)

/-- `QuadTree::reduce`. -/
def QuadTree.reduce {G : Type} (M : Libm K) (bernoulli : K → G → Bool × G) (t : QuadTree K)
    (theta : K) (numpts : Int) (gen : G) : Except String (List Nat) × G :=
  if numpts = 0 then (.error "nr of pts per quad cannot be zero", gen)
  else if numpts < 0 then (.error "nr of pts per quad cannot be less than zero", gen)
  else
    let cap_area := 2 * M.pi * (1 - M.cos theta)
    reduceTrees bernoulli theta cap_area numpts t.trees gen

/-! ## `kdIndexed.cc` -/

/-- Modelled from the spec: the per-thread query scratch `KDParams` of
`slam6d/kdparams.h` (not among the sources), with the members that the embedded
functions read or write.  Pointers to points hold the point. -/
structure KDParams (K : Type) where
  closest : Nat
  closest_d2 : K
  p : Vec3 K
  p0 : Vec3 K
  k : Int
  closest_neighbors : List Nat
  distances : List K
  range_neighbors : List Nat

/-- The static table `params`, indexed by the thread number. -/
abbrev ParamsTable (K : Type) := Nat → KDParams K

/-- A `KDtreeIndexed`: the borrowed points `m_data`, the live count `m_size` and
the node data `node` of the base class `KDTreeImpl` (not among the sources, kept
abstract). -/
structure KDtreeIndexed (T K : Type) where
  m_data : List (Vec3 K)
  m_size : Nat
  node : T

/-- `std::numeric_limits<size_t>::max()`. -/
def SIZE_MAX : Nat := 2 ^ 64 - 1

/-- `__DBL_MAX__`, the largest finite `double`. -/
def DBL_MAX : K := (2 - 1 / 2 ^ 52) * 2 ^ 1023

/-- `KDtreeIndexed::getNrPts`. -/
def KDtreeIndexed.getNrPts {T : Type} (t : KDtreeIndexed T K) : Nat := t.m_size

/-- `KDtreeIndexed::Remove`.  `_Remove` is the descent of the base class (a
parameter): from the node data, the points, the thread number and the table it
gives the number of removed points, the node data and the table afterwards.
`m_size -= removed` is `size_t` arithmetic. -/
def KDtreeIndexed.Remove {T : Type}
    (_Remove : T → List (Vec3 K) → Nat → ParamsTable K → Int × T × ParamsTable K)
    (t : KDtreeIndexed T K) (_p : Vec3 K) (threadNum : Nat) (params : ParamsTable K) :
    Int × KDtreeIndexed T K × ParamsTable K :=
  if t.m_size > 0 then
    let params := Function.update params threadNum
      { params threadNum with closest := 0, closest_d2 := DBL_MAX, p := _p }
    let d := _Remove t.node t.m_data threadNum params
    let removed := d.1
    (removed, { t with m_size := (((t.m_size : Int) - removed) % 2 ^ 64).toNat, node := d.2.1 },
      d.2.2)
  else (0, t, params)

/-- `KDtreeIndexed::FindClosest`; `_FindClosest` is the descent of the base
class (a parameter). -/
def KDtreeIndexed.FindClosest {T : Type}
    (_FindClosest : T → List (Vec3 K) → Nat → ParamsTable K → ParamsTable K)
    (t : KDtreeIndexed T K) (_p : Vec3 K) (maxdist2 : K) (threadNum : Nat)
    (params : ParamsTable K) : Nat × ParamsTable K :=
  let params := Function.update params threadNum
    { params threadNum with closest := SIZE_MAX, closest_d2 := maxdist2, p := _p }
  let params := _FindClosest t.node t.m_data threadNum params
  ((params threadNum).closest, params)

/-- The result loop of `kNearestNeighbors`: slot `i < k` contributes its
neighbour when its distance is `>= 0`. -/
def knnResult (k : Nat) (closest_neighbors : List Nat) (distances : List K) : List Nat :=
  (List.range k).filterMap fun i =>
    if distances.getD i 0 ≥ 0 then some (closest_neighbors.getD i 0) else none

/-- `KDtreeIndexed::kNearestNeighbors`; `_KNNSearch` is the descent of the base
class (a parameter).  The two `calloc`ed arrays are lists of length `_k`. -/
def KDtreeIndexed.kNearestNeighbors {T : Type}
    (_KNNSearch : T → List (Vec3 K) → Nat → ParamsTable K → ParamsTable K)
    (t : KDtreeIndexed T K) (_p : Vec3 K) (_k : Int) (threadNum : Nat)
    (params : ParamsTable K) : List Nat × ParamsTable K :=
  let params := Function.update params threadNum
    { params threadNum with
      closest := 0, p := _p, k := _k,
      closest_neighbors := List.replicate _k.toNat 0,
      distances := List.replicate _k.toNat (-1) }
  let params := _KNNSearch t.node t.m_data threadNum params
  (knnResult _k.toNat (params threadNum).closest_neighbors (params threadNum).distances, params)

/-- `KDtreeIndexed::AABBSearch`; `_AABBSearch` is the descent of the base class
(a parameter).  The result is paired with the table after the call. -/
def KDtreeIndexed.AABBSearch {T : Type}
    (_AABBSearch : T → List (Vec3 K) → Nat → ParamsTable K → ParamsTable K)
    (t : KDtreeIndexed T K) (_p _p0 : Vec3 K) (threadNum : Nat) (params : ParamsTable K) :
    Except String (List Nat) × ParamsTable K :=
  if _p.x > _p0.x ∨ _p.y > _p0.y ∨ _p.z > _p0.z then (.error "invalid bbox", params)
  else
    let params := Function.update params threadNum
      { params threadNum with p := _p, p0 := _p0, range_neighbors := [] }
    let params := _AABBSearch t.node t.m_data threadNum params
    (.ok (params threadNum).range_neighbors, params)

end Defs

/-! ## `normals.cc` -/

/-- `calculateNormalsAdaptiveApxKNN` of `normals.cc`: the guard on `kmin` and
`kmax`, then the loop over the points.  The loop (ANN search and eigenvalue
decomposition, both outside the sources) is the parameter `loop`, which gives
the normals that are pushed; the result is paired with the vector `normals`
after the call. -/
def calculateNormalsAdaptiveApxKNN {P K : Type}
    (loop : List P → Int → Int → Vec3 K → K → List P)
    (normals points : List P) (kmin kmax : Int) (_rPos : Vec3 K) (eps : K) :
    Except String Unit × List P :=
  if kmin > kmax then (.error "kmin must not be larger than kmax", normals)
  else (.ok (), normals ++ loop points kmin kmax _rPos eps)

/-- `calculateNormalsAdaptiveKNN` of `normals.cc`: the guard on `kmin` and
`kmax`, then the loop over the points (k-d tree search and eigenvalue
decomposition, the parameter `loop`). -/
def calculateNormalsAdaptiveKNN {P K : Type}
    (loop : List P → Int → Int → Vec3 K → List P)
    (normals points : List P) (kmin kmax : Int) (_rPos : Vec3 K) :
    Except String Unit × List P :=
  if kmin > kmax then (.error "kmin must not be larger than kmax", normals)
  else (.ok (), normals ++ loop points kmin kmax _rPos)

end Slam6D

/-! ## Predicates used in the statements -/

namespace Slam6D

/-- The math library computes in exact real arithmetic: `sqrt`, `asin`, `acos`,
`cos` and `M_PI` are the real functions and the real number. -/
def Libm.Exact (M : Libm ℝ) : Prop :=
  M.sqrt = Real.sqrt ∧ M.asin = Real.arcsin ∧ M.acos = Real.arccos ∧ M.cos = Real.cos ∧
    M.pi = Real.pi

section Predicates

variable {K : Type} [LinearOrderedField K]

/-- Componentwise difference, as written out in `circumcircle`. -/
def vsub (u v : Vec3 K) : Vec3 K := ⟨u.x - v.x, u.y - v.y, u.z - v.z⟩

/-- The value of `p` in `circumcircle` just before `Normalize3(p)`: the centre of
the circle through `v3 + a`, `v3 + b`, `v3` in the plane of the three points. -/
def circumcenter (a b v3 : Vec3 K) : Vec3 K :=
  let p := Cross ⟨Len2 a * b.x - Len2 b * a.x, Len2 a * b.y - Len2 b * a.y,
    Len2 a * b.z - Len2 b * a.z⟩ (Cross a b)
  ⟨p.x / (2 * Len2 (Cross a b)) + v3.x, p.y / (2 * Len2 (Cross a b)) + v3.y,
    p.z / (2 * Len2 (Cross a b)) + v3.z⟩

/-- The vector handed to `Normalize3` in `middle`. -/
def halfSum (va vb : Vec3 K) : Vec3 K :=
  ⟨(va.x + vb.x) / 2, (va.y + vb.y) / 2, (va.z + vb.z) / 2⟩

/-- The sum of `u` and `v`, multiplied by `c`. -/
def vscale (c : K) (u v : Vec3 K) : Vec3 K :=
  ⟨c * (u.x + v.x), c * (u.y + v.y), c * (u.z + v.z)⟩

/-- Every entry of the midpoint map names vertices of the pool, and the vertex
it maps a pair to is the normalized midpoint of the pair. -/
def MapOK (M : Libm K) (vertices : List (Vec3 K)) (middlemap : MiddleMap) : Prop :=
  ∀ a b i, middlemap.lookup (a, b) = some i →
    a < vertices.length ∧ b < vertices.length ∧ i < vertices.length ∧
      getVec vertices i = Normalize3 M (halfSum (getVec vertices a) (getVec vertices b))

/-- The cached centre `ccp` of the node and of every node below it is a unit
vector. -/
def QuadNode.unitCenters : QuadNode K → Prop
  | .leaf ccp _ _ _ => Len2 ccp = 1
  | .inner ccp _ _ t1 t2 t3 t4 =>
    Len2 ccp = 1 ∧ t1.unitCenters ∧ t2.unitCenters ∧ t3.unitCenters ∧ t4.unitCenters

/-- The node and all the nodes below it. -/
def QuadNode.subnodes : QuadNode K → List (QuadNode K)
  | .leaf ccp ccr area indices => [.leaf ccp ccr area indices]
  | .inner ccp ccr area t1 t2 t3 t4 =>
    .inner ccp ccr area t1 t2 t3 t4 ::
      (t1.subnodes ++ (t2.subnodes ++ (t3.subnodes ++ t4.subnodes)))

/-- The nodes at which `QuadNode::reduce` stops descending for the angle
`theta`: the first node on each path from the node that is a leaf or has
`ccr * 2 < theta`, in the order of the visit (`t1` to `t4`). -/
def QuadNode.terminals (theta : K) : QuadNode K → List (QuadNode K)
  | .leaf ccp ccr area indices => [.leaf ccp ccr area indices]
  | .inner ccp ccr area t1 t2 t3 t4 =>
    if ccr * 2 < theta then [.inner ccp ccr area t1 t2 t3 t4]
    else t1.terminals theta ++ (t2.terminals theta ++ (t3.terminals theta ++ t4.terminals theta))

/-- The point `p` lies in the closed spherical triangle `(w1, w2, w3)`: the three
edge tests of the source hold. -/
def InTri (w1 w2 w3 p : Vec3 K) : Prop :=
  tripleproduct w1 w2 p ≥ 0 ∧ tripleproduct w2 w3 p ≥ 0 ∧ tripleproduct w3 w1 p ≥ 0

/-- The triangle `(w1, w2, w3)` has unit vertices, pairwise at most a right angle
apart, in outward (positive) orientation. -/
def GoodTri (w1 w2 w3 : Vec3 K) : Prop :=
  Len2 w1 = 1 ∧ Len2 w2 = 1 ∧ Len2 w3 = 1 ∧
    0 ≤ dot3 w1 w2 ∧ 0 ≤ dot3 w2 w3 ∧ 0 ≤ dot3 w3 w1 ∧ 0 < tripleproduct w1 w2 w3

/-- Every index at or below the node lies in the node's spherical cap
(`acos(ccp . p_i) <= ccr`), and so for every node below it. -/
def QuadNode.capOK (acos : K → K) (pts : List (Vec3 K)) : QuadNode K → Prop
  | .leaf ccp ccr _ indices => ∀ i ∈ indices, acos (dot3 ccp (getVec pts i)) ≤ ccr
  | .inner ccp ccr area t1 t2 t3 t4 =>
    (∀ i ∈ (QuadNode.inner ccp ccr area t1 t2 t3 t4).getall,
        acos (dot3 ccp (getVec pts i)) ≤ ccr) ∧
      t1.capOK acos pts ∧ t2.capOK acos pts ∧ t3.capOK acos pts ∧ t4.capOK acos pts

/-- The squared tangent of the circumcircle half angle of a unit triangle,
written with the triple product: `|a|² |b|² |c|² / (4 T²)` for the edge vectors
`a`, `b`, `c` and the triple product `T` of the vertices. -/
def tanSq (w1 w2 w3 : Vec3 K) : K :=
  Len2 (vsub w1 w3) * Len2 (vsub w2 w3) * Len2 (vsub w1 w2) /
    (4 * (tripleproduct w1 w2 w3 * tripleproduct w1 w2 w3))

/-- The number of levels of the node: 1 for a leaf. -/
def QuadNode.depth : QuadNode K → Nat
  | .leaf _ _ _ _ => 1
  | .inner _ _ _ t1 t2 t3 t4 => 1 + max (max t1.depth t2.depth) (max t3.depth t4.depth)

end Predicates

end Slam6D

/-! # Theorems -/

set_option linter.unusedSectionVars false

namespace Slam6D

section KD

variable {K : Type} [LinearOrderedField K]

/-- C5: `AABBSearch` throws exactly when `q_min[i] > q_max[i]` for some `i`, the
error is "invalid bbox", and whenever it throws the table of query scratch is the
one it was called with (no member of any slot was written). -/
theorem AABBSearch_throws_iff {T : Type}
    (_AABBSearch : T → List (Vec3 K) → Nat → ParamsTable K → ParamsTable K)
    (t : KDtreeIndexed T K) (q_min q_max : Vec3 K) (tid : Nat) (params : ParamsTable K) :
    ((∃ e, (t.AABBSearch _AABBSearch q_min q_max tid params).1 = .error e) ↔
        (q_min.x > q_max.x ∨ q_min.y > q_max.y ∨ q_min.z > q_max.z)) ∧
      (∀ e, (t.AABBSearch _AABBSearch q_min q_max tid params).1 = .error e →
        e = "invalid bbox" ∧ (t.AABBSearch _AABBSearch q_min q_max tid params).2 = params) := by
  unfold KDtreeIndexed.AABBSearch
  by_cases h : q_min.x > q_max.x ∨ q_min.y > q_max.y ∨ q_min.z > q_max.z
  · simp only [if_pos h]
    refine ⟨⟨fun _ => h, fun _ => ⟨_, rfl⟩⟩, ?_⟩
    intro e he
    injection he with he
    exact ⟨he.symm, trivial⟩
  · simp only [if_neg h]
    refine ⟨⟨?_, fun h2 => absurd h2 h⟩, ?_⟩
    · rintro ⟨e, he⟩
      cases he
    · intro e he
      cases he

/-- C9: `FindClosest` runs the descent on the table `start` that differs from
the caller's table only in slot `tid`, where best index, best squared distance
and query point are `SIZE_MAX`, `maxDist2` and `q` whatever the slot held before,
and returns the best index found in slot `tid` after the descent; if the descent
leaves the best index as it found it, the result is `2 ^ 64 - 1`. -/
theorem FindClosest_scratch {T : Type}
    (_FindClosest : T → List (Vec3 K) → Nat → ParamsTable K → ParamsTable K)
    (t : KDtreeIndexed T K) (q : Vec3 K) (maxDist2 : K) (tid : Nat) (params : ParamsTable K) :
    ∃ start : ParamsTable K,
      (start tid).closest = SIZE_MAX ∧ (start tid).closest_d2 = maxDist2 ∧ (start tid).p = q ∧
      (∀ j, j ≠ tid → start j = params j) ∧
      t.FindClosest _FindClosest q maxDist2 tid params =
        ((_FindClosest t.node t.m_data tid start tid).closest,
          _FindClosest t.node t.m_data tid start) ∧
      ((_FindClosest t.node t.m_data tid start tid).closest = (start tid).closest →
        (t.FindClosest _FindClosest q maxDist2 tid params).1 = 2 ^ 64 - 1) := by
  refine ⟨Function.update params tid
    { params tid with closest := SIZE_MAX, closest_d2 := maxDist2, p := q }, ?_, ?_, ?_, ?_, rfl, ?_⟩
  · simp
  · simp
  · simp
  · intro j hj
    simp [Function.update_noteq hj]
  · intro h
    simp only [KDtreeIndexed.FindClosest]
    rw [h]
    simp [SIZE_MAX]

/-- The result loop of `kNearestNeighbors` on `k` slots: the neighbours of the
slots with distance `>= 0`, in slot order. -/
theorem knnResult_eq_filter (nb : List Nat) (ds : List K) :
    ∀ k, nb.length = k → ds.length = k →
      knnResult k nb ds = ((nb.zip ds).filter fun s => decide (s.2 ≥ 0)).map Prod.fst := by
  intro k
  induction k generalizing nb ds with
  | zero =>
    intro h1 h2
    have : nb = [] := List.length_eq_zero.mp h1
    subst this
    simp [knnResult]
  | succ n ih =>
    intro h1 h2
    obtain ⟨nb0, a, rfl⟩ : ∃ l a, nb = l ++ [a] := by
      have hne : nb ≠ [] := by
        intro h; rw [h] at h1; simp at h1
      exact ⟨nb.dropLast, nb.getLast hne, (List.dropLast_append_getLast hne).symm⟩
    obtain ⟨ds0, d, rfl⟩ : ∃ l a, ds = l ++ [a] := by
      have hne : ds ≠ [] := by
        intro h; rw [h] at h2; simp at h2
      exact ⟨ds.dropLast, ds.getLast hne, (List.dropLast_append_getLast hne).symm⟩
    have h1 : nb0.length = n := by simpa using h1
    have h2 : ds0.length = n := by simpa using h2
    have hz : (nb0 ++ [a]).zip (ds0 ++ [d]) = nb0.zip ds0 ++ [(a, d)] := by
      rw [List.zip_append (by rw [h1, h2])]
      rfl
    rw [hz, List.filter_append, List.map_append, ← ih nb0 ds0 h1 h2]
    unfold knnResult
    rw [List.range_succ, List.filterMap_append]
    congr 1
    · apply List.filterMap_congr
      intro i hi
      have hi : i < n := List.mem_range.mp hi
      rw [List.getD_append _ _ _ _ (by omega), List.getD_append _ _ _ _ (by omega)]
    · have e1 : (ds0 ++ [d]).getD n 0 = d := by
        rw [List.getD_append_right _ _ _ _ (by omega)]
        simp [h2]
      have e2 : (nb0 ++ [a]).getD n 0 = a := by
        rw [List.getD_append_right _ _ _ _ (by omega)]
        simp [h1]
      simp only [List.filterMap_cons, List.filterMap_nil, e1, e2, List.filter_cons,
        List.filter_nil]
      by_cases hd : d ≥ 0 <;> simp [hd]

/-- The number of entries that the filter of the result loop keeps is the number
of slots with distance `>= 0`. -/
theorem zip_filter_length (nb : List Nat) (ds : List K) (h : nb.length = ds.length) :
    (((nb.zip ds).filter fun s => decide (s.2 ≥ 0)).map Prod.fst).length =
      (ds.filter fun d => decide (d ≥ 0)).length := by
  have hm : (nb.zip ds).map Prod.snd = ds := List.map_snd_zip _ _ (le_of_eq h.symm)
  have hf : ds.filter (fun d => decide (d ≥ 0)) =
      ((nb.zip ds).filter ((fun d => decide (d ≥ 0)) ∘ Prod.snd)).map Prod.snd := by
    rw [← List.filter_map, hm]
  rw [hf, List.length_map, List.length_map]
  rfl

/-- Every entry that the filter of the result loop keeps is the neighbour of a
slot with distance `>= 0`. -/
theorem zip_filter_mem (nb : List Nat) (ds : List K) (x : Nat)
    (hx : x ∈ ((nb.zip ds).filter fun s => decide (s.2 ≥ 0)).map Prod.fst) :
    ∃ i, i < nb.length ∧ i < ds.length ∧ 0 ≤ ds.getD i 0 ∧ nb.getD i 0 = x := by
  obtain ⟨s, hs, rfl⟩ := List.mem_map.mp hx
  obtain ⟨hz, hd⟩ := List.mem_filter.mp hs
  obtain ⟨i, hi, he⟩ := List.getElem_of_mem hz
  rw [List.length_zip] at hi
  have h1 : i < nb.length := lt_of_lt_of_le hi (min_le_left _ _)
  have h2 : i < ds.length := lt_of_lt_of_le hi (min_le_right _ _)
  rw [List.getElem_zip] at he
  refine ⟨i, h1, h2, ?_, ?_⟩
  · rw [List.getD_eq_getElem _ _ h2]
    have : s.2 = ds[i] := by rw [← he]
    rw [← this]
    simpa using hd
  · rw [List.getD_eq_getElem _ _ h1]
    rw [← he]

/-- C8: for `k >= 0` and a descent that keeps the two result arrays at their `k`
slots, `kNearestNeighbors` runs the descent on the table `start` that differs
from the caller's table only in slot `tid`, where the query is `q`, the count is
`k`, and the two arrays have `k` slots with neighbour 0 and distance `-1`, and it
returns exactly the neighbours of the slots whose distance after the descent is
`>= 0`, in slot order.  The result has at most `k` entries, as many as there are
slots with distance `>= 0`, every entry is the neighbour of such a slot, and if
the descent leaves the distances as it found them (no slot filled) the result is
empty. -/
theorem kNearestNeighbors_slots {T : Type}
    (_KNNSearch : T → List (Vec3 K) → Nat → ParamsTable K → ParamsTable K)
    (t : KDtreeIndexed T K) (q : Vec3 K) (k : Int) (tid : Nat) (params : ParamsTable K)
    (hk : 0 ≤ k)
    (hslots : ∀ tb : ParamsTable K,
      (_KNNSearch t.node t.m_data tid tb tid).closest_neighbors.length =
          (tb tid).closest_neighbors.length ∧
        (_KNNSearch t.node t.m_data tid tb tid).distances.length = (tb tid).distances.length) :
    ∃ start : ParamsTable K,
      (start tid).closest_neighbors = List.replicate k.toNat 0 ∧
      (start tid).distances = List.replicate k.toNat (-1) ∧
      (start tid).p = q ∧ (start tid).k = k ∧
      (∀ j, j ≠ tid → start j = params j) ∧
      (t.kNearestNeighbors _KNNSearch q k tid params).2 = _KNNSearch t.node t.m_data tid start ∧
      (t.kNearestNeighbors _KNNSearch q k tid params).1 =
        ((((_KNNSearch t.node t.m_data tid start tid).closest_neighbors.zip
          (_KNNSearch t.node t.m_data tid start tid).distances).filter
            fun s => decide (s.2 ≥ 0)).map Prod.fst) ∧
      ((t.kNearestNeighbors _KNNSearch q k tid params).1.length : Int) ≤ k ∧
      (t.kNearestNeighbors _KNNSearch q k tid params).1.length =
        ((_KNNSearch t.node t.m_data tid start tid).distances.filter
          fun d => decide (d ≥ 0)).length ∧
      (∀ x ∈ (t.kNearestNeighbors _KNNSearch q k tid params).1, ∃ i, i < k.toNat ∧
        0 ≤ (_KNNSearch t.node t.m_data tid start tid).distances.getD i 0 ∧
        (_KNNSearch t.node t.m_data tid start tid).closest_neighbors.getD i 0 = x) ∧
      ((_KNNSearch t.node t.m_data tid start tid).distances = (start tid).distances →
        (t.kNearestNeighbors _KNNSearch q k tid params).1 = []) := by
  have h := hslots (Function.update params tid
    { params tid with
      closest := 0, p := q, k := k,
      closest_neighbors := List.replicate k.toNat 0,
      distances := List.replicate k.toNat (-1) })
  simp only [Function.update_same, List.length_replicate] at h
  obtain ⟨h1, h2⟩ := h
  have hres := knnResult_eq_filter _ _ k.toNat h1 h2
  refine ⟨Function.update params tid
    { params tid with
      closest := 0, p := q, k := k,
      closest_neighbors := List.replicate k.toNat 0,
      distances := List.replicate k.toNat (-1) }, ?_, ?_, ?_, ?_, ?_, rfl, hres, ?_, ?_, ?_, ?_⟩
  · simp
  · simp
  · simp
  · simp
  · intro j hj
    simp [Function.update_noteq hj]
  · simp only [KDtreeIndexed.kNearestNeighbors]
    rw [hres]
    refine le_trans (Int.ofNat_le.mpr ?_) (le_of_eq (Int.toNat_of_nonneg hk))
    rw [List.length_map]
    refine le_trans (List.length_filter_le _ _) ?_
    rw [List.length_zip, h1, h2, min_self]
  · simp only [KDtreeIndexed.kNearestNeighbors]
    rw [hres]
    exact zip_filter_length _ _ (by rw [h1, h2])
  · intro x hx
    simp only [KDtreeIndexed.kNearestNeighbors] at hx
    rw [hres] at hx
    obtain ⟨i, hi, _, hd, hn⟩ := zip_filter_mem _ _ x hx
    exact ⟨i, by rw [← h1]; exact hi, hd, hn⟩
  · intro hd
    simp only [KDtreeIndexed.kNearestNeighbors]
    rw [hres, hd]
    simp only [Function.update_same]
    rw [List.map_eq_nil_iff, List.filter_eq_nil_iff]
    intro s hs
    have := (List.of_mem_zip hs).2
    rw [List.mem_replicate] at this
    rw [this.2]
    simp

/-- C8 at a concrete input: two slots, a descent that fills slot 0 with neighbour
7 at distance 3 and leaves slot 1 unset; the result is `[7]`, without the
neighbour 0 of the unfilled slot. -/
theorem kNearestNeighbors_slots_witness :
    (KDtreeIndexed.kNearestNeighbors (K := ℚ) (T := Unit)
      (fun _ _ tid tb => Function.update tb tid
        { tb tid with
          closest_neighbors := (tb tid).closest_neighbors.set 0 7,
          distances := (tb tid).distances.set 0 3 })
      ⟨[], 5, ()⟩ ⟨0, 0, 0⟩ 2 0 (fun _ => ⟨0, 0, ⟨0, 0, 0⟩, ⟨0, 0, 0⟩, 0, [], [], []⟩)).1 = [7] := by
  obtain ⟨start, h1, h2, _, _, _, _, hres, _⟩ := kNearestNeighbors_slots (K := ℚ) (T := Unit)
    (fun _ _ tid tb => Function.update tb tid
        { tb tid with
          closest_neighbors := (tb tid).closest_neighbors.set 0 7,
          distances := (tb tid).distances.set 0 3 })
    ⟨[], 5, ()⟩ ⟨0, 0, 0⟩ 2 0
    (fun _ => ⟨0, 0, ⟨0, 0, 0⟩, ⟨0, 0, 0⟩, 0, [], [], []⟩) (by decide)
    (by intro tb; simp)
  rw [hres]
  simp only [Function.update_same, h1, h2]
  simp [List.replicate]

/-- C10: with a descent that reports 0 or 1 removed points and a live count in
the range of `size_t`, the live count after `Remove` is the live count before
minus the returned value; on a tree with live count 0 `Remove` returns 0 and
hands back the tree and the table untouched (the descent is not run). -/
theorem Remove_live_count {T : Type}
    (_Remove : T → List (Vec3 K) → Nat → ParamsTable K → Int × T × ParamsTable K)
    (hdescent : ∀ n d i tb, (_Remove n d i tb).1 = 0 ∨ (_Remove n d i tb).1 = 1)
    (t : KDtreeIndexed T K) (hsize : t.m_size < 2 ^ 64)
    (q : Vec3 K) (tid : Nat) (params : ParamsTable K) :
    ((t.Remove _Remove q tid params).2.1.getNrPts : Int) =
        (t.getNrPts : Int) - (t.Remove _Remove q tid params).1 ∧
      (t.getNrPts = 0 → t.Remove _Remove q tid params = (0, t, params)) := by
  unfold KDtreeIndexed.Remove KDtreeIndexed.getNrPts
  by_cases h : t.m_size > 0
  · simp only [if_pos h]
    refine ⟨?_, fun h0 => by omega⟩
    rcases hdescent t.node t.m_data tid (Function.update params tid
      { params tid with closest := 0, closest_d2 := DBL_MAX, p := q }) with h1 | h1
    · rw [h1]
      omega
    · rw [h1]
      omega
  · simp only [if_neg h]
    refine ⟨by simp, fun _ => trivial⟩

/-- C10 at a concrete input: live count 3 and a descent that removes one point. -/
theorem Remove_live_count_witness :
    (KDtreeIndexed.Remove (K := ℚ) (T := Unit) (fun _ _ _ tb => (1, (), tb)) ⟨[], 3, ()⟩
        ⟨0, 0, 0⟩ 0 (fun _ => ⟨0, 0, ⟨0, 0, 0⟩, ⟨0, 0, 0⟩, 0, [], [], []⟩)).1 = 1 ∧
      (KDtreeIndexed.Remove (K := ℚ) (T := Unit) (fun _ _ _ tb => (1, (), tb)) ⟨[], 3, ()⟩
        ⟨0, 0, 0⟩ 0 (fun _ => ⟨0, 0, ⟨0, 0, 0⟩, ⟨0, 0, 0⟩, 0, [], [], []⟩)).2.1.getNrPts = 2 := by
  have h := (Remove_live_count (K := ℚ) (T := Unit) (fun _ _ _ tb => (1, (), tb))
    (fun _ _ _ _ => Or.inr rfl) ⟨[], 3, ()⟩ (by norm_num) ⟨0, 0, 0⟩ 0
    (fun _ => ⟨0, 0, ⟨0, 0, 0⟩, ⟨0, 0, 0⟩, 0, [], [], []⟩)).1
  have h1 : (KDtreeIndexed.Remove (K := ℚ) (T := Unit) (fun _ _ _ tb => (1, (), tb)) ⟨[], 3, ()⟩
        ⟨0, 0, 0⟩ 0 (fun _ => ⟨0, 0, ⟨0, 0, 0⟩, ⟨0, 0, 0⟩, 0, [], [], []⟩)).1 = 1 := by
    simp [KDtreeIndexed.Remove]
  refine ⟨h1, ?_⟩
  rw [h1] at h
  simp only [KDtreeIndexed.getNrPts] at h ⊢
  omega

end KD

section Quad

variable {K : Type} [LinearOrderedField K]

/-- With `numpts > 0` the recursive `QuadNode::reduce` never throws. -/
theorem QuadNode_reduce_ok {G : Type} (bernoulli : K → G → Bool × G) (theta cap_area : K)
    (numpts : Int) (hn : 0 < numpts) (n : QuadNode K) :
    ∀ gen, ∃ res, (n.reduce bernoulli theta cap_area numpts gen).1 = .ok res := by
  have h0 : ¬ numpts = 0 := by omega
  have h1 : ¬ numpts < 0 := by omega
  induction n with
  | leaf ccp ccr area indices =>
    intro gen
    simp only [QuadNode.reduce, if_neg h0, if_neg h1]
    exact ⟨_, rfl⟩
  | inner ccp ccr area t1 t2 t3 t4 ih1 ih2 ih3 ih4 =>
    intro gen
    simp only [QuadNode.reduce, if_neg h0, if_neg h1]
    by_cases hc : ccr * 2 < theta
    · simp only [if_pos hc]
      exact ⟨_, rfl⟩
    · simp only [if_neg hc]
      obtain ⟨r1, e1⟩ := ih1 gen
      rcases hq1 : t1.reduce bernoulli theta cap_area numpts gen with ⟨a1, g1⟩
      rw [hq1] at e1
      simp only at e1
      subst e1
      dsimp only
      obtain ⟨r2, e2⟩ := ih2 g1
      rcases hq2 : t2.reduce bernoulli theta cap_area numpts g1 with ⟨a2, g2⟩
      rw [hq2] at e2
      simp only at e2
      subst e2
      dsimp only
      obtain ⟨r3, e3⟩ := ih3 g2
      rcases hq3 : t3.reduce bernoulli theta cap_area numpts g2 with ⟨a3, g3⟩
      rw [hq3] at e3
      simp only at e3
      subst e3
      dsimp only
      obtain ⟨r4, e4⟩ := ih4 g3
      rcases hq4 : t4.reduce bernoulli theta cap_area numpts g3 with ⟨a4, g4⟩
      rw [hq4] at e4
      simp only at e4
      subst e4
      dsimp only
      exact ⟨_, rfl⟩

/-- With `numpts > 0` the loop of `QuadTree::reduce` over the roots never throws. -/
theorem reduceTrees_ok {G : Type} (bernoulli : K → G → Bool × G) (theta cap_area : K)
    (numpts : Int) (hn : 0 < numpts) (ts : List (QuadNode K)) :
    ∀ gen, ∃ res, (reduceTrees bernoulli theta cap_area numpts ts gen).1 = .ok res := by
  induction ts with
  | nil =>
    intro gen
    exact ⟨_, rfl⟩
  | cons n rest ih =>
    intro gen
    simp only [reduceTrees]
    obtain ⟨r1, e1⟩ := QuadNode_reduce_ok bernoulli theta cap_area numpts hn n gen
    rcases hq1 : n.reduce bernoulli theta cap_area numpts gen with ⟨a1, g1⟩
    rw [hq1] at e1
    simp only at e1
    subst e1
    dsimp only
    obtain ⟨r2, e2⟩ := ih g1
    rcases hq2 : reduceTrees bernoulli theta cap_area numpts rest g1 with ⟨a2, g2⟩
    rw [hq2] at e2
    simp only at e2
    subst e2
    dsimp only
    exact ⟨_, rfl⟩

/-- C6: `QuadTree::reduce` throws exactly when `numpts <= 0`; when it does, the
outcome is an error paired with the generator state it was called with, and it
is the same for every tree and every Bernoulli source (no node is visited and no
random number is drawn). -/
theorem QuadTree_reduce_throws_iff {G : Type} (M : Libm K) (bernoulli : K → G → Bool × G)
    (t : QuadTree K) (theta : K) (numpts : Int) (gen : G) :
    ((∃ e, (t.reduce M bernoulli theta numpts gen).1 = .error e) ↔ numpts ≤ 0) ∧
      (numpts ≤ 0 → ∃ e, ∀ (t' : QuadTree K) (bernoulli' : K → G → Bool × G),
        t'.reduce M bernoulli' theta numpts gen = (.error e, gen)) := by
  constructor
  · constructor
    · rintro ⟨e, he⟩
      by_contra hpos
      have hn : 0 < numpts := by omega
      have h0 : ¬ numpts = 0 := by omega
      have h1 : ¬ numpts < 0 := by omega
      simp only [QuadTree.reduce, if_neg h0, if_neg h1] at he
      obtain ⟨res, hres⟩ := reduceTrees_ok bernoulli theta
        (2 * M.pi * (1 - M.cos theta)) numpts hn t.trees gen
      rw [hres] at he
      cases he
    · intro hle
      by_cases h0 : numpts = 0
      · exact ⟨"nr of pts per quad cannot be zero", by simp only [QuadTree.reduce, if_pos h0]⟩
      · have h1 : numpts < 0 := by omega
        exact ⟨"nr of pts per quad cannot be less than zero",
          by simp only [QuadTree.reduce, if_neg h0, if_pos h1]⟩
  · intro hle
    by_cases h0 : numpts = 0
    · exact ⟨"nr of pts per quad cannot be zero",
        fun t' b' => by simp only [QuadTree.reduce, if_pos h0]⟩
    · have h1 : numpts < 0 := by omega
      exact ⟨"nr of pts per quad cannot be less than zero",
        fun t' b' => by simp only [QuadTree.reduce, if_neg h0, if_pos h1]⟩

/-- C4 (the code differs): on a pool and a map that hold neither `(a, b)` nor
`(b, a)`, with `a ≠ b`, the call `middle(b, a)` right after `middle(a, b)` does
not find the midpoint stored by the first call: it returns a different index and
appends one more vertex to the pool. -/
theorem middle_reversed_pair (M : Libm K) (a b : Nat) (vertices : List (Vec3 K))
    (middlemap : MiddleMap) (hab : a ≠ b)
    (h1 : middlemap.lookup (a, b) = none) (h2 : middlemap.lookup (b, a) = none) :
    (middle M a b vertices middlemap).1 = vertices.length ∧
      (middle M b a (middle M a b vertices middlemap).2.1
        (middle M a b vertices middlemap).2.2).1 = vertices.length + 1 ∧
      (middle M b a (middle M a b vertices middlemap).2.1
        (middle M a b vertices middlemap).2.2).2.1.length = vertices.length + 2 := by
  have hkey : ((b, a) == (a, b)) = false := by
    simp only [beq_eq_false_iff_ne, ne_eq, Prod.mk.injEq, not_and]
    intro h
    exact absurd h.symm hab
  have e1 : middle M a b vertices middlemap =
      (vertices.length, vertices ++ [Normalize3 M
        ⟨((getVec vertices a).x + (getVec vertices b).x) / 2,
          ((getVec vertices a).y + (getVec vertices b).y) / 2,
          ((getVec vertices a).z + (getVec vertices b).z) / 2⟩],
        ((a, b), vertices.length) :: middlemap) := by
    simp [middle, h1]
  rw [e1]
  refine ⟨rfl, ?_, ?_⟩
  · simp [middle, List.lookup, hkey, h2]
  · simp [middle, List.lookup, hkey, h2]

/-- C4 at a concrete input: on the six seed vertices and an empty map,
`middle(2, 0)` returns 6 and `middle(0, 2)` after it returns 7, the pool then
holding 8 vertices. -/
theorem middle_reversed_pair_witness :
    (middle (K := ℝ) ⟨Real.sqrt, Real.arcsin, Real.arccos, Real.cos, Real.pi⟩ 2 0
        seedVertices []).1 = 6 ∧
      (middle (K := ℝ) ⟨Real.sqrt, Real.arcsin, Real.arccos, Real.cos, Real.pi⟩ 0 2
        (middle (K := ℝ) ⟨Real.sqrt, Real.arcsin, Real.arccos, Real.cos, Real.pi⟩ 2 0
          seedVertices []).2.1
        (middle (K := ℝ) ⟨Real.sqrt, Real.arcsin, Real.arccos, Real.cos, Real.pi⟩ 2 0
          seedVertices []).2.2).1 = 7 ∧
      (middle (K := ℝ) ⟨Real.sqrt, Real.arcsin, Real.arccos, Real.cos, Real.pi⟩ 0 2
        (middle (K := ℝ) ⟨Real.sqrt, Real.arcsin, Real.arccos, Real.cos, Real.pi⟩ 2 0
          seedVertices []).2.1
        (middle (K := ℝ) ⟨Real.sqrt, Real.arcsin, Real.arccos, Real.cos, Real.pi⟩ 2 0
          seedVertices []).2.2).2.1.length = 8 :=
  middle_reversed_pair (K := ℝ) ⟨Real.sqrt, Real.arcsin, Real.arccos, Real.cos, Real.pi⟩ 2 0
    seedVertices [] (by decide) rfl rfl

end Quad

end Slam6D

namespace Slam6D

section Perm

variable {K : Type} [LinearOrderedField K]

/-- Splitting a list by the value of a key below `n` and concatenating the
parts in key order is a permutation of the elements whose key is below `n`. -/
theorem flatMap_filter_perm {α : Type} (f : α → Nat) (l : List α) (n : Nat) :
    ((List.range n).flatMap fun k => l.filter fun a => decide (f a = k)).Perm
      (l.filter fun a => decide (f a < n)) := by
  induction n with
  | zero => simp
  | succ n ih =>
    rw [List.range_succ, List.flatMap_append]
    simp only [List.flatMap_cons, List.flatMap_nil, List.append_nil]
    have h1 : (l.filter fun a => decide (f a < n)) =
        (l.filter fun a => decide (f a < n + 1)).filter fun a => decide (f a < n) := by
      rw [List.filter_filter]
      apply List.filter_congr
      intro a _
      by_cases h : f a < n
      · have : f a < n + 1 := by omega
        simp [h, this]
      · simp [h]
    have h2 : (l.filter fun a => decide (f a = n)) =
        (l.filter fun a => decide (f a < n + 1)).filter fun a => !decide (f a < n) := by
      rw [List.filter_filter]
      apply List.filter_congr
      intro a _
      by_cases h : f a = n
      · simp [h]
      · by_cases h3 : f a < n
        · simp [h, h3]
        · have : ¬ f a < n + 1 := by omega
          simp [h, this]
    refine (List.Perm.append_right _ ih).trans ?_
    rw [h1, h2]
    exact List.filter_append_perm _ _

/-- The cascade always names one of the four children. -/
theorem childOf_range (w4 w5 w6 p : Vec3 K) :
    1 ≤ childOf w4 w5 w6 p ∧ childOf w4 w5 w6 p < 5 := by
  unfold childOf
  split_ifs <;> omega

/-- The four index lists of the constructor, concatenated, are a permutation of
the indices handed to the node. -/
theorem children_indices_perm (w4 w5 w6 : Vec3 K) (pts : List (Vec3 K)) (l : List Nat) :
    ((l.filter fun i => childOf w4 w5 w6 (getVec pts i) = 4) ++
      ((l.filter fun i => childOf w4 w5 w6 (getVec pts i) = 3) ++
        ((l.filter fun i => childOf w4 w5 w6 (getVec pts i) = 2) ++
          (l.filter fun i => childOf w4 w5 w6 (getVec pts i) = 1)))).Perm l := by
  have h := flatMap_filter_perm (fun i => childOf w4 w5 w6 (getVec pts i)) l 5
  have hall : (l.filter fun a => decide (childOf w4 w5 w6 (getVec pts a) < 5)) = l := by
    rw [List.filter_eq_self]
    intro a _
    simpa using (childOf_range w4 w5 w6 (getVec pts a)).2
  have h0 : (l.filter fun a => decide (childOf w4 w5 w6 (getVec pts a) = 0)) = [] := by
    rw [List.filter_eq_nil_iff]
    intro a _
    have := (childOf_range w4 w5 w6 (getVec pts a)).1
    simp
    omega
  rw [hall] at h
  have hr : List.range 5 = [0, 1, 2, 3, 4] := by decide
  rw [hr] at h
  simp only [List.flatMap_cons, List.flatMap_nil, List.append_nil, h0, List.nil_append] at h
  refine List.Perm.trans ?_ h
  have hY := @List.perm_append_comm _
    (l.filter fun a => decide (childOf w4 w5 w6 (getVec pts a) = 2))
    (l.filter fun a => decide (childOf w4 w5 w6 (getVec pts a) = 1))
  have hX := (@List.perm_append_comm _
    (l.filter fun a => decide (childOf w4 w5 w6 (getVec pts a) = 3))
    ((l.filter fun a => decide (childOf w4 w5 w6 (getVec pts a) = 2)) ++
      (l.filter fun a => decide (childOf w4 w5 w6 (getVec pts a) = 1)))).trans
        (List.Perm.append_right _ hY)
  have hZ := (@List.perm_append_comm _
    (l.filter fun a => decide (childOf w4 w5 w6 (getVec pts a) = 4))
    ((l.filter fun a => decide (childOf w4 w5 w6 (getVec pts a) = 3)) ++
      ((l.filter fun a => decide (childOf w4 w5 w6 (getVec pts a) = 2)) ++
      (l.filter fun a => decide (childOf w4 w5 w6 (getVec pts a) = 1))))).trans
        (List.Perm.append_right _ hX)
  simpa only [List.append_assoc] using hZ

/-- Inversion of one step of the constructor: a constructed node is either a
leaf holding the indices it was given, or an inner node whose four children were
constructed, in order, from the midpoints `v4`, `v5`, `v6` and the four index
lists of the cascade. -/
theorem QuadNode_ctor_succ_inv (M : Libm K) (pts : List (Vec3 K))
    (fuel v1 v2 v3 : Nat) (indices : List Nat) (vertices : List (Vec3 K))
    (middlemap : MiddleMap) (r : QuadNode K × List (Vec3 K) × MiddleMap)
    (h : QuadNode.ctor M (fuel + 1) v1 v2 v3 indices pts vertices middlemap = some r) :
    ((indices.length ≤ 100 ∨
        (circumcircle M (getVec vertices v1) (getVec vertices v2) (getVec vertices v3)).2
          < 1 / 10 ^ 10) ∧
      r = (.leaf (circumcircle M (getVec vertices v1) (getVec vertices v2) (getVec vertices v3)).1
          (circumcircle M (getVec vertices v1) (getVec vertices v2) (getVec vertices v3)).2
          (triangleArea M (getVec vertices v1) (getVec vertices v2) (getVec vertices v3))
          indices, vertices, middlemap)) ∨
    (¬ (indices.length ≤ 100 ∨
        (circumcircle M (getVec vertices v1) (getVec vertices v2) (getVec vertices v3)).2
          < 1 / 10 ^ 10) ∧
      ∃ (m4 m5 m6 : Nat × List (Vec3 K) × MiddleMap) (t1 t2 t3 t4 : QuadNode K)
        (s1 s2 s3 s4 : List (Vec3 K) × MiddleMap),
        m4 = middle M v1 v2 vertices middlemap ∧
        m5 = middle M v2 v3 m4.2.1 m4.2.2 ∧
        m6 = middle M v3 v1 m5.2.1 m5.2.2 ∧
        QuadNode.ctor M fuel v1 m4.1 m6.1
          (indices.filter fun i => childOf (getVec m6.2.1 m4.1) (getVec m6.2.1 m5.1)
            (getVec m6.2.1 m6.1) (getVec pts i) = 1) pts m6.2.1 m6.2.2 = some (t1, s1) ∧
        QuadNode.ctor M fuel v2 m5.1 m4.1
          (indices.filter fun i => childOf (getVec m6.2.1 m4.1) (getVec m6.2.1 m5.1)
            (getVec m6.2.1 m6.1) (getVec pts i) = 2) pts s1.1 s1.2 = some (t2, s2) ∧
        QuadNode.ctor M fuel v3 m6.1 m5.1
          (indices.filter fun i => childOf (getVec m6.2.1 m4.1) (getVec m6.2.1 m5.1)
            (getVec m6.2.1 m6.1) (getVec pts i) = 3) pts s2.1 s2.2 = some (t3, s3) ∧
        QuadNode.ctor M fuel m4.1 m5.1 m6.1
          (indices.filter fun i => childOf (getVec m6.2.1 m4.1) (getVec m6.2.1 m5.1)
            (getVec m6.2.1 m6.1) (getVec pts i) = 4) pts s3.1 s3.2 = some (t4, s4) ∧
        r = (.inner
          (circumcircle M (getVec vertices v1) (getVec vertices v2) (getVec vertices v3)).1
          (circumcircle M (getVec vertices v1) (getVec vertices v2) (getVec vertices v3)).2
          (triangleArea M (getVec vertices v1) (getVec vertices v2) (getVec vertices v3))
          t1 t2 t3 t4, s4)) := by
  simp only [QuadNode.ctor] at h
  split_ifs at h with hleaf
  · left
    cases h
    exact ⟨hleaf, rfl⟩
  · right
    refine ⟨hleaf, ?_⟩
    split at h
    · cases h
    · rename_i t1 vs1 mm1 e1
      split at h
      · cases h
      · rename_i t2 vs2 mm2 e2
        split at h
        · cases h
        · rename_i t3 vs3 mm3 e3
          split at h
          · cases h
          · rename_i t4 vs4 mm4 e4
            cases h
            exact ⟨_, _, _, t1, t2, t3, t4, (vs1, mm1), (vs2, mm2), (vs3, mm3), (vs4, mm4),
              rfl, rfl, rfl, e1, e2, e3, e4, rfl⟩

/-- The indices at or below a constructed node are a permutation of the indices
handed to its constructor. -/
theorem QuadNode_ctor_getall_perm (M : Libm K) (pts : List (Vec3 K)) :
    ∀ (fuel v1 v2 v3 : Nat) (indices : List Nat) (vertices : List (Vec3 K))
      (middlemap : MiddleMap) (r : QuadNode K × List (Vec3 K) × MiddleMap),
      QuadNode.ctor M fuel v1 v2 v3 indices pts vertices middlemap = some r →
        r.1.getall.Perm indices := by
  intro fuel
  induction fuel with
  | zero =>
    intro v1 v2 v3 indices vertices middlemap r h
    simp [QuadNode.ctor] at h
  | succ fuel ih =>
    intro v1 v2 v3 indices vertices middlemap r h
    rcases QuadNode_ctor_succ_inv M pts fuel v1 v2 v3 indices vertices middlemap r h with
      ⟨_, hr⟩ | ⟨_, m4, m5, m6, t1, t2, t3, t4, s1, s2, s3, s4, _, _, _, e1, e2, e3, e4, hr⟩
    · rw [hr]
      exact List.Perm.refl _
    · rw [hr]
      have p1 := ih _ _ _ _ _ _ _ e1
      have p2 := ih _ _ _ _ _ _ _ e2
      have p3 := ih _ _ _ _ _ _ _ e3
      have p4 := ih _ _ _ _ _ _ _ e4
      simp only [QuadNode.getall]
      exact (p4.append (p3.append (p2.append p1))).trans
        (children_indices_perm (getVec m6.2.1 m4.1) (getVec m6.2.1 m5.1)
            (getVec m6.2.1 m6.1) pts indices)

/-- The indices below the roots built by the last loop of `QuadTree::QuadTree`
are a permutation of the buckets they were built from, and there is one root per
bucket. -/
theorem buildTrees_getall_perm (M : Libm K) (fuel : Nat) (pts : List (Vec3 K)) :
    ∀ (l : List ((Nat × Nat × Nat) × List Nat)) (vertices : List (Vec3 K))
      (middlemap : MiddleMap) (r : List (QuadNode K) × List (Vec3 K) × MiddleMap),
      buildTrees M fuel pts l vertices middlemap = some r →
        (r.1.flatMap QuadNode.getall).Perm (l.flatMap fun x => x.2) ∧ r.1.length = l.length := by
  intro l
  induction l with
  | nil =>
    intro vertices middlemap r h
    simp only [buildTrees] at h
    cases h
    exact ⟨List.Perm.refl _, rfl⟩
  | cons x rest ih =>
    intro vertices middlemap r h
    obtain ⟨mv, bucket⟩ := x
    simp only [buildTrees] at h
    split at h
    · cases h
    · rename_i t vs mm e1
      split at h
      · cases h
      · rename_i ts vs2 mm2 e2
        cases h
        obtain ⟨p2, l2⟩ := ih _ _ _ e2
        have p1 := QuadNode_ctor_getall_perm M pts _ _ _ _ _ _ _ _ e1
        simp only [List.flatMap_cons, List.length_cons]
        exact ⟨p1.append p2, by rw [l2]⟩

/-- A bucket index is one of `0 .. 7`. -/
theorem bucketIdx_lt (p : Vec3 K) : bucketIdx p < 8 := by
  unfold bucketIdx
  split_ifs <;> decide

/-- The eight buckets, concatenated, are a permutation of the indices
`0 .. N-1`. -/
theorem buckets_perm (pts : List (Vec3 K)) :
    ((buckets pts).flatMap fun b => b).Perm (List.range pts.length) := by
  have h := flatMap_filter_perm (fun i => bucketIdx (getVec pts i)) (List.range pts.length) 8
  have hall : ((List.range pts.length).filter fun a => decide (bucketIdx (getVec pts a) < 8)) =
      List.range pts.length := by
    rw [List.filter_eq_self]
    intro a _
    simpa using bucketIdx_lt (getVec pts a)
  rw [hall] at h
  refine List.Perm.trans (List.Perm.of_eq ?_) h
  simp only [buckets, List.flatMap_map]

/-- The vector `mainvertices` has eight entries. -/
theorem mainvertices_length : mainvertices.length = 8 := by
  decide

/-- The array `buckets` has eight entries. -/
theorem buckets_length (pts : List (Vec3 K)) : (buckets pts).length = 8 := by
  simp [buckets]

/-- A constructor call with at most 100 indices and a positive budget returns a
leaf and leaves the vertex pool and the midpoint map as they were. -/
theorem QuadNode_ctor_small (M : Libm K) (pts : List (Vec3 K)) (fuel v1 v2 v3 : Nat)
    (indices : List Nat) (vertices : List (Vec3 K)) (middlemap : MiddleMap)
    (h : indices.length ≤ 100) :
    QuadNode.ctor M (fuel + 1) v1 v2 v3 indices pts vertices middlemap =
      some (.leaf (circumcircle M (getVec vertices v1) (getVec vertices v2) (getVec vertices v3)).1
        (circumcircle M (getVec vertices v1) (getVec vertices v2) (getVec vertices v3)).2
        (triangleArea M (getVec vertices v1) (getVec vertices v2) (getVec vertices v3))
        indices, vertices, middlemap) := by
  simp only [QuadNode.ctor]
  rw [if_pos (Or.inl h)]

/-- The roots of a constructed tree: there are eight of them and the indices at
or below them, concatenated, are a permutation of `0 .. N-1`. -/
theorem QuadTree_ctor_roots_perm (M : Libm K) (fuel : Nat) (pts : List (Vec3 K))
    (t : QuadTree K) (h : QuadTree.ctor M fuel pts = some t) :
    t.trees.length = 8 ∧
      (t.trees.flatMap QuadNode.getall).Perm (List.range pts.length) := by
  simp only [QuadTree.ctor] at h
  split at h
  · cases h
  · rename_i trees vertices middlemap e
    cases h
    obtain ⟨hp, hl⟩ := buildTrees_getall_perm M fuel _ _ _ _ _ e
    have hz : ((mainvertices.zip (buckets (pts.map (Normalize3 M)))).flatMap fun x => x.2) =
        ((buckets (pts.map (Normalize3 M))).flatMap fun b => b) := by
      have hm : (mainvertices.zip (buckets (pts.map (Normalize3 M)))).map Prod.snd =
          buckets (pts.map (Normalize3 M)) :=
        List.map_snd_zip _ _ (by rw [mainvertices_length, buckets_length])
      have h1 : ∀ l : List ((Nat × Nat × Nat) × List Nat),
          (l.flatMap fun x => x.2) = ((l.map Prod.snd).flatMap fun b => b) := by
        intro l
        rw [List.flatMap_map]
      rw [h1, hm]
    have hperm : (trees.flatMap QuadNode.getall).Perm (List.range pts.length) := by
      have := buckets_perm (pts.map (Normalize3 M))
      rw [List.length_map] at this
      exact hp.trans (hz ▸ this)
    refine ⟨?_, hperm⟩
    simp only at hl ⊢
    rw [hl, List.length_zip, mainvertices_length, buckets_length]
    rfl

/-- C2: in a constructed `QuadTree` over `N` input points there are eight roots,
and the concatenation of `getall()` over them is a permutation of the indices
`0 .. N-1`; in particular no index occurs twice. -/
theorem QuadTree_getall_perm (M : Libm K) (fuel : Nat) (pts : List (Vec3 K)) (t : QuadTree K)
    (h : QuadTree.ctor M fuel pts = some t) :
    t.trees.length = 8 ∧
      (t.trees.flatMap QuadNode.getall).Perm (List.range pts.length) ∧
      (t.trees.flatMap QuadNode.getall).Nodup := by
  obtain ⟨hlen, hperm⟩ := QuadTree_ctor_roots_perm M fuel pts t h
  refine ⟨hlen, hperm, ?_⟩
  rw [hperm.nodup_iff]
  exact List.nodup_range _

end Perm

end Slam6D

namespace Slam6D

section Geometry

/-! ## Exact real geometry of `circumcircle` -/

/-- `arccos` is antitone on the whole real line. -/
theorem arccos_anti {x y : ℝ} (h : x ≤ y) : Real.arccos y ≤ Real.arccos x := by
  unfold Real.arccos
  have := Real.monotone_arcsin h
  linarith

/-- Lagrange: `|a × b|² = |a|² |b|² - (a . b)²`. -/
theorem Len2_Cross (a b : Vec3 ℝ) :
    Len2 (Cross a b) = Len2 a * Len2 b - dot3 a b * dot3 a b := by
  simp only [Len2, Cross, dot3, sqr]
  ring

/-- A vector of squared length zero is the zero vector. -/
theorem eq_zero_of_Len2 (v : Vec3 ℝ) (h : Len2 v = 0) : v.x = 0 ∧ v.y = 0 ∧ v.z = 0 := by
  simp only [Len2, sqr] at h
  refine ⟨?_, ?_, ?_⟩ <;> nlinarith [mul_self_nonneg v.x, mul_self_nonneg v.y, mul_self_nonneg v.z]

/-- Squared lengths are not negative. -/
theorem Len2_nonneg (v : Vec3 ℝ) : 0 ≤ Len2 v := by
  simp only [Len2, sqr]
  nlinarith [mul_self_nonneg v.x, mul_self_nonneg v.y, mul_self_nonneg v.z]

/-- The scalar product of the circumcentre with `a` vanishes. -/
theorem circumcenter_dot_a (a b w : Vec3 ℝ) (haw : dot3 a w = -(Len2 a) / 2)
    (hN : Len2 (Cross a b) ≠ 0) : dot3 (circumcenter a b w) a = 0 := by
  have key : dot3 (circumcenter a b w) a
      = (Len2 a * Len2 (Cross a b)) / (2 * Len2 (Cross a b)) + dot3 a w := by
    simp only [circumcenter, dot3, Cross, Len2, sqr]
    ring
  rw [key, haw]
  field_simp
  ring

/-- The scalar product of the circumcentre with `b` vanishes. -/
theorem circumcenter_dot_b (a b w : Vec3 ℝ) (hbw : dot3 b w = -(Len2 b) / 2)
    (hN : Len2 (Cross a b) ≠ 0) : dot3 (circumcenter a b w) b = 0 := by
  have key : dot3 (circumcenter a b w) b
      = (Len2 b * Len2 (Cross a b)) / (2 * Len2 (Cross a b)) + dot3 b w := by
    simp only [circumcenter, dot3, Cross, Len2, sqr]
    ring
  rw [key, hbw]
  field_simp
  ring


/-- The scalar product of the circumcentre with the base point `w`. -/
theorem circumcenter_dot_w (a b w : Vec3 ℝ) (haw : dot3 a w = -(Len2 a) / 2)
    (hbw : dot3 b w = -(Len2 b) / 2) (hw : Len2 w = 1) (hN : Len2 (Cross a b) ≠ 0) :
    dot3 (circumcenter a b w) w =
      1 - Len2 a * Len2 b * Len2 (vsub a b) / (4 * Len2 (Cross a b)) := by
  have key : dot3 (circumcenter a b w) w
      = (Len2 b * (Len2 a - dot3 a b) * dot3 a w + Len2 a * (Len2 b - dot3 a b) * dot3 b w)
          / (2 * Len2 (Cross a b)) + Len2 w := by
    simp only [circumcenter, dot3, Cross, Len2, sqr]
    ring
  have hc : Len2 (vsub a b) = Len2 a + Len2 b - 2 * dot3 a b := by
    simp only [vsub, dot3, Len2, sqr]
    ring
  rw [key, haw, hbw, hw, hc]
  field_simp
  ring

/-- The squared length of the circumcentre, from its scalar products. -/
theorem circumcenter_Len2 (a b w : Vec3 ℝ) :
    Len2 (circumcenter a b w) =
      (Len2 b * (Len2 a - dot3 a b) * dot3 (circumcenter a b w) a
        + Len2 a * (Len2 b - dot3 a b) * dot3 (circumcenter a b w) b)
          / (2 * Len2 (Cross a b)) + dot3 (circumcenter a b w) w := by
  simp only [circumcenter, dot3, Cross, Len2, sqr]
  ring

/-- The scalar product of the circumcentre with the plane normal `a × b`. -/
theorem circumcenter_dot_normal (a b w : Vec3 ℝ) :
    dot3 (circumcenter a b w) (Cross a b) = tripleproduct a b w := by
  simp only [circumcenter, dot3, Cross, Len2, sqr, tripleproduct]
  ring

/-- The triple product of the edge vectors with the base point is the triple
product of the three vertices. -/
theorem tripleproduct_edges (w1 w2 w3 : Vec3 ℝ) :
    tripleproduct (vsub w1 w3) (vsub w2 w3) w3 = tripleproduct w1 w2 w3 := by
  simp only [tripleproduct, Cross, vsub]
  ring

/-- For unit vertices, `a . w3 = -|a|² / 2` with `a = w1 - w3`. -/
theorem dot_edge_base (w1 w3 : Vec3 ℝ) (h1 : Len2 w1 = 1) (h3 : Len2 w3 = 1) :
    dot3 (vsub w1 w3) w3 = -(Len2 (vsub w1 w3)) / 2 := by
  simp only [Len2, sqr] at h1 h3
  simp only [vsub, dot3, Len2, sqr]
  linear_combination (h1 - h3) / 2

/-- The facts about the circumcentre `c0` of a unit triangle in positive
orientation: it has the same scalar product `e` with the three vertices, its
squared length is `e`, `e` is positive, and `1 - e` is the squared circumradius
`|a|² |b|² |c|² / (4 |a × b|²)`. -/
theorem circumcenter_facts (w1 w2 w3 : Vec3 ℝ) (h1 : Len2 w1 = 1) (h2 : Len2 w2 = 1)
    (h3 : Len2 w3 = 1) (hT : 0 < tripleproduct w1 w2 w3) :
    0 < Len2 (Cross (vsub w1 w3) (vsub w2 w3)) ∧
    0 < Len2 (circumcenter (vsub w1 w3) (vsub w2 w3) w3) ∧
    dot3 (circumcenter (vsub w1 w3) (vsub w2 w3) w3) w1 =
      Len2 (circumcenter (vsub w1 w3) (vsub w2 w3) w3) ∧
    dot3 (circumcenter (vsub w1 w3) (vsub w2 w3) w3) w2 =
      Len2 (circumcenter (vsub w1 w3) (vsub w2 w3) w3) ∧
    dot3 (circumcenter (vsub w1 w3) (vsub w2 w3) w3) w3 =
      Len2 (circumcenter (vsub w1 w3) (vsub w2 w3) w3) ∧
    Len2 (vsub w1 w3) * Len2 (vsub w2 w3) * Len2 (vsub (vsub w1 w3) (vsub w2 w3))
        / (4 * Len2 (Cross (vsub w1 w3) (vsub w2 w3))) =
      1 - Len2 (circumcenter (vsub w1 w3) (vsub w2 w3) w3) := by
  have hT2 := tripleproduct_edges w1 w2 w3
  have hdn := circumcenter_dot_normal (vsub w1 w3) (vsub w2 w3) w3
  rw [hT2] at hdn
  have hN0 : Len2 (Cross (vsub w1 w3) (vsub w2 w3)) ≠ 0 := by
    intro h0
    obtain ⟨hx, hy, hz⟩ := eq_zero_of_Len2 _ h0
    simp only [dot3, hx, hy, hz, mul_zero, add_zero] at hdn
    linarith
  have hN : 0 < Len2 (Cross (vsub w1 w3) (vsub w2 w3)) :=
    lt_of_le_of_ne (Len2_nonneg _) (Ne.symm hN0)
  have ha := circumcenter_dot_a _ (vsub w2 w3) w3 (dot_edge_base w1 w3 h1 h3) hN0
  have hb := circumcenter_dot_b (vsub w1 w3) _ w3 (dot_edge_base w2 w3 h2 h3) hN0
  have hw := circumcenter_dot_w _ _ w3 (dot_edge_base w1 w3 h1 h3) (dot_edge_base w2 w3 h2 h3)
    h3 hN0
  have hL := circumcenter_Len2 (vsub w1 w3) (vsub w2 w3) w3
  rw [ha, hb] at hL
  simp only [mul_zero, add_zero, zero_div, zero_add] at hL
  have hC0 : Len2 (circumcenter (vsub w1 w3) (vsub w2 w3) w3) ≠ 0 := by
    intro h0
    obtain ⟨hx, hy, hz⟩ := eq_zero_of_Len2 _ h0
    simp only [dot3, hx, hy, hz, zero_mul, add_zero] at hdn
    linarith
  have hC : 0 < Len2 (circumcenter (vsub w1 w3) (vsub w2 w3) w3) :=
    lt_of_le_of_ne (Len2_nonneg _) (Ne.symm hC0)
  have e1 : dot3 (circumcenter (vsub w1 w3) (vsub w2 w3) w3) w1 =
      dot3 (circumcenter (vsub w1 w3) (vsub w2 w3) w3) (vsub w1 w3) +
        dot3 (circumcenter (vsub w1 w3) (vsub w2 w3) w3) w3 := by
    simp only [dot3, vsub]
    ring
  have e2 : dot3 (circumcenter (vsub w1 w3) (vsub w2 w3) w3) w2 =
      dot3 (circumcenter (vsub w1 w3) (vsub w2 w3) w3) (vsub w2 w3) +
        dot3 (circumcenter (vsub w1 w3) (vsub w2 w3) w3) w3 := by
    simp only [dot3, vsub]
    ring
  refine ⟨hN, hC, ?_, ?_, hL.symm, ?_⟩
  · rw [e1, ha, hL, zero_add]
  · rw [e2, hb, hL, zero_add]
  · rw [hL, hw]
    ring


/-- Cramer's rule for a point against a triangle, with an arbitrary vector `c`
in place of the coordinate axes. -/
theorem tripleproduct_cramer (w1 w2 w3 p c : Vec3 ℝ) :
    tripleproduct w1 w2 w3 * dot3 c p =
      tripleproduct w2 w3 p * dot3 c w1 + tripleproduct w3 w1 p * dot3 c w2
        + tripleproduct w1 w2 p * dot3 c w3 := by
  simp only [tripleproduct, Cross, dot3]
  ring

/-- Two unit vectors have scalar product at most 1. -/
theorem dot3_le_one (u v : Vec3 ℝ) (hu : Len2 u = 1) (hv : Len2 v = 1) : dot3 u v ≤ 1 := by
  have h := Len2_nonneg (vsub u v)
  simp only [Len2, sqr, vsub] at h hu hv
  simp only [dot3]
  nlinarith

/-- Two unit vectors have scalar product at least -1. -/
theorem neg_one_le_dot3 (u v : Vec3 ℝ) (hu : Len2 u = 1) (hv : Len2 v = 1) : -1 ≤ dot3 u v := by
  have h := Len2_nonneg (⟨u.x + v.x, u.y + v.y, u.z + v.z⟩ : Vec3 ℝ)
  simp only [Len2, sqr] at h hu hv
  simp only [dot3]
  nlinarith

/-- A unit vector that is a combination of three unit vectors with coefficients
`t / T`, all `t ≥ 0` and `T > 0`, has `T ≤ t1 + t2 + t3`. -/
theorem comb_coeff_sum (w1 w2 w3 p : Vec3 ℝ) (t1 t2 t3 T : ℝ)
    (h1 : Len2 w1 = 1) (h2 : Len2 w2 = 1) (h3 : Len2 w3 = 1) (hp : Len2 p = 1)
    (hx : T * p.x = t2 * w1.x + t3 * w2.x + t1 * w3.x)
    (hy : T * p.y = t2 * w1.y + t3 * w2.y + t1 * w3.y)
    (hz : T * p.z = t2 * w1.z + t3 * w2.z + t1 * w3.z)
    (ht1 : 0 ≤ t1) (ht2 : 0 ≤ t2) (ht3 : 0 ≤ t3) (hT : 0 < T) : T ≤ t1 + t2 + t3 := by
  have d12 := dot3_le_one w1 w2 h1 h2
  have d13 := dot3_le_one w1 w3 h1 h3
  have d23 := dot3_le_one w2 w3 h2 h3
  have hsq : T * T = t2 * t2 * Len2 w1 + t3 * t3 * Len2 w2 + t1 * t1 * Len2 w3
      + 2 * (t2 * t3) * dot3 w1 w2 + 2 * (t2 * t1) * dot3 w1 w3
      + 2 * (t3 * t1) * dot3 w2 w3 := by
    have e : T * T = T * T * Len2 p := by rw [hp, mul_one]
    rw [e]
    simp only [Len2, sqr, dot3]
    have ex : T * T * (p.x * p.x) = (T * p.x) * (T * p.x) := by ring
    have ey : T * T * (p.y * p.y) = (T * p.y) * (T * p.y) := by ring
    have ez : T * T * (p.z * p.z) = (T * p.z) * (T * p.z) := by ring
    rw [mul_add, mul_add, ex, ey, ez, hx, hy, hz]
    ring
  rw [h1, h2, h3] at hsq
  have a1 := mul_nonneg (mul_nonneg ht2 ht3) (sub_nonneg.mpr d12)
  have a2 := mul_nonneg (mul_nonneg ht2 ht1) (sub_nonneg.mpr d13)
  have a3 := mul_nonneg (mul_nonneg ht3 ht1) (sub_nonneg.mpr d23)
  by_contra hlt
  push_neg at hlt
  have hs : 0 ≤ t1 + t2 + t3 := by linarith
  nlinarith

/-- `Normalize3` in exact arithmetic divides by the root of the squared length. -/
theorem Normalize3_exact (M : Libm ℝ) (hM : M.Exact) (v : Vec3 ℝ) :
    Normalize3 M v = ⟨v.x / √(Len2 v), v.y / √(Len2 v), v.z / √(Len2 v)⟩ := by
  simp only [Normalize3, hM.1, Len2, sqr]

/-- A normalized non-zero vector is a unit vector. -/
theorem Len2_Normalize3 (M : Libm ℝ) (hM : M.Exact) (v : Vec3 ℝ) (hv : 0 < Len2 v) :
    Len2 (Normalize3 M v) = 1 := by
  rw [Normalize3_exact M hM]
  have hs : √(Len2 v) * √(Len2 v) = Len2 v := Real.mul_self_sqrt hv.le
  have hne : √(Len2 v) ≠ 0 := (Real.sqrt_pos.mpr hv).ne'
  have : Len2 (⟨v.x / √(Len2 v), v.y / √(Len2 v), v.z / √(Len2 v)⟩ : Vec3 ℝ)
      = Len2 v / (√(Len2 v) * √(Len2 v)) := by
    simp only [Len2, sqr]
    field_simp
  rw [this, hs]
  exact div_self hv.ne'

/-- The scalar product with a normalized vector. -/
theorem dot3_Normalize3 (M : Libm ℝ) (hM : M.Exact) (v p : Vec3 ℝ) :
    dot3 (Normalize3 M v) p = dot3 v p / √(Len2 v) := by
  rw [Normalize3_exact M hM]
  simp only [dot3]
  ring

/-- In exact arithmetic the centre returned by `circumcircle` is the normalized
circumcentre. -/
theorem circumcircle_fst (M : Libm ℝ) (hM : M.Exact) (w1 w2 w3 : Vec3 ℝ) :
    (circumcircle M w1 w2 w3).1 = Normalize3 M (circumcenter (vsub w1 w3) (vsub w2 w3) w3) := by
  have ea : sqr (Len M (vsub w1 w3)) = Len2 (vsub w1 w3) := by
    simp only [Len, hM.1, sqr]
    exact Real.mul_self_sqrt (Len2_nonneg _)
  have eb : sqr (Len M (vsub w2 w3)) = Len2 (vsub w2 w3) := by
    simp only [Len, hM.1, sqr]
    exact Real.mul_self_sqrt (Len2_nonneg _)
  have en : sqr (Len M (Cross (vsub w1 w3) (vsub w2 w3))) =
      Len2 (Cross (vsub w1 w3) (vsub w2 w3)) := by
    simp only [Len, hM.1, sqr]
    exact Real.mul_self_sqrt (Len2_nonneg _)
  show Normalize3 M _ = _
  congr 1
  show (⟨_, _, _⟩ : Vec3 ℝ) = _
  simp only [circumcenter]
  rw [← ea, ← eb, ← en]
  rfl

/-- In exact arithmetic the half angle returned by `circumcircle`. -/
theorem circumcircle_snd (M : Libm ℝ) (hM : M.Exact) (w1 w2 w3 : Vec3 ℝ) :
    (circumcircle M w1 w2 w3).2 =
      Real.arcsin (√(Len2 (vsub w1 w3)) * √(Len2 (vsub w2 w3))
        * √(Len2 (vsub (vsub w1 w3) (vsub w2 w3)))
          / (2 * √(Len2 (Cross (vsub w1 w3) (vsub w2 w3))))) := by
  simp only [circumcircle, Len, hM.1, hM.2.1]
  rfl


/-- The cap of `circumcircle` contains the closed spherical triangle: for a unit
triangle in positive orientation and a unit point `p` that passes the three edge
tests, `acos(ccp . p) <= ccr`; moreover `ccp` is a unit vector. -/
theorem circumcircle_cap (M : Libm ℝ) (hM : M.Exact) (w1 w2 w3 p : Vec3 ℝ)
    (h1 : Len2 w1 = 1) (h2 : Len2 w2 = 1) (h3 : Len2 w3 = 1)
    (hT : 0 < tripleproduct w1 w2 w3) (hp : Len2 p = 1) (hin : InTri w1 w2 w3 p) :
    Real.arccos (dot3 (circumcircle M w1 w2 w3).1 p) ≤ (circumcircle M w1 w2 w3).2 := by
  obtain ⟨hN, hC, e1, e2, e3, hr⟩ := circumcenter_facts w1 w2 w3 h1 h2 h3 hT
  obtain ⟨ht1, ht2, ht3⟩ := hin
  rw [circumcircle_fst M hM, circumcircle_snd M hM, dot3_Normalize3 M hM]
  set c0 := circumcenter (vsub w1 w3) (vsub w2 w3) w3 with hc0
  set e := Len2 c0 with he
  -- the scalar product of the circumcentre with `p` is at least `e`
  have hcr := tripleproduct_cramer w1 w2 w3 p c0
  rw [e1, e2, e3] at hcr
  have hsum : tripleproduct w1 w2 w3 ≤
      tripleproduct w1 w2 p + tripleproduct w2 w3 p + tripleproduct w3 w1 p := by
    refine comb_coeff_sum w1 w2 w3 p _ _ _ _ h1 h2 h3 hp ?_ ?_ ?_ ht1 ht2 ht3 hT
    · simp only [tripleproduct, Cross]
      ring
    · simp only [tripleproduct, Cross]
      ring
    · simp only [tripleproduct, Cross]
      ring
  have hge : e ≤ dot3 c0 p := by
    have h := mul_le_mul_of_nonneg_right hsum hC.le
    have hpos := hT
    by_contra hlt
    push_neg at hlt
    have := mul_lt_mul_of_pos_left hlt hT
    nlinarith
  -- the radius
  have hsqe : √e * √e = e := Real.mul_self_sqrt hC.le
  have hsqpos : 0 < √e := Real.sqrt_pos.mpr hC
  have hle1 : e ≤ 1 := by
    have : 0 ≤ Len2 (vsub w1 w3) * Len2 (vsub w2 w3) * Len2 (vsub (vsub w1 w3) (vsub w2 w3))
        / (4 * Len2 (Cross (vsub w1 w3) (vsub w2 w3))) := by
      apply div_nonneg
      · exact mul_nonneg (mul_nonneg (Len2_nonneg _) (Len2_nonneg _)) (Len2_nonneg _)
      · linarith
    linarith
  have hrad : √(Len2 (vsub w1 w3)) * √(Len2 (vsub w2 w3))
        * √(Len2 (vsub (vsub w1 w3) (vsub w2 w3)))
          / (2 * √(Len2 (Cross (vsub w1 w3) (vsub w2 w3)))) = √(1 - e) := by
    rw [← hr]
    rw [Real.sqrt_div (mul_nonneg (mul_nonneg (Len2_nonneg _) (Len2_nonneg _)) (Len2_nonneg _)),
      Real.sqrt_mul (mul_nonneg (Len2_nonneg _) (Len2_nonneg _)),
      Real.sqrt_mul (Len2_nonneg _), Real.sqrt_mul (by norm_num : (0:ℝ) ≤ 4)]
    have h4 : √(4:ℝ) = 2 := by
      rw [show (4:ℝ) = 2 * 2 by norm_num]
      exact Real.sqrt_mul_self (by norm_num)
    rw [h4]
  rw [hrad]
  have hkey : Real.arccos (√e) = Real.arcsin (√(1 - e)) := by
    rw [Real.arccos_eq_arcsin (Real.sqrt_nonneg _)]
    congr 2
    rw [sq, hsqe]
  rw [← hkey]
  apply arccos_anti
  rw [le_div_iff₀ hsqpos, hsqe]
  exact hge

/-- The centre returned by `circumcircle` for a unit triangle in positive
orientation is a unit vector. -/
theorem circumcircle_center_unit (M : Libm ℝ) (hM : M.Exact) (w1 w2 w3 : Vec3 ℝ)
    (h1 : Len2 w1 = 1) (h2 : Len2 w2 = 1) (h3 : Len2 w3 = 1)
    (hT : 0 < tripleproduct w1 w2 w3) : Len2 (circumcircle M w1 w2 w3).1 = 1 := by
  obtain ⟨_, hC, _⟩ := circumcenter_facts w1 w2 w3 h1 h2 h3 hT
  rw [circumcircle_fst M hM]
  exact Len2_Normalize3 M hM _ hC

end Geometry

end Slam6D

namespace Slam6D

section Pool

variable {K : Type} [LinearOrderedField K]

/-- Appending to the pool does not change the vertices already in it. -/
theorem getVec_append (vs ext : List (Vec3 K)) (i : Nat) (h : i < vs.length) :
    getVec (vs ++ ext) i = getVec vs i := by
  unfold getVec
  exact List.getD_append _ _ _ _ h

/-- The invariant of the midpoint map survives appending to the pool. -/
theorem MapOK_append (M : Libm K) (vs ext : List (Vec3 K)) (mm : MiddleMap)
    (h : MapOK M vs mm) : MapOK M (vs ++ ext) mm := by
  intro a b i hl
  obtain ⟨ha, hb, hi, hv⟩ := h a b i hl
  have hlen : vs.length ≤ (vs ++ ext).length := by simp
  refine ⟨by omega, by omega, by omega, ?_⟩
  rw [getVec_append vs ext i hi, getVec_append vs ext a ha, getVec_append vs ext b hb]
  exact hv

/-- What `middle` does on a pool with a sound map: the pool is extended (by one
vertex or not at all), the map stays sound, and the returned index names the
normalized midpoint of the two vertices. -/
theorem middle_spec (M : Libm K) (a b : Nat) (vs : List (Vec3 K)) (mm : MiddleMap)
    (hok : MapOK M vs mm) (ha : a < vs.length) (hb : b < vs.length) :
    ∃ ext, (middle M a b vs mm).2.1 = vs ++ ext ∧
      MapOK M (middle M a b vs mm).2.1 (middle M a b vs mm).2.2 ∧
      (middle M a b vs mm).1 < (middle M a b vs mm).2.1.length ∧
      getVec (middle M a b vs mm).2.1 (middle M a b vs mm).1 =
        Normalize3 M (halfSum (getVec vs a) (getVec vs b)) := by
  cases hlk : mm.lookup (a, b) with
  | some i =>
    have e : middle M a b vs mm = (i, vs, mm) := by
      simp only [middle, hlk]
    rw [e]
    obtain ⟨_, _, hi, hv⟩ := hok a b i hlk
    exact ⟨[], by simp, hok, hi, hv⟩
  | none =>
    have e : middle M a b vs mm =
        (vs.length, vs ++ [Normalize3 M (halfSum (getVec vs a) (getVec vs b))],
          ((a, b), vs.length) :: mm) := by
      simp only [middle, hlk, halfSum, List.length_append, List.length_singleton,
        Nat.add_sub_cancel]
    rw [e]
    have hnew : getVec (vs ++ [Normalize3 M (halfSum (getVec vs a) (getVec vs b))]) vs.length =
        Normalize3 M (halfSum (getVec vs a) (getVec vs b)) := by
      unfold getVec
      rw [List.getD_append_right _ _ _ _ (le_refl _)]
      simp
    refine ⟨[Normalize3 M (halfSum (getVec vs a) (getVec vs b))], rfl, ?_, by simp, hnew⟩
    intro a' b' i hl
    rw [List.lookup_cons] at hl
    by_cases hk : ((a', b') == (a, b)) = true
    · rw [hk] at hl
      simp only [Option.some.injEq] at hl
      have hk2 : (a', b') = (a, b) := by simpa using hk
      obtain ⟨rfl, rfl⟩ := Prod.mk.inj hk2
      subst hl
      refine ⟨by simp; omega, by simp; omega, by simp, ?_⟩
      rw [hnew, getVec_append _ _ _ ha, getVec_append _ _ _ hb]
    · have hk3 : ((a', b') == (a, b)) = false := by simpa using hk
      rw [hk3] at hl
      exact MapOK_append M vs _ mm hok a' b' i hl

end Pool

section Subdivision

/-- The midpoint vertex of two unit vertices at most a right angle apart is a
positive multiple of their sum and a unit vector. -/
theorem midpoint_form (M : Libm ℝ) (hM : M.Exact) (wa wb : Vec3 ℝ)
    (ha : Len2 wa = 1) (hb : Len2 wb = 1) (hab : 0 ≤ dot3 wa wb) :
    ∃ c : ℝ, 0 < c ∧ Normalize3 M (halfSum wa wb) = vscale c wa wb ∧
      Len2 (Normalize3 M (halfSum wa wb)) = 1 := by
  have hL : Len2 (halfSum wa wb) = (1 + dot3 wa wb) / 2 := by
    simp only [Len2, sqr] at ha hb
    simp only [halfSum, Len2, sqr, dot3]
    linear_combination (ha + hb) / 4
  have hpos : 0 < Len2 (halfSum wa wb) := by
    rw [hL]
    linarith
  have hs : 0 < √(Len2 (halfSum wa wb)) := Real.sqrt_pos.mpr hpos
  refine ⟨1 / (2 * √(Len2 (halfSum wa wb))), by positivity, ?_, Len2_Normalize3 M hM _ hpos⟩
  rw [Normalize3_exact M hM]
  simp only [vscale, halfSum]
  ext <;> simp only <;> field_simp

/-- The four children of a good triangle, cut at multiples of the edge sums that
are unit vectors, are good triangles. -/
theorem GoodTri_children (w1 w2 w3 w4 w5 w6 : Vec3 ℝ) (c4 c5 c6 : ℝ)
    (hg : GoodTri w1 w2 w3) (hc4 : 0 < c4) (hc5 : 0 < c5) (hc6 : 0 < c6)
    (h4 : w4 = vscale c4 w1 w2) (h5 : w5 = vscale c5 w2 w3) (h6 : w6 = vscale c6 w3 w1)
    (u4 : Len2 w4 = 1) (u5 : Len2 w5 = 1) (u6 : Len2 w6 = 1) :
    GoodTri w1 w4 w6 ∧ GoodTri w2 w5 w4 ∧ GoodTri w3 w6 w5 ∧ GoodTri w4 w5 w6 := by
  obtain ⟨h1, h2, h3, d12, d23, d31, hT⟩ := hg
  have q1 : (0:ℝ) ≤ 1 := zero_le_one
  have e14 : dot3 w1 w4 = c4 * (Len2 w1 + dot3 w1 w2) := by
    rw [h4]; simp only [vscale, dot3, Len2, sqr]; ring
  have e46 : dot3 w4 w6 = c4 * c6 * (dot3 w3 w1 + Len2 w1 + dot3 w2 w3 + dot3 w1 w2) := by
    rw [h4, h6]; simp only [vscale, dot3, Len2, sqr]; ring
  have e61 : dot3 w6 w1 = c6 * (dot3 w3 w1 + Len2 w1) := by
    rw [h6]; simp only [vscale, dot3, Len2, sqr]; ring
  have e25 : dot3 w2 w5 = c5 * (Len2 w2 + dot3 w2 w3) := by
    rw [h5]; simp only [vscale, dot3, Len2, sqr]; ring
  have e54 : dot3 w5 w4 = c5 * c4 * (dot3 w1 w2 + Len2 w2 + dot3 w3 w1 + dot3 w2 w3) := by
    rw [h4, h5]; simp only [vscale, dot3, Len2, sqr]; ring
  have e42 : dot3 w4 w2 = c4 * (dot3 w1 w2 + Len2 w2) := by
    rw [h4]; simp only [vscale, dot3, Len2, sqr]; ring
  have e36 : dot3 w3 w6 = c6 * (Len2 w3 + dot3 w3 w1) := by
    rw [h6]; simp only [vscale, dot3, Len2, sqr]; ring
  have e65 : dot3 w6 w5 = c6 * c5 * (dot3 w2 w3 + Len2 w3 + dot3 w1 w2 + dot3 w3 w1) := by
    rw [h5, h6]; simp only [vscale, dot3, Len2, sqr]; ring
  have e53 : dot3 w5 w3 = c5 * (dot3 w2 w3 + Len2 w3) := by
    rw [h5]; simp only [vscale, dot3, Len2, sqr]; ring
  have e45 : dot3 w4 w5 = c5 * c4 * (dot3 w1 w2 + Len2 w2 + dot3 w3 w1 + dot3 w2 w3) := by
    rw [h4, h5]; simp only [vscale, dot3, Len2, sqr]; ring
  have e56 : dot3 w5 w6 = c6 * c5 * (dot3 w2 w3 + Len2 w3 + dot3 w1 w2 + dot3 w3 w1) := by
    rw [h5, h6]; simp only [vscale, dot3, Len2, sqr]; ring
  have e64 : dot3 w6 w4 = c4 * c6 * (dot3 w3 w1 + Len2 w1 + dot3 w2 w3 + dot3 w1 w2) := by
    rw [h4, h6]; simp only [vscale, dot3, Len2, sqr]; ring
  have t1 : tripleproduct w1 w4 w6 = c4 * c6 * tripleproduct w1 w2 w3 := by
    rw [h4, h6]; simp only [vscale, tripleproduct, Cross]; ring
  have t2 : tripleproduct w2 w5 w4 = c5 * c4 * tripleproduct w1 w2 w3 := by
    rw [h4, h5]; simp only [vscale, tripleproduct, Cross]; ring
  have t3 : tripleproduct w3 w6 w5 = c6 * c5 * tripleproduct w1 w2 w3 := by
    rw [h5, h6]; simp only [vscale, tripleproduct, Cross]; ring
  have t4 : tripleproduct w4 w5 w6 = c4 * c5 * c6 * (2 * tripleproduct w1 w2 w3) := by
    rw [h4, h5, h6]; simp only [vscale, tripleproduct, Cross]; ring
  rw [h1] at e14 e46 e61 e64
  rw [h2] at e25 e54 e42 e45
  rw [h3] at e36 e65 e53 e56
  refine ⟨⟨h1, u4, u6, ?_, ?_, ?_, ?_⟩, ⟨h2, u5, u4, ?_, ?_, ?_, ?_⟩,
    ⟨h3, u6, u5, ?_, ?_, ?_, ?_⟩, ⟨u4, u5, u6, ?_, ?_, ?_, ?_⟩⟩
  · rw [e14]; positivity
  · rw [e46]; positivity
  · rw [e61]; positivity
  · rw [t1]; positivity
  · rw [e25]; positivity
  · rw [e54]; positivity
  · rw [e42]; positivity
  · rw [t2]; positivity
  · rw [e36]; positivity
  · rw [e65]; positivity
  · rw [e53]; positivity
  · rw [t3]; positivity
  · rw [e45]; positivity
  · rw [e56]; positivity
  · rw [e64]; positivity
  · rw [t4]; positivity

/-- A point of the closed parent triangle passes the three edge tests of the
child that the cascade assigns it to. -/
theorem InTri_child (w1 w2 w3 w4 w5 w6 p : Vec3 ℝ) (c4 c5 c6 : ℝ)
    (hc4 : 0 < c4) (hc5 : 0 < c5) (hc6 : 0 < c6)
    (h4 : w4 = vscale c4 w1 w2) (h5 : w5 = vscale c5 w2 w3) (h6 : w6 = vscale c6 w3 w1)
    (hin : InTri w1 w2 w3 p) :
    (childOf w4 w5 w6 p = 1 → InTri w1 w4 w6 p) ∧
    (childOf w4 w5 w6 p = 2 → InTri w2 w5 w4 p) ∧
    (childOf w4 w5 w6 p = 3 → InTri w3 w6 w5 p) ∧
    (childOf w4 w5 w6 p = 4 → InTri w4 w5 w6 p) := by
  obtain ⟨i1, i2, i3⟩ := hin
  have a14 : tripleproduct w1 w4 p = c4 * tripleproduct w1 w2 p := by
    rw [h4]; simp only [vscale, tripleproduct, Cross]; ring
  have a61 : tripleproduct w6 w1 p = c6 * tripleproduct w3 w1 p := by
    rw [h6]; simp only [vscale, tripleproduct, Cross]; ring
  have a25 : tripleproduct w2 w5 p = c5 * tripleproduct w2 w3 p := by
    rw [h5]; simp only [vscale, tripleproduct, Cross]; ring
  have a42 : tripleproduct w4 w2 p = c4 * tripleproduct w1 w2 p := by
    rw [h4]; simp only [vscale, tripleproduct, Cross]; ring
  have a36 : tripleproduct w3 w6 p = c6 * tripleproduct w3 w1 p := by
    rw [h6]; simp only [vscale, tripleproduct, Cross]; ring
  have a53 : tripleproduct w5 w3 p = c5 * tripleproduct w2 w3 p := by
    rw [h5]; simp only [vscale, tripleproduct, Cross]; ring
  have s45 : tripleproduct w4 w5 p = -tripleproduct w5 w4 p := by
    simp only [tripleproduct, Cross]; ring
  have s56 : tripleproduct w5 w6 p = -tripleproduct w6 w5 p := by
    simp only [tripleproduct, Cross]; ring
  have s64 : tripleproduct w6 w4 p = -tripleproduct w4 w6 p := by
    simp only [tripleproduct, Cross]; ring
  unfold childOf
  refine ⟨?_, ?_, ?_, ?_⟩
  · intro h
    split_ifs at h with g1 g2 g3 <;> first | exact absurd h (by decide) | skip
    exact ⟨by rw [a14]; positivity, g1, by rw [a61]; positivity⟩
  · intro h
    split_ifs at h with g1 g2 g3 <;> first | exact absurd h (by decide) | skip
    exact ⟨by rw [a25]; positivity, g2, by rw [a42]; positivity⟩
  · intro h
    split_ifs at h with g1 g2 g3 <;> first | exact absurd h (by decide) | skip
    exact ⟨by rw [a36]; positivity, g3, by rw [a53]; positivity⟩
  · intro h
    split_ifs at h with g1 g2 g3 <;> first | exact absurd h (by decide) | skip
    push_neg at g1 g2 g3
    exact ⟨by rw [s45]; linarith, by rw [s56]; linarith, by rw [s64]; linarith⟩

end Subdivision

end Slam6D

namespace Slam6D

section Invariant

/-- A pool that extends another one holds the same vertices at the old indices. -/
theorem getVec_of_extends {K : Type} [LinearOrderedField K] (vs P : List (Vec3 K)) (h : vs <+: P)
    (i : Nat) (hi : i < vs.length) : getVec P i = getVec vs i := by
  obtain ⟨ext, rfl⟩ := h
  exact getVec_append vs ext i hi

/-- The invariant of the midpoint map survives extending the pool. -/
theorem MapOK_of_extends {K : Type} [LinearOrderedField K] (M : Libm K) (vs P : List (Vec3 K))
    (mm : MiddleMap) (h : vs <+: P) (hok : MapOK M vs mm) : MapOK M P mm := by
  obtain ⟨ext, rfl⟩ := h
  exact MapOK_append M vs ext mm hok

/-- `middle` in terms of pool extension. -/
theorem middle_extends {K : Type} [LinearOrderedField K] (M : Libm K) (a b : Nat)
    (vs : List (Vec3 K)) (mm : MiddleMap)
    (hok : MapOK M vs mm) (ha : a < vs.length) (hb : b < vs.length) :
    vs <+: (middle M a b vs mm).2.1 ∧
      MapOK M (middle M a b vs mm).2.1 (middle M a b vs mm).2.2 ∧
      (middle M a b vs mm).1 < (middle M a b vs mm).2.1.length ∧
      getVec (middle M a b vs mm).2.1 (middle M a b vs mm).1 =
        Normalize3 M (halfSum (getVec vs a) (getVec vs b)) := by
  obtain ⟨ext, h1, h2, h3, h4⟩ := middle_spec M a b vs mm hok ha hb
  exact ⟨⟨ext, h1.symm⟩, h2, h3, h4⟩

/-- The invariant of the recursive constructor in exact arithmetic: on a sound
pool, a good triangle and unit points inside the closed triangle, the constructed
node keeps every index at or below each of its nodes inside that node's cap, all
cached centres are unit vectors, and the pool is extended soundly. -/
theorem QuadNode_ctor_invariant (M : Libm ℝ) (hM : M.Exact) (pts : List (Vec3 ℝ)) :
    ∀ (fuel v1 v2 v3 : Nat) (indices : List Nat) (vertices : List (Vec3 ℝ))
      (middlemap : MiddleMap) (r : QuadNode ℝ × List (Vec3 ℝ) × MiddleMap),
      MapOK M vertices middlemap →
      v1 < vertices.length → v2 < vertices.length → v3 < vertices.length →
      GoodTri (getVec vertices v1) (getVec vertices v2) (getVec vertices v3) →
      (∀ i ∈ indices, Len2 (getVec pts i) = 1 ∧
        InTri (getVec vertices v1) (getVec vertices v2) (getVec vertices v3) (getVec pts i)) →
      QuadNode.ctor M fuel v1 v2 v3 indices pts vertices middlemap = some r →
      r.1.capOK Real.arccos pts ∧ r.1.unitCenters ∧ MapOK M r.2.1 r.2.2 ∧
        vertices <+: r.2.1 := by
  intro fuel
  induction fuel with
  | zero =>
    intro v1 v2 v3 indices vertices middlemap r _ _ _ _ _ _ h
    simp [QuadNode.ctor] at h
  | succ fuel ih =>
    intro v1 v2 v3 indices vertices middlemap r hok hv1 hv2 hv3 hg hin h
    have hperm := QuadNode_ctor_getall_perm M pts _ _ _ _ _ _ _ _ h
    obtain ⟨u1, u2, u3, d12, d23, d31, hT⟩ := hg
    have hcap : ∀ i ∈ indices, Real.arccos (dot3
        (circumcircle M (getVec vertices v1) (getVec vertices v2) (getVec vertices v3)).1
        (getVec pts i)) ≤
        (circumcircle M (getVec vertices v1) (getVec vertices v2) (getVec vertices v3)).2 :=
      fun i hi => circumcircle_cap M hM _ _ _ _ u1 u2 u3 hT (hin i hi).1 (hin i hi).2
    have hunit := circumcircle_center_unit M hM _ _ _ u1 u2 u3 hT
    rcases QuadNode_ctor_succ_inv M pts fuel v1 v2 v3 indices vertices middlemap r h with
      ⟨_, hr⟩ | ⟨_, m4, m5, m6, t1, t2, t3, t4, s1, s2, s3, s4, hm4, hm5, hm6,
        e1, e2, e3, e4, hr⟩
    · rw [hr]
      exact ⟨hcap, hunit, hok, List.prefix_refl _⟩
    · -- the three midpoints
      obtain ⟨p4, ok4, l4, g4⟩ := middle_extends M v1 v2 vertices middlemap hok hv1 hv2
      rw [← hm4] at p4 ok4 l4 g4
      have len4 := p4.length_le
      obtain ⟨p5, ok5, l5, g5⟩ := middle_extends M v2 v3 m4.2.1 m4.2.2 ok4 (by omega) (by omega)
      rw [← hm5] at p5 ok5 l5 g5
      have len5 := p5.length_le
      obtain ⟨p6, ok6, l6, g6⟩ := middle_extends M v3 v1 m5.2.1 m5.2.2 ok5 (by omega) (by omega)
      rw [← hm6] at p6 ok6 l6 g6
      have len6 := p6.length_le
      rw [getVec_of_extends _ _ p4 v2 hv2, getVec_of_extends _ _ p4 v3 hv3] at g5
      rw [getVec_of_extends _ _ p5 v3 (by omega), getVec_of_extends _ _ p4 v3 hv3,
        getVec_of_extends _ _ p5 v1 (by omega), getVec_of_extends _ _ p4 v1 hv1] at g6
      have p06 : vertices <+: m6.2.1 := (p4.trans p5).trans p6
      -- the six vertices in the pool after the three calls
      have q1 : getVec m6.2.1 v1 = getVec vertices v1 := getVec_of_extends _ _ p06 v1 hv1
      have q2 : getVec m6.2.1 v2 = getVec vertices v2 := getVec_of_extends _ _ p06 v2 hv2
      have q3 : getVec m6.2.1 v3 = getVec vertices v3 := getVec_of_extends _ _ p06 v3 hv3
      have q4 : getVec m6.2.1 m4.1 =
          Normalize3 M (halfSum (getVec vertices v1) (getVec vertices v2)) := by
        rw [getVec_of_extends _ _ (p5.trans p6) m4.1 l4, g4]
      have q5 : getVec m6.2.1 m5.1 =
          Normalize3 M (halfSum (getVec vertices v2) (getVec vertices v3)) := by
        rw [getVec_of_extends _ _ p6 m5.1 l5, g5]
      have q6 : getVec m6.2.1 m6.1 =
          Normalize3 M (halfSum (getVec vertices v3) (getVec vertices v1)) := g6
      obtain ⟨c4, hc4, f4, n4⟩ := midpoint_form M hM _ _ u1 u2 d12
      obtain ⟨c5, hc5, f5, n5⟩ := midpoint_form M hM _ _ u2 u3 d23
      obtain ⟨c6, hc6, f6, n6⟩ := midpoint_form M hM _ _ u3 u1 d31
      rw [← q4] at f4 n4
      rw [← q5] at f5 n5
      rw [← q6] at f6 n6
      obtain ⟨G1, G2, G3, G4⟩ := GoodTri_children _ _ _ _ _ _ c4 c5 c6
        ⟨u1, u2, u3, d12, d23, d31, hT⟩ hc4 hc5 hc6 f4 f5 f6 n4 n5 n6
      have hchild := fun i (hi : i ∈ indices) =>
        InTri_child _ _ _ _ _ _ (getVec pts i) c4 c5 c6 hc4 hc5 hc6 f4 f5 f6 (hin i hi).2
      have L4 : m4.1 < m6.2.1.length := by omega
      have L5 : m5.1 < m6.2.1.length := by omega
      have L1 : v1 < m6.2.1.length := by omega
      have L2 : v2 < m6.2.1.length := by omega
      have L3 : v3 < m6.2.1.length := by omega
      -- first child
      obtain ⟨C1, U1, ok1, pr1⟩ := ih v1 m4.1 m6.1 _ m6.2.1 m6.2.2 (t1, s1) ok6 L1 L4 l6
        (by rw [q1]; exact G1)
        (by
          intro i hi
          rw [List.mem_filter] at hi
          refine ⟨(hin i hi.1).1, ?_⟩
          rw [q1]
          exact (hchild i hi.1).1 (by simpa using hi.2)) e1
      have len1 := pr1.length_le
      simp only at ok1 pr1 len1
      -- second child
      obtain ⟨C2, U2, ok2, pr2⟩ := ih v2 m5.1 m4.1 _ s1.1 s1.2 (t2, s2) ok1
        (by omega) (by omega) (by omega)
        (by
          rw [getVec_of_extends _ _ pr1 v2 L2, getVec_of_extends _ _ pr1 m5.1 L5,
            getVec_of_extends _ _ pr1 m4.1 L4, q2]
          exact G2)
        (by
          intro i hi
          rw [List.mem_filter] at hi
          refine ⟨(hin i hi.1).1, ?_⟩
          rw [getVec_of_extends _ _ pr1 v2 L2, getVec_of_extends _ _ pr1 m5.1 L5,
            getVec_of_extends _ _ pr1 m4.1 L4, q2]
          exact (hchild i hi.1).2.1 (by simpa using hi.2)) e2
      have len2 := pr2.length_le
      simp only at ok2 pr2 len2
      have pr12 := pr1.trans pr2
      -- third child
      obtain ⟨C3, U3, ok3, pr3⟩ := ih v3 m6.1 m5.1 _ s2.1 s2.2 (t3, s3) ok2
        (by omega) (by omega) (by omega)
        (by
          rw [getVec_of_extends _ _ pr12 v3 L3, getVec_of_extends _ _ pr12 m6.1 l6,
            getVec_of_extends _ _ pr12 m5.1 L5, q3]
          exact G3)
        (by
          intro i hi
          rw [List.mem_filter] at hi
          refine ⟨(hin i hi.1).1, ?_⟩
          rw [getVec_of_extends _ _ pr12 v3 L3, getVec_of_extends _ _ pr12 m6.1 l6,
            getVec_of_extends _ _ pr12 m5.1 L5, q3]
          exact (hchild i hi.1).2.2.1 (by simpa using hi.2)) e3
      have len3 := pr3.length_le
      simp only at ok3 pr3 len3
      have pr123 := pr12.trans pr3
      -- fourth child
      obtain ⟨C4, U4, ok4', pr4⟩ := ih m4.1 m5.1 m6.1 _ s3.1 s3.2 (t4, s4) ok3
        (by omega) (by omega) (by omega)
        (by
          rw [getVec_of_extends _ _ pr123 m4.1 L4, getVec_of_extends _ _ pr123 m5.1 L5,
            getVec_of_extends _ _ pr123 m6.1 l6]
          exact G4)
        (by
          intro i hi
          rw [List.mem_filter] at hi
          refine ⟨(hin i hi.1).1, ?_⟩
          rw [getVec_of_extends _ _ pr123 m4.1 L4, getVec_of_extends _ _ pr123 m5.1 L5,
            getVec_of_extends _ _ pr123 m6.1 l6]
          exact (hchild i hi.1).2.2.2 (by simpa using hi.2)) e4
      simp only at ok4' pr4
      rw [hr] at hperm ⊢
      refine ⟨⟨?_, C1, C2, C3, C4⟩, ⟨hunit, U1, U2, U3, U4⟩, ok4', p06.trans (pr123.trans pr4)⟩
      intro i hi
      exact hcap i (hperm.subset hi)

end Invariant

end Slam6D

namespace Slam6D

section Roots

/-- The bucket index encodes the three signs. -/
theorem bucketIdx_signs {K : Type} [LinearOrderedField K] (p : Vec3 K) :
    (0 < p.x ↔ 4 ≤ bucketIdx p) ∧ (0 < p.y ↔ 2 ≤ bucketIdx p % 4) ∧
      (0 < p.z ↔ bucketIdx p % 2 = 1) := by
  unfold bucketIdx
  by_cases hx : p.x > 0 <;> by_cases hy : p.y > 0 <;> by_cases hz : p.z > 0 <;>
    simp [hx, hy, hz]

/-- The vector `mainvertices`, written out. -/
theorem mainvertices_eq : mainvertices =
    [(4, 2, 0), (0, 2, 5), (0, 3, 4), (5, 3, 0), (1, 2, 4), (5, 2, 1), (4, 3, 1), (1, 3, 5)] := by
  decide

/-- The eight root triangles are good triangles on the seed vertices, and every
point of bucket `k` passes the three edge tests of root triangle `k`. -/
theorem roots_good (pts : List (Vec3 ℝ)) :
    ∀ x ∈ mainvertices.zip (buckets pts),
      x.1.1 < 6 ∧ x.1.2.1 < 6 ∧ x.1.2.2 < 6 ∧
      GoodTri (getVec (seedVertices : List (Vec3 ℝ)) x.1.1) (getVec seedVertices x.1.2.1)
        (getVec seedVertices x.1.2.2) ∧
      ∀ i ∈ x.2, i < pts.length ∧
        InTri (getVec (seedVertices : List (Vec3 ℝ)) x.1.1) (getVec seedVertices x.1.2.1)
          (getVec seedVertices x.1.2.2) (getVec pts i) := by
  intro x hx
  have hr : List.range 8 = [0, 1, 2, 3, 4, 5, 6, 7] := by decide
  rw [mainvertices_eq, buckets, hr] at hx
  simp only [List.map_cons, List.map_nil, List.zip_cons_cons, List.zip_nil_right,
    List.mem_cons, List.mem_singleton, List.not_mem_nil, or_false] at hx
  rcases hx with rfl | rfl | rfl | rfl | rfl | rfl | rfl | rfl
  all_goals
    refine ⟨by simp, by simp, by simp, ?_, ?_⟩
    · norm_num [GoodTri, getVec, seedVertices, Len2, sqr, dot3, tripleproduct, Cross]
    · intro i hi
      rw [List.mem_filter] at hi
      obtain ⟨hi1, hi2⟩ := hi
      have hb := of_decide_eq_true hi2
      obtain ⟨sx, sy, sz⟩ := bucketIdx_signs (getVec pts i)
      rw [hb] at sx sy sz
      norm_num at sx sy sz
      refine ⟨List.mem_range.mp hi1, ?_⟩
      generalize getVec pts i = p at sx sy sz ⊢
      norm_num [InTri, getVec, seedVertices, tripleproduct, Cross]
      refine ⟨?_, ?_, ?_⟩ <;> linarith

/-- The invariant of the loop over the roots: on a pool that extends the seed
vertices, with sound map, the roots built from good triangles and unit points
inside them satisfy the cap invariant. -/
theorem buildTrees_invariant (M : Libm ℝ) (hM : M.Exact) (fuel : Nat) (pts : List (Vec3 ℝ))
    (base : List (Vec3 ℝ)) :
    ∀ (l : List ((Nat × Nat × Nat) × List Nat)) (vertices : List (Vec3 ℝ))
      (middlemap : MiddleMap) (r : List (QuadNode ℝ) × List (Vec3 ℝ) × MiddleMap),
      base <+: vertices → MapOK M vertices middlemap →
      (∀ x ∈ l, x.1.1 < base.length ∧ x.1.2.1 < base.length ∧ x.1.2.2 < base.length ∧
        GoodTri (getVec base x.1.1) (getVec base x.1.2.1) (getVec base x.1.2.2) ∧
        ∀ i ∈ x.2, Len2 (getVec pts i) = 1 ∧
          InTri (getVec base x.1.1) (getVec base x.1.2.1) (getVec base x.1.2.2)
            (getVec pts i)) →
      buildTrees M fuel pts l vertices middlemap = some r →
      ∀ n ∈ r.1, n.capOK Real.arccos pts ∧ n.unitCenters := by
  intro l
  induction l with
  | nil =>
    intro vertices middlemap r _ _ _ h
    simp only [buildTrees] at h
    cases h
    intro n hn
    cases hn
  | cons x rest ih =>
    intro vertices middlemap r hpre hok hl h
    obtain ⟨mv, bucket⟩ := x
    simp only [buildTrees] at h
    split at h
    · cases h
    · rename_i t vs mm e1
      split at h
      · cases h
      · rename_i ts vs2 mm2 e2
        cases h
        obtain ⟨b1, b2, b3, hg, hin⟩ := hl (mv, bucket) (List.mem_cons_self _ _)
        simp only at b1 b2 b3 hg hin
        have hlen := hpre.length_le
        obtain ⟨C, U, ok1, pr1⟩ := QuadNode_ctor_invariant M hM pts fuel mv.1 mv.2.1 mv.2.2
          bucket vertices middlemap (t, vs, mm) hok (by omega) (by omega) (by omega)
          (by
            rw [getVec_of_extends _ _ hpre _ b1, getVec_of_extends _ _ hpre _ b2,
              getVec_of_extends _ _ hpre _ b3]
            exact hg)
          (by
            intro i hi
            rw [getVec_of_extends _ _ hpre _ b1, getVec_of_extends _ _ hpre _ b2,
              getVec_of_extends _ _ hpre _ b3]
            exact hin i hi) e1
        simp only at C U ok1 pr1
        have hrest := ih vs mm (ts, vs2, mm2) (hpre.trans pr1) ok1
          (fun y hy => hl y (List.mem_cons_of_mem _ hy)) e2
        intro n hn
        simp only [List.mem_cons] at hn
        rcases hn with rfl | hn
        · exact ⟨C, U⟩
        · exact hrest n hn

/-- The empty midpoint map is sound. -/
theorem MapOK_nil {K : Type} [LinearOrderedField K] (M : Libm K) (vs : List (Vec3 K)) :
    MapOK M vs [] := by
  intro a b i h
  simp [List.lookup] at h

/-- Reading a mapped list. -/
theorem getVec_map_Normalize3 {K : Type} [LinearOrderedField K] (M : Libm K)
    (pts : List (Vec3 K)) (i : Nat) (hi : i < pts.length) :
    getVec (pts.map (Normalize3 M)) i = Normalize3 M (getVec pts i) := by
  unfold getVec
  rw [List.getD_eq_getElem _ _ (by simpa using hi), List.getD_eq_getElem _ _ hi]
  simp

/-- A stored point of non-zero length is a unit vector after the normalization
of `QuadTree::QuadTree`. -/
theorem stored_point_unit (M : Libm ℝ) (hM : M.Exact) (pts : List (Vec3 ℝ))
    (hpts : ∀ p ∈ pts, Len2 p ≠ 0) (i : Nat) (hi : i < pts.length) :
    Len2 (getVec (pts.map (Normalize3 M)) i) = 1 := by
  rw [getVec_map_Normalize3 M pts i hi]
  apply Len2_Normalize3 M hM
  have hmem : getVec pts i ∈ pts := by
    unfold getVec
    rw [List.getD_eq_getElem _ _ hi]
    exact List.getElem_mem hi
  exact lt_of_le_of_ne (Len2_nonneg _) (Ne.symm (hpts _ hmem))

/-- The invariant of the whole tree in exact arithmetic, for points of non-zero
length. -/
theorem QuadTree_ctor_invariant (M : Libm ℝ) (hM : M.Exact) (fuel : Nat) (pts : List (Vec3 ℝ))
    (hpts : ∀ p ∈ pts, Len2 p ≠ 0) (t : QuadTree ℝ) (h : QuadTree.ctor M fuel pts = some t) :
    t.pts = pts.map (Normalize3 M) ∧
      ∀ n ∈ t.trees, n.capOK Real.arccos t.pts ∧ n.unitCenters := by
  simp only [QuadTree.ctor] at h
  split at h
  · cases h
  · rename_i trees vertices middlemap e
    cases h
    refine ⟨rfl, ?_⟩
    refine buildTrees_invariant M hM fuel _ seedVertices _ seedVertices [] _
      (List.prefix_refl _) (MapOK_nil M _) ?_ e
    intro x hx
    obtain ⟨b1, b2, b3, hg, hin⟩ := roots_good (pts.map (Normalize3 M)) x hx
    have hlen : (seedVertices : List (Vec3 ℝ)).length = 6 := rfl
    refine ⟨by rw [hlen]; exact b1, by rw [hlen]; exact b2, by rw [hlen]; exact b3, hg, ?_⟩
    intro i hi
    obtain ⟨hi1, hi2⟩ := hin i hi
    rw [List.length_map] at hi1
    exact ⟨stored_point_unit M hM pts hpts i hi1, hi2⟩

end Roots

end Slam6D

namespace Slam6D

section TwoLevel

/-- The three midpoint vertices obtained by the constructor, read from the pool
after the three calls of `middle`. -/
theorem midpoints_spec {K : Type} [LinearOrderedField K] (M : Libm K) (v1 v2 v3 : Nat)
    (vs : List (Vec3 K)) (mm : MiddleMap) (hok : MapOK M vs mm)
    (hv1 : v1 < vs.length) (hv2 : v2 < vs.length) (hv3 : v3 < vs.length) :
    getVec (middle M v3 v1 (middle M v2 v3 (middle M v1 v2 vs mm).2.1
        (middle M v1 v2 vs mm).2.2).2.1 (middle M v2 v3 (middle M v1 v2 vs mm).2.1
        (middle M v1 v2 vs mm).2.2).2.2).2.1 (middle M v1 v2 vs mm).1 =
      Normalize3 M (halfSum (getVec vs v1) (getVec vs v2)) ∧
    getVec (middle M v3 v1 (middle M v2 v3 (middle M v1 v2 vs mm).2.1
        (middle M v1 v2 vs mm).2.2).2.1 (middle M v2 v3 (middle M v1 v2 vs mm).2.1
        (middle M v1 v2 vs mm).2.2).2.2).2.1 (middle M v2 v3 (middle M v1 v2 vs mm).2.1
        (middle M v1 v2 vs mm).2.2).1 =
      Normalize3 M (halfSum (getVec vs v2) (getVec vs v3)) ∧
    getVec (middle M v3 v1 (middle M v2 v3 (middle M v1 v2 vs mm).2.1
        (middle M v1 v2 vs mm).2.2).2.1 (middle M v2 v3 (middle M v1 v2 vs mm).2.1
        (middle M v1 v2 vs mm).2.2).2.2).2.1 (middle M v3 v1 (middle M v2 v3
        (middle M v1 v2 vs mm).2.1 (middle M v1 v2 vs mm).2.2).2.1 (middle M v2 v3
        (middle M v1 v2 vs mm).2.1 (middle M v1 v2 vs mm).2.2).2.2).1 =
      Normalize3 M (halfSum (getVec vs v3) (getVec vs v1)) := by
  obtain ⟨p4, ok4, l4, g4⟩ := middle_extends M v1 v2 vs mm hok hv1 hv2
  have len4 := p4.length_le
  obtain ⟨p5, ok5, l5, g5⟩ := middle_extends M v2 v3 _ _ ok4 (by omega) (by omega)
  have len5 := p5.length_le
  obtain ⟨p6, ok6, l6, g6⟩ := middle_extends M v3 v1 _ _ ok5 (by omega) (by omega)
  rw [getVec_of_extends _ _ p4 v2 hv2, getVec_of_extends _ _ p4 v3 hv3] at g5
  rw [getVec_of_extends _ _ p5 v3 (by omega), getVec_of_extends _ _ p4 v3 hv3,
    getVec_of_extends _ _ p5 v1 (by omega), getVec_of_extends _ _ p4 v1 hv1] at g6
  refine ⟨?_, ?_, g6⟩
  · rw [getVec_of_extends _ _ (p5.trans p6) _ l4, g4]
  · rw [getVec_of_extends _ _ p6 _ l5, g5]

/-- A constructor call that does not stop at the leaf cutoff and hands at most
100 indices to each child returns, with a budget of two or more, an inner node
over four leaves. -/
theorem QuadNode_ctor_two_level {K : Type} [LinearOrderedField K] (M : Libm K)
    (pts : List (Vec3 K)) (fuel v1 v2 v3 : Nat) (indices : List Nat)
    (vertices : List (Vec3 K)) (middlemap : MiddleMap)
    (hbig : ¬ (indices.length ≤ 100 ∨
      (circumcircle M (getVec vertices v1) (getVec vertices v2) (getVec vertices v3)).2
        < 1 / 10 ^ 10))
    (hsmall : ∀ k : Nat, (indices.filter fun i => childOf
        (getVec (middle M v3 v1 (middle M v2 v3 (middle M v1 v2 vertices middlemap).2.1
          (middle M v1 v2 vertices middlemap).2.2).2.1 (middle M v2 v3
          (middle M v1 v2 vertices middlemap).2.1 (middle M v1 v2 vertices middlemap).2.2).2.2).2.1
          (middle M v1 v2 vertices middlemap).1)
        (getVec (middle M v3 v1 (middle M v2 v3 (middle M v1 v2 vertices middlemap).2.1
          (middle M v1 v2 vertices middlemap).2.2).2.1 (middle M v2 v3
          (middle M v1 v2 vertices middlemap).2.1 (middle M v1 v2 vertices middlemap).2.2).2.2).2.1
          (middle M v2 v3 (middle M v1 v2 vertices middlemap).2.1
            (middle M v1 v2 vertices middlemap).2.2).1)
        (getVec (middle M v3 v1 (middle M v2 v3 (middle M v1 v2 vertices middlemap).2.1
          (middle M v1 v2 vertices middlemap).2.2).2.1 (middle M v2 v3
          (middle M v1 v2 vertices middlemap).2.1 (middle M v1 v2 vertices middlemap).2.2).2.2).2.1
          (middle M v3 v1 (middle M v2 v3 (middle M v1 v2 vertices middlemap).2.1
            (middle M v1 v2 vertices middlemap).2.2).2.1 (middle M v2 v3
            (middle M v1 v2 vertices middlemap).2.1
            (middle M v1 v2 vertices middlemap).2.2).2.2).1)
        (getVec pts i) = k).length ≤ 100) :
    ∃ r ccp ccr area t1 t2 t3 t4,
      QuadNode.ctor M (fuel + 2) v1 v2 v3 indices pts vertices middlemap = some r ∧
        r.1 = .inner ccp ccr area t1 t2 t3 t4 := by
  rw [show fuel + 2 = (fuel + 1) + 1 from rfl, QuadNode.ctor]
  simp only [if_neg hbig]
  rw [QuadNode_ctor_small M pts fuel _ _ _ _ _ _ (hsmall 1)]
  simp only
  rw [QuadNode_ctor_small M pts fuel _ _ _ _ _ _ (hsmall 2)]
  simp only
  rw [QuadNode_ctor_small M pts fuel _ _ _ _ _ _ (hsmall 3)]
  simp only
  rw [QuadNode_ctor_small M pts fuel _ _ _ _ _ _ (hsmall 4)]
  exact ⟨_, _, _, _, _, _, _, _, rfl, rfl⟩

/-- A normalized vector with three positive components falls into bucket 7. -/
theorem bucketIdx_positive (M : Libm ℝ) (hM : M.Exact) (v : Vec3 ℝ) (hx : 0 < v.x)
    (hy : 0 < v.y) (hz : 0 < v.z) : bucketIdx (Normalize3 M v) = 7 := by
  have hL : 0 < Len2 v := by
    simp only [Len2, sqr]
    positivity
  have hs : 0 < √(Len2 v) := Real.sqrt_pos.mpr hL
  rw [Normalize3_exact M hM]
  have h1 : 0 < v.x / √(Len2 v) := div_pos hx hs
  have h2 : 0 < v.y / √(Len2 v) := div_pos hy hs
  have h3 : 0 < v.z / √(Len2 v) := div_pos hz hs
  simp only [bucketIdx, gt_iff_lt, if_pos h1, if_pos h2, if_pos h3]
  decide

/-- The first test of the cascade in the octant of the three positive axes. -/
theorem first_test_positive_octant (c4 c6 : ℝ) (p : Vec3 ℝ) :
    tripleproduct (vscale c4 ⟨1, 0, 0⟩ ⟨0, 1, 0⟩) (vscale c6 ⟨0, 0, 1⟩ ⟨1, 0, 0⟩) p =
      c4 * c6 * (p.x - p.y - p.z) := by
  simp only [vscale, tripleproduct, Cross]
  ring

/-- The points of the two-level example: 51 copies of `(3, 1, 1)` followed by 50
copies of `(1, 3, 1)`. -/
theorem example_points (i : Nat) (hi : i < 101) :
    getVec (List.replicate 51 (⟨3, 1, 1⟩ : Vec3 ℝ) ++ List.replicate 50 ⟨1, 3, 1⟩) i =
      if i < 51 then ⟨3, 1, 1⟩ else ⟨1, 3, 1⟩ := by
  unfold getVec
  rw [List.getD_eq_getElem _ _ (by simpa using hi)]
  by_cases h : i < 51
  · rw [if_pos h, List.getElem_append_left (by simpa using h)]
    exact List.getElem_replicate _ _
  · rw [if_neg h, List.getElem_append_right (by simpa using h)]
    exact List.getElem_replicate _ _

/-- The constructor returns a tree with an inner root on the two-level example
(101 points in one octant, split over two children) with a budget of two. -/
theorem QuadTree_ctor_two_level_example :
    ∃ t : QuadTree ℝ,
      QuadTree.ctor (⟨Real.sqrt, Real.arcsin, Real.arccos, Real.cos, Real.pi⟩ : Libm ℝ) 2
        (List.replicate 51 ⟨3, 1, 1⟩ ++ List.replicate 50 ⟨1, 3, 1⟩) = some t ∧
      ∃ root ∈ t.trees, ∃ ccp ccr area t1 t2 t3 t4, root = .inner ccp ccr area t1 t2 t3 t4 := by
  have hM : Libm.Exact ⟨Real.sqrt, Real.arcsin, Real.arccos, Real.cos, Real.pi⟩ :=
    ⟨rfl, rfl, rfl, rfl, rfl⟩
  generalize hMdef : (⟨Real.sqrt, Real.arcsin, Real.arccos, Real.cos, Real.pi⟩ : Libm ℝ) = M
    at hM ⊢
  set pts : List (Vec3 ℝ) := List.replicate 51 ⟨3, 1, 1⟩ ++ List.replicate 50 ⟨1, 3, 1⟩
    with hpts
  have hlen : pts.length = 101 := by simp [hpts]
  have hlenP : (pts.map (Normalize3 M)).length = 101 := by rw [List.length_map, hlen]
  have hP : ∀ i, i < 101 → getVec (pts.map (Normalize3 M)) i =
      Normalize3 M (if i < 51 then ⟨3, 1, 1⟩ else ⟨1, 3, 1⟩) := by
    intro i hi
    rw [getVec_map_Normalize3 M pts i (by omega), hpts, example_points i hi]
  have hb : ∀ i, i < 101 → bucketIdx (getVec (pts.map (Normalize3 M)) i) = 7 := by
    intro i hi
    rw [hP i hi]
    split_ifs
    · exact bucketIdx_positive M hM _ (by norm_num) (by norm_num) (by norm_num)
    · exact bucketIdx_positive M hM _ (by norm_num) (by norm_num) (by norm_num)
  have hbk : ∀ k, k ≠ 7 → ((List.range (pts.map (Normalize3 M)).length).filter fun i =>
      decide (bucketIdx (getVec (pts.map (Normalize3 M)) i) = k)) = [] := by
    intro k hk
    rw [List.filter_eq_nil_iff]
    intro i hi
    rw [hlenP] at hi
    rw [hb i (List.mem_range.mp hi)]
    simpa using fun h => hk h.symm
  have hb7 : ((List.range (pts.map (Normalize3 M)).length).filter fun i =>
      decide (bucketIdx (getVec (pts.map (Normalize3 M)) i) = 7)) = List.range 101 := by
    rw [hlenP, List.filter_eq_self]
    intro i hi
    rw [hb i (List.mem_range.mp hi)]
    simp
  have hbuckets : buckets (pts.map (Normalize3 M)) =
      [[], [], [], [], [], [], [], List.range 101] := by
    have hr : List.range 8 = [0, 1, 2, 3, 4, 5, 6, 7] := by decide
    simp only [buckets, hr, List.map_cons, List.map_nil]
    rw [hbk 0 (by decide), hbk 1 (by decide), hbk 2 (by decide), hbk 3 (by decide),
      hbk 4 (by decide), hbk 5 (by decide), hbk 6 (by decide), hb7]
  -- the root of the positive octant
  have hroot : ∃ r ccp ccr area t1 t2 t3 t4,
      QuadNode.ctor M (0 + 2) 1 3 5 (List.range 101) (pts.map (Normalize3 M)) seedVertices []
        = some r ∧ r.1 = .inner ccp ccr area t1 t2 t3 t4 := by
    have he1 : getVec (seedVertices : List (Vec3 ℝ)) 1 = ⟨1, 0, 0⟩ := rfl
    have he3 : getVec (seedVertices : List (Vec3 ℝ)) 3 = ⟨0, 1, 0⟩ := rfl
    have he5 : getVec (seedVertices : List (Vec3 ℝ)) 5 = ⟨0, 0, 1⟩ := rfl
    apply QuadNode_ctor_two_level M _ 0 1 3 5 (List.range 101) seedVertices []
    · -- the root does not stop at the leaf cutoff
      rintro (h | h)
      · simp at h
      · rw [circumcircle_snd M hM, he1, he3, he5] at h
        have hA : Len2 (vsub (⟨1, 0, 0⟩ : Vec3 ℝ) ⟨0, 0, 1⟩) = 2 := by
          norm_num [vsub, Len2, sqr]
        have hB : Len2 (vsub (⟨0, 1, 0⟩ : Vec3 ℝ) ⟨0, 0, 1⟩) = 2 := by
          norm_num [vsub, Len2, sqr]
        have hC : Len2 (vsub (vsub (⟨1, 0, 0⟩ : Vec3 ℝ) ⟨0, 0, 1⟩)
            (vsub ⟨0, 1, 0⟩ ⟨0, 0, 1⟩)) = 2 := by
          norm_num [vsub, Len2, sqr]
        have hN : Len2 (Cross (vsub (⟨1, 0, 0⟩ : Vec3 ℝ) ⟨0, 0, 1⟩)
            (vsub ⟨0, 1, 0⟩ ⟨0, 0, 1⟩)) = 3 := by
          norm_num [vsub, Len2, sqr, Cross]
        rw [hA, hB, hC, hN] at h
        have h2 : (1:ℝ) ≤ √2 := by
          rw [Real.le_sqrt' (by norm_num : (0:ℝ) < 1)]
          norm_num
        have h3 : √(3:ℝ) ≤ 2 := by
          rw [Real.sqrt_le_iff]
          norm_num
        have h3p : 0 < √(3:ℝ) := Real.sqrt_pos.mpr (by norm_num)
        have hr0 : (1:ℝ) / 10 ^ 10 ≤ √2 * √2 * √2 / (2 * √3) := by
          rw [le_div_iff₀ (by positivity)]
          have : (1:ℝ) ≤ √2 * √2 * √2 := by
            have := mul_le_mul h2 h2 (by norm_num) (by linarith)
            nlinarith
          nlinarith
        have hx : (1:ℝ) / 10 ^ 10 ∈ Set.Ioc (-(Real.pi / 2)) (Real.pi / 2) := by
          constructor
          · have := Real.pi_pos
            have : (0:ℝ) < 1 / 10 ^ 10 := by positivity
            linarith
          · have := Real.pi_gt_three
            have : (1:ℝ) / 10 ^ 10 ≤ 1 := by norm_num
            linarith
        have hle := (Real.le_arcsin_iff_sin_le' hx).mpr
          (le_trans (Real.sin_le (by positivity)) hr0)
        linarith
    · -- every child receives at most 100 indices
      intro k
      obtain ⟨q4, q5, q6⟩ := midpoints_spec M 1 3 5 seedVertices [] (MapOK_nil M _)
        (by decide) (by decide) (by decide)
      rw [q4, q5, q6, he1, he3, he5]
      obtain ⟨c4, hc4, f4, _⟩ := midpoint_form M hM ⟨1, 0, 0⟩ ⟨0, 1, 0⟩
        (by norm_num [Len2, sqr]) (by norm_num [Len2, sqr]) (by norm_num [dot3])
      obtain ⟨c6, hc6, f6, _⟩ := midpoint_form M hM ⟨0, 0, 1⟩ ⟨1, 0, 0⟩
        (by norm_num [Len2, sqr]) (by norm_num [Len2, sqr]) (by norm_num [dot3])
      rw [f4, f6]
      have hsA : 0 < √(Len2 (⟨3, 1, 1⟩ : Vec3 ℝ)) :=
        Real.sqrt_pos.mpr (by norm_num [Len2, sqr])
      have hsB : 0 < √(Len2 (⟨1, 3, 1⟩ : Vec3 ℝ)) :=
        Real.sqrt_pos.mpr (by norm_num [Len2, sqr])
      have hA : ∀ w5 : Vec3 ℝ, childOf (vscale c4 ⟨1, 0, 0⟩ ⟨0, 1, 0⟩) w5
          (vscale c6 ⟨0, 0, 1⟩ ⟨1, 0, 0⟩) (getVec (pts.map (Normalize3 M)) 0) = 1 := by
        intro w5
        rw [hP 0 (by norm_num), if_pos (by norm_num), Normalize3_exact M hM]
        unfold childOf
        rw [if_pos]
        rw [first_test_positive_octant]
        have : (3:ℝ) / √(Len2 (⟨3, 1, 1⟩ : Vec3 ℝ)) - 1 / √(Len2 (⟨3, 1, 1⟩ : Vec3 ℝ))
            - 1 / √(Len2 (⟨3, 1, 1⟩ : Vec3 ℝ)) = 1 / √(Len2 (⟨3, 1, 1⟩ : Vec3 ℝ)) := by
          ring
        simp only [this]
        positivity
      have hB : ∀ w5 : Vec3 ℝ, childOf (vscale c4 ⟨1, 0, 0⟩ ⟨0, 1, 0⟩) w5
          (vscale c6 ⟨0, 0, 1⟩ ⟨1, 0, 0⟩) (getVec (pts.map (Normalize3 M)) 51) ≠ 1 := by
        intro w5
        rw [hP 51 (by norm_num), if_neg (by norm_num), Normalize3_exact M hM]
        unfold childOf
        rw [if_neg]
        · split_ifs <;> decide
        · rw [first_test_positive_octant]
          have : (1:ℝ) / √(Len2 (⟨1, 3, 1⟩ : Vec3 ℝ)) - 3 / √(Len2 (⟨1, 3, 1⟩ : Vec3 ℝ))
              - 1 / √(Len2 (⟨1, 3, 1⟩ : Vec3 ℝ)) = -(3 / √(Len2 (⟨1, 3, 1⟩ : Vec3 ℝ))) := by
            ring
          simp only [this]
          have h3 : 0 < 3 / √(Len2 (⟨1, 3, 1⟩ : Vec3 ℝ)) := by positivity
          have := mul_pos (mul_pos hc4 hc6) h3
          push_neg
          linarith
      have hlt : ((List.range 101).filter fun i => decide (childOf
          (vscale c4 ⟨1, 0, 0⟩ ⟨0, 1, 0⟩)
          (Normalize3 M (halfSum ⟨0, 1, 0⟩ ⟨0, 0, 1⟩))
          (vscale c6 ⟨0, 0, 1⟩ ⟨1, 0, 0⟩) (getVec (pts.map (Normalize3 M)) i) = k)).length
          < (List.range 101).length := by
        rw [List.length_filter_lt_length_iff_exists]
        by_cases hk : k = 1
        · refine ⟨51, List.mem_range.mpr (by norm_num), ?_⟩
          rw [hk]
          simpa using hB _
        · refine ⟨0, List.mem_range.mpr (by norm_num), ?_⟩
          rw [hA]
          simpa using fun h => hk h.symm
      rw [List.length_range] at hlt
      omega
  obtain ⟨r, ccp, ccr, area, t1, t2, t3, t4, hr, hinner⟩ := hroot
  obtain ⟨rn, rv, rm⟩ := r
  simp only at hinner
  unfold QuadTree.ctor
  simp only []
  rw [hbuckets, mainvertices_eq]
  simp only [List.zip_cons_cons, List.zip_nil_right, buildTrees]
  have hs : ∀ (v1 v2 v3 : Nat) (vs : List (Vec3 ℝ)) (mm : MiddleMap),
      QuadNode.ctor M 2 v1 v2 v3 [] (pts.map (Normalize3 M)) vs mm =
        some (.leaf (circumcircle M (getVec vs v1) (getVec vs v2) (getVec vs v3)).1
          (circumcircle M (getVec vs v1) (getVec vs v2) (getVec vs v3)).2
          (triangleArea M (getVec vs v1) (getVec vs v2) (getVec vs v3)) [], vs, mm) :=
    fun v1 v2 v3 vs mm => QuadNode_ctor_small M _ 1 v1 v2 v3 [] vs mm (by simp)
  simp only [hs]
  rw [hr]
  refine ⟨_, rfl, rn, ?_, ccp, ccr, area, t1, t2, t3, t4, hinner⟩
  simp only [List.mem_cons, true_or, or_true]

/-- The points of the two-level example have non-zero length. -/
theorem example_points_nonzero :
    ∀ p ∈ List.replicate 51 (⟨3, 1, 1⟩ : Vec3 ℝ) ++ List.replicate 50 ⟨1, 3, 1⟩, Len2 p ≠ 0 := by
  intro p hp
  rw [List.mem_append, List.mem_replicate, List.mem_replicate] at hp
  rcases hp with ⟨_, rfl⟩ | ⟨_, rfl⟩ <;> norm_num [Len2, sqr]

end TwoLevel

end Slam6D

namespace Slam6D

section Cap

/-- The recursive cap invariant, read node by node. -/
theorem capOK_subnodes {K : Type} [LinearOrderedField K] (acos : K → K) (pts : List (Vec3 K))
    (n : QuadNode K) (h : n.capOK acos pts) :
    ∀ m ∈ n.subnodes, ∀ i ∈ m.getall, acos (dot3 m.ccp (getVec pts i)) ≤ m.ccr := by
  induction n with
  | leaf ccp ccr area indices =>
    intro m hm i hi
    simp only [QuadNode.subnodes, List.mem_singleton] at hm
    subst hm
    exact h i hi
  | inner ccp ccr area t1 t2 t3 t4 ih1 ih2 ih3 ih4 =>
    obtain ⟨h0, h1, h2, h3, h4⟩ := h
    intro m hm i hi
    simp only [QuadNode.subnodes, List.mem_cons, List.mem_append] at hm
    rcases hm with rfl | hm | hm | hm | hm
    · exact h0 i hi
    · exact ih1 h1 m hm i hi
    · exact ih2 h2 m hm i hi
    · exact ih3 h3 m hm i hi
    · exact ih4 h4 m hm i hi

/-- The cap invariant in exact real arithmetic: for a tree built from points of
non-zero length, every node at or below a root keeps every index at or below it
inside its cap, `acos(ccp . p_i) <= ccr` for the normalized point `p_i`. -/
theorem QuadTree_cap (M : Libm ℝ) (hM : M.Exact) (fuel : Nat) (pts : List (Vec3 ℝ))
    (hpts : ∀ p ∈ pts, Len2 p ≠ 0) (t : QuadTree ℝ) (h : QuadTree.ctor M fuel pts = some t) :
    ∀ root ∈ t.trees, ∀ n ∈ root.subnodes, ∀ i ∈ n.getall,
      M.acos (dot3 n.ccp (getVec t.pts i)) ≤ n.ccr := by
  intro root hroot
  rw [hM.2.2.1]
  exact capOK_subnodes _ _ root ((QuadTree_ctor_invariant M hM fuel pts hpts t h).2 root hroot).1

/-- The cap invariant in exact real arithmetic at a concrete input: 101 points in
one octant, 51 copies of `(3, 1, 1)` and 50 copies of `(1, 3, 1)`; the root of
that octant is an inner node. -/
theorem QuadTree_cap_witness :
    ∃ t : QuadTree ℝ,
      QuadTree.ctor (⟨Real.sqrt, Real.arcsin, Real.arccos, Real.cos, Real.pi⟩ : Libm ℝ) 2
        (List.replicate 51 ⟨3, 1, 1⟩ ++ List.replicate 50 ⟨1, 3, 1⟩) = some t ∧
      (∃ root ∈ t.trees, ∃ ccp ccr area t1 t2 t3 t4, root = .inner ccp ccr area t1 t2 t3 t4) ∧
      ∀ root ∈ t.trees, ∀ n ∈ root.subnodes, ∀ i ∈ n.getall,
        Real.arccos (dot3 n.ccp (getVec t.pts i)) ≤ n.ccr := by
  obtain ⟨t, ht, hroot⟩ := QuadTree_ctor_two_level_example
  exact ⟨t, ht, hroot,
    QuadTree_cap _ ⟨rfl, rfl, rfl, rfl, rfl⟩ 2 _ example_points_nonzero t ht⟩

end Cap

section Sphere

/-- The Gram determinant of three vectors is the square of their triple
product. -/
theorem gram_eq_tripleproduct_sq (u v w : Vec3 ℝ) :
    Len2 u * Len2 v * Len2 w + 2 * (dot3 u v * dot3 v w * dot3 u w)
        - dot3 u v * dot3 u v * Len2 w - dot3 v w * dot3 v w * Len2 u
        - dot3 u w * dot3 u w * Len2 v =
      tripleproduct u v w * tripleproduct u v w := by
  simp only [Len2, sqr, dot3, tripleproduct, Cross]
  ring

/-- The triangle inequality of the angular distance on the unit sphere. -/
theorem arccos_dot_triangle (u v w : Vec3 ℝ) (hu : Len2 u = 1) (hv : Len2 v = 1)
    (hw : Len2 w = 1) :
    Real.arccos (dot3 u w) ≤ Real.arccos (dot3 u v) + Real.arccos (dot3 v w) := by
  have a1 := neg_one_le_dot3 u v hu hv
  have a2 := dot3_le_one u v hu hv
  have b1 := neg_one_le_dot3 v w hv hw
  have b2 := dot3_le_one v w hv hw
  set a := dot3 u v with ha
  set b := dot3 v w with hb
  set c := dot3 u w with hc
  by_cases hsum : Real.pi ≤ Real.arccos a + Real.arccos b
  · exact le_trans (Real.arccos_le_pi _) hsum
  · push_neg at hsum
    have hnn : 0 ≤ Real.arccos a + Real.arccos b :=
      add_nonneg (Real.arccos_nonneg _) (Real.arccos_nonneg _)
    have hcos : Real.cos (Real.arccos a + Real.arccos b) =
        a * b - √(1 - a ^ 2) * √(1 - b ^ 2) := by
      rw [Real.cos_add, Real.cos_arccos a1 a2, Real.cos_arccos b1 b2, Real.sin_arccos,
        Real.sin_arccos]
    have hgram := gram_eq_tripleproduct_sq u v w
    rw [hu, hv, hw, ← ha, ← hb, ← hc] at hgram
    have hsq : (c - a * b) ^ 2 ≤ (1 - a ^ 2) * (1 - b ^ 2) := by
      nlinarith [mul_self_nonneg (tripleproduct u v w)]
    have habs := Real.abs_le_sqrt hsq
    have hA : 0 ≤ 1 - a ^ 2 := by nlinarith
    rw [Real.sqrt_mul hA] at habs
    have hlow : a * b - √(1 - a ^ 2) * √(1 - b ^ 2) ≤ c := by
      have := neg_abs_le (c - a * b)
      linarith
    rw [← hcos] at hlow
    calc Real.arccos c ≤ Real.arccos (Real.cos (Real.arccos a + Real.arccos b)) :=
          arccos_anti hlow
      _ = Real.arccos a + Real.arccos b := Real.arccos_cos hnn hsum.le

/-- The scalar product written out in `search` is symmetric. -/
theorem dot3_comm {K : Type} [LinearOrderedField K] (u v : Vec3 K) : dot3 u v = dot3 v u := by
  simp only [dot3]
  ring

end Sphere

end Slam6D

namespace Slam6D

section Search

/-- `QuadNode::search` in exact arithmetic with a positive radius: on a node
that satisfies the cap invariant, with unit centres and unit points, the result
holds exactly the indices at or below the node whose angular distance to the
unit query `q` is below `r`. -/
theorem QuadNode_search_mem (M : Libm ℝ) (hM : M.Exact) (pts : List (Vec3 ℝ)) (q : Vec3 ℝ)
    (r : ℝ) (hq : Len2 q = 1) (hr : 0 < r) (n : QuadNode ℝ) :
    n.capOK Real.arccos pts → n.unitCenters →
    (∀ i ∈ n.getall, Len2 (getVec pts i) = 1) →
    ∀ i, i ∈ n.search M pts q r ↔
      i ∈ n.getall ∧ Real.arccos (dot3 q (getVec pts i)) < r := by
  induction n with
  | leaf ccp ccr area indices =>
    intro _ _ _ i
    simp only [QuadNode.search, QuadNode.getall, List.mem_filter, hM.2.2.1]
    refine and_congr_right fun _ => ?_
    show (if dot3 q (getVec pts i) ≥ 1 then true
      else decide (Real.arccos (dot3 q (getVec pts i)) < r)) = true ↔ _
    by_cases hd : dot3 q (getVec pts i) ≥ 1
    · rw [if_pos hd, Real.arccos_of_one_le hd]
      exact ⟨fun _ => hr, fun _ => rfl⟩
    · rw [if_neg hd]
      exact decide_eq_true_iff
  | inner ccp ccr area t1 t2 t3 t4 ih1 ih2 ih3 ih4 =>
    intro hcap hu hp i
    obtain ⟨h0, c1, c2, c3, c4⟩ := hcap
    obtain ⟨u0, u1, u2, u3, u4⟩ := hu
    have hp1 : ∀ i ∈ t1.getall, Len2 (getVec pts i) = 1 := fun i hi =>
      hp i (by simp only [QuadNode.getall, List.mem_append]; exact Or.inr (Or.inr (Or.inr hi)))
    have hp2 : ∀ i ∈ t2.getall, Len2 (getVec pts i) = 1 := fun i hi =>
      hp i (by simp only [QuadNode.getall, List.mem_append]; exact Or.inr (Or.inr (Or.inl hi)))
    have hp3 : ∀ i ∈ t3.getall, Len2 (getVec pts i) = 1 := fun i hi =>
      hp i (by simp only [QuadNode.getall, List.mem_append]; exact Or.inr (Or.inl hi))
    have hp4 : ∀ i ∈ t4.getall, Len2 (getVec pts i) = 1 := fun i hi =>
      hp i (by simp only [QuadNode.getall, List.mem_append]; exact Or.inl hi)
    have hdot : q.x * ccp.x + q.y * ccp.y + q.z * ccp.z = dot3 q ccp := rfl
    simp only [QuadNode.search, hM.2.2.1, hdot]
    by_cases hfar : Real.arccos (dot3 q ccp) > r + ccr
    · rw [if_pos hfar]
      constructor
      · intro h
        cases h
      · rintro ⟨hi, hlt⟩
        have htri := arccos_dot_triangle q (getVec pts i) ccp hq (hp i hi) u0
        have hc := h0 i hi
        rw [dot3_comm ccp] at hc
        linarith
    · rw [if_neg hfar]
      by_cases hnear : Real.arccos (dot3 q ccp) < r - ccr
      · rw [if_pos hnear]
        constructor
        · intro hi
          refine ⟨hi, ?_⟩
          have htri := arccos_dot_triangle q ccp (getVec pts i) hq u0 (hp i hi)
          have hc := h0 i hi
          linarith
        · exact fun h => h.1
      · rw [if_neg hnear]
        simp only [List.mem_append, QuadNode.getall, ih1 c1 u1 hp1, ih2 c2 u2 hp2,
          ih3 c3 u3 hp3, ih4 c4 u4 hp4]
        constructor
        · rintro (⟨a, b⟩ | ⟨a, b⟩ | ⟨a, b⟩ | ⟨a, b⟩)
          · exact ⟨Or.inl a, b⟩
          · exact ⟨Or.inr (Or.inl a), b⟩
          · exact ⟨Or.inr (Or.inr (Or.inl a)), b⟩
          · exact ⟨Or.inr (Or.inr (Or.inr a)), b⟩
        · rintro ⟨a | a | a | a, b⟩
          · exact Or.inl ⟨a, b⟩
          · exact Or.inr (Or.inl ⟨a, b⟩)
          · exact Or.inr (Or.inr (Or.inl ⟨a, b⟩))
          · exact Or.inr (Or.inr (Or.inr ⟨a, b⟩))

/-- `QuadTree::search` in exact arithmetic with a positive radius, on a tree
built from points of non-zero length: the result holds exactly the indices whose
normalized point is at angular distance below `r` from the unit query `q`. -/
theorem QuadTree_search_mem (M : Libm ℝ) (hM : M.Exact) (fuel : Nat) (pts : List (Vec3 ℝ))
    (hpts : ∀ p ∈ pts, Len2 p ≠ 0) (t : QuadTree ℝ) (h : QuadTree.ctor M fuel pts = some t)
    (q : Vec3 ℝ) (r : ℝ) (hq : Len2 q = 1) (hr : 0 < r) (i : Nat) :
    i ∈ t.search M q r ↔
      i < pts.length ∧ Real.arccos (dot3 q (getVec t.pts i)) < r := by
  obtain ⟨hpts', hinv⟩ := QuadTree_ctor_invariant M hM fuel pts hpts t h
  obtain ⟨_, hperm⟩ := QuadTree_ctor_roots_perm M fuel pts t h
  have hunit : ∀ n ∈ t.trees, ∀ j ∈ n.getall, Len2 (getVec t.pts j) = 1 := by
    intro n hn j hj
    have hj2 : j ∈ t.trees.flatMap QuadNode.getall := List.mem_flatMap.mpr ⟨n, hn, hj⟩
    have hj3 := List.mem_range.mp (hperm.subset hj2)
    rw [hpts']
    exact stored_point_unit M hM pts hpts j hj3
  simp only [QuadTree.search, List.mem_flatMap]
  constructor
  · rintro ⟨n, hn, hi⟩
    have := (QuadNode_search_mem M hM t.pts q r hq hr n (hinv n hn).1 (hinv n hn).2
      (hunit n hn) i).mp hi
    refine ⟨?_, this.2⟩
    exact List.mem_range.mp (hperm.subset (List.mem_flatMap.mpr ⟨n, hn, this.1⟩))
  · rintro ⟨hi, hlt⟩
    have hi2 : i ∈ t.trees.flatMap QuadNode.getall := hperm.symm.subset (List.mem_range.mpr hi)
    obtain ⟨n, hn, hin⟩ := List.mem_flatMap.mp hi2
    exact ⟨n, hn, (QuadNode_search_mem M hM t.pts q r hq hr n (hinv n hn).1 (hinv n hn).2
      (hunit n hn) i).mpr ⟨hin, hlt⟩⟩

/-- The result of `search` in exact real arithmetic: for a tree built from points
of non-zero length, a unit query `q` and a radius `r > 0`, `search(q, r)` returns,
as a set, exactly the indices `i` with `acos(q . p_i) < r` for the normalized
point `p_i`. -/
theorem QuadTree_search_exact (M : Libm ℝ) (hM : M.Exact) (fuel : Nat) (pts : List (Vec3 ℝ))
    (hpts : ∀ p ∈ pts, Len2 p ≠ 0) (t : QuadTree ℝ) (h : QuadTree.ctor M fuel pts = some t)
    (q : Vec3 ℝ) (r : ℝ) (hq : Len2 q = 1) (hr : 0 < r) :
    ∀ i, i ∈ t.search M q r ↔
      i < pts.length ∧ M.acos (dot3 q (getVec t.pts i)) < r := by
  intro i
  rw [hM.2.2.1]
  exact QuadTree_search_mem M hM fuel pts hpts t h q r hq hr i

/-- Reflexivity of `search` in exact real arithmetic: for a tree built from
points of non-zero length, every input index `j` and every `eps > 0`, the result
of `search(p_j, eps)` for the normalized point `p_j` contains `j`. -/
theorem QuadTree_search_reflexive (M : Libm ℝ) (hM : M.Exact) (fuel : Nat)
    (pts : List (Vec3 ℝ)) (hpts : ∀ p ∈ pts, Len2 p ≠ 0) (t : QuadTree ℝ)
    (h : QuadTree.ctor M fuel pts = some t) (j : Nat) (hj : j < pts.length)
    (eps : ℝ) (heps : 0 < eps) :
    j ∈ t.search M (getVec t.pts j) eps := by
  obtain ⟨hpts', _⟩ := QuadTree_ctor_invariant M hM fuel pts hpts t h
  have hu : Len2 (getVec t.pts j) = 1 := by
    rw [hpts']
    exact stored_point_unit M hM pts hpts j hj
  rw [QuadTree_search_mem M hM fuel pts hpts t h _ eps hu heps j]
  refine ⟨hj, ?_⟩
  have hself : dot3 (getVec t.pts j) (getVec t.pts j) = 1 := by
    simp only [Len2, sqr] at hu
    simp only [dot3]
    exact hu
  rw [hself, Real.arccos_one]
  exact heps

end Search

end Slam6D

namespace Slam6D

section Concrete

/-- The result of `search` in exact real arithmetic at a concrete input: 101
points in one octant, 51 copies of `(3, 1, 1)` and 50 copies of `(1, 3, 1)`, so
that the root of that octant is an inner node; the query `(1, 0, 0)` and
radius 1. -/
theorem QuadTree_search_exact_witness :
    ∃ t : QuadTree ℝ,
      QuadTree.ctor (⟨Real.sqrt, Real.arcsin, Real.arccos, Real.cos, Real.pi⟩ : Libm ℝ) 2
        (List.replicate 51 ⟨3, 1, 1⟩ ++ List.replicate 50 ⟨1, 3, 1⟩) = some t ∧
      (∃ root ∈ t.trees, ∃ ccp ccr area t1 t2 t3 t4, root = .inner ccp ccr area t1 t2 t3 t4) ∧
      ∀ i, i ∈ t.search ⟨Real.sqrt, Real.arcsin, Real.arccos, Real.cos, Real.pi⟩
          (⟨1, 0, 0⟩ : Vec3 ℝ) 1 ↔
        i < 101 ∧ Real.arccos (dot3 (⟨1, 0, 0⟩ : Vec3 ℝ) (getVec t.pts i)) < 1 := by
  obtain ⟨t, ht, hroot⟩ := QuadTree_ctor_two_level_example
  have h := QuadTree_search_exact _ ⟨rfl, rfl, rfl, rfl, rfl⟩ 2 _ example_points_nonzero t ht
    ⟨1, 0, 0⟩ 1 (by norm_num [Len2, sqr]) one_pos
  have hl : (List.replicate 51 (⟨3, 1, 1⟩ : Vec3 ℝ) ++
      List.replicate 50 (⟨1, 3, 1⟩ : Vec3 ℝ)).length = 101 := by
    simp
  rw [hl] at h
  exact ⟨t, ht, hroot, h⟩

/-- Reflexivity of `search` in exact real arithmetic at a concrete input: the
same 101 points, index 60 and `eps = 1 / 1000`. -/
theorem QuadTree_search_reflexive_witness :
    ∃ t : QuadTree ℝ,
      QuadTree.ctor (⟨Real.sqrt, Real.arcsin, Real.arccos, Real.cos, Real.pi⟩ : Libm ℝ) 2
        (List.replicate 51 ⟨3, 1, 1⟩ ++ List.replicate 50 ⟨1, 3, 1⟩) = some t ∧
      (∃ root ∈ t.trees, ∃ ccp ccr area t1 t2 t3 t4, root = .inner ccp ccr area t1 t2 t3 t4) ∧
      60 ∈ t.search ⟨Real.sqrt, Real.arcsin, Real.arccos, Real.cos, Real.pi⟩
        (getVec t.pts 60) (1 / 1000) := by
  obtain ⟨t, ht, hroot⟩ := QuadTree_ctor_two_level_example
  exact ⟨t, ht, hroot,
    QuadTree_search_reflexive _ ⟨rfl, rfl, rfl, rfl, rfl⟩ 2 _ example_points_nonzero t ht 60
      (by simp) (1 / 1000) (by norm_num)⟩

/-- C2 at a concrete input: the same 101 points, the root of their octant an
inner node. -/
theorem QuadTree_getall_perm_witness :
    ∃ t : QuadTree ℝ,
      QuadTree.ctor (⟨Real.sqrt, Real.arcsin, Real.arccos, Real.cos, Real.pi⟩ : Libm ℝ) 2
        (List.replicate 51 ⟨3, 1, 1⟩ ++ List.replicate 50 ⟨1, 3, 1⟩) = some t ∧
      (∃ root ∈ t.trees, ∃ ccp ccr area t1 t2 t3 t4, root = .inner ccp ccr area t1 t2 t3 t4) ∧
      t.trees.length = 8 ∧ (t.trees.flatMap QuadNode.getall).Perm (List.range 101) := by
  obtain ⟨t, ht, hroot⟩ := QuadTree_ctor_two_level_example
  have h := QuadTree_getall_perm _ _ _ t ht
  exact ⟨t, ht, hroot, h.1, by simpa using h.2.1⟩

end Concrete

end Slam6D

namespace Slam6D

section Reduce

variable {K : Type} [LinearOrderedField K]

/-- The sampling loop keeps a sub-list of `all`. -/
theorem sampleAll_sublist {G : Type} (bernoulli : K → G → Bool × G) (prob : K) (all : List Nat) :
    ∀ gen, (sampleAll bernoulli prob all gen).1.Sublist all := by
  induction all with
  | nil =>
    intro gen
    exact List.Sublist.refl _
  | cons i rest ih =>
    intro gen
    simp only [sampleAll]
    split_ifs
    · exact (ih _).cons₂ i
    · exact (ih _).cons i

/-- The terminal branch of `reduce` returns a sub-list of `all`. -/
theorem reduceHere_sublist {G : Type} (bernoulli : K → G → Bool × G) (cap_area : K)
    (numpts : Int) (area : K) (all : List Nat) (gen : G) :
    (reduceHere bernoulli cap_area numpts area all gen).1.Sublist all := by
  unfold reduceHere
  simp only
  split_ifs
  · exact List.Sublist.refl _
  · exact sampleAll_sublist bernoulli _ all gen

/-- The indices of the terminal nodes are a permutation of the indices at or
below the node. -/
theorem terminals_getall_perm (theta : K) (n : QuadNode K) :
    ((n.terminals theta).flatMap QuadNode.getall).Perm n.getall := by
  induction n with
  | leaf ccp ccr area indices =>
    simp [QuadNode.terminals]
  | inner ccp ccr area t1 t2 t3 t4 ih1 ih2 ih3 ih4 =>
    simp only [QuadNode.terminals]
    split_ifs
    · simp
    · simp only [List.flatMap_append, QuadNode.getall]
      have h12 := ih1.append (ih2.append (ih3.append ih4))
      refine h12.trans ?_
      have hY := @List.perm_append_comm _ t3.getall t4.getall
      have hX := (@List.perm_append_comm _ t2.getall (t3.getall ++ t4.getall)).trans
        (List.Perm.append_right _ hY)
      have hZ := (@List.perm_append_comm _ t1.getall
        (t2.getall ++ (t3.getall ++ t4.getall))).trans (List.Perm.append_right _ hX)
      simpa only [List.append_assoc] using hZ

/-- With `numpts > 0`, `QuadNode::reduce` returns a sub-list of the concatenated
`getall()` of the terminal nodes it visits. -/
theorem QuadNode_reduce_sublist {G : Type} (bernoulli : K → G → Bool × G) (theta cap_area : K)
    (numpts : Int) (hn : 0 < numpts) (n : QuadNode K) :
    ∀ gen, ∃ res, (n.reduce bernoulli theta cap_area numpts gen).1 = .ok res ∧
      res.Sublist ((n.terminals theta).flatMap QuadNode.getall) := by
  have h0 : ¬ numpts = 0 := by omega
  have h1 : ¬ numpts < 0 := by omega
  induction n with
  | leaf ccp ccr area indices =>
    intro gen
    simp only [QuadNode.reduce, if_neg h0, if_neg h1, QuadNode.terminals, List.flatMap_cons,
      List.flatMap_nil, List.append_nil, QuadNode.getall]
    exact ⟨_, rfl, reduceHere_sublist bernoulli cap_area numpts area indices gen⟩
  | inner ccp ccr area t1 t2 t3 t4 ih1 ih2 ih3 ih4 =>
    intro gen
    simp only [QuadNode.reduce, if_neg h0, if_neg h1, QuadNode.terminals]
    by_cases hc : ccr * 2 < theta
    · simp only [if_pos hc, List.flatMap_cons, List.flatMap_nil, List.append_nil]
      exact ⟨_, rfl, reduceHere_sublist bernoulli cap_area numpts area _ gen⟩
    · simp only [if_neg hc, List.flatMap_append]
      obtain ⟨r1, e1, s1⟩ := ih1 gen
      rcases hq1 : t1.reduce bernoulli theta cap_area numpts gen with ⟨a1, g1⟩
      rw [hq1] at e1
      simp only at e1
      subst e1
      dsimp only
      obtain ⟨r2, e2, s2⟩ := ih2 g1
      rcases hq2 : t2.reduce bernoulli theta cap_area numpts g1 with ⟨a2, g2⟩
      rw [hq2] at e2
      simp only at e2
      subst e2
      dsimp only
      obtain ⟨r3, e3, s3⟩ := ih3 g2
      rcases hq3 : t3.reduce bernoulli theta cap_area numpts g2 with ⟨a3, g3⟩
      rw [hq3] at e3
      simp only at e3
      subst e3
      dsimp only
      obtain ⟨r4, e4, s4⟩ := ih4 g3
      rcases hq4 : t4.reduce bernoulli theta cap_area numpts g3 with ⟨a4, g4⟩
      rw [hq4] at e4
      simp only at e4
      subst e4
      dsimp only
      exact ⟨_, rfl, s1.append (s2.append (s3.append s4))⟩

/-- With `numpts > 0`, the loop of `QuadTree::reduce` returns a sub-list of the
concatenated `getall()` of the terminal nodes of all roots. -/
theorem reduceTrees_sublist {G : Type} (bernoulli : K → G → Bool × G) (theta cap_area : K)
    (numpts : Int) (hn : 0 < numpts) (ts : List (QuadNode K)) :
    ∀ gen, ∃ res, (reduceTrees bernoulli theta cap_area numpts ts gen).1 = .ok res ∧
      res.Sublist ((ts.flatMap (QuadNode.terminals theta)).flatMap QuadNode.getall) := by
  induction ts with
  | nil =>
    intro gen
    exact ⟨[], rfl, List.Sublist.refl _⟩
  | cons n rest ih =>
    intro gen
    simp only [reduceTrees, List.flatMap_cons, List.flatMap_append]
    obtain ⟨r1, e1, s1⟩ := QuadNode_reduce_sublist bernoulli theta cap_area numpts hn n gen
    rcases hq1 : n.reduce bernoulli theta cap_area numpts gen with ⟨a1, g1⟩
    rw [hq1] at e1
    simp only at e1
    subst e1
    dsimp only
    obtain ⟨r2, e2, s2⟩ := ih g1
    rcases hq2 : reduceTrees bernoulli theta cap_area numpts rest g1 with ⟨a2, g2⟩
    rw [hq2] at e2
    simp only at e2
    subst e2
    dsimp only
    exact ⟨_, rfl, s1.append s2⟩

/-- The indices of the terminal nodes of all roots are a permutation of the
indices below the roots. -/
theorem terminals_flatMap_perm (theta : K) (ts : List (QuadNode K)) :
    ((ts.flatMap (QuadNode.terminals theta)).flatMap QuadNode.getall).Perm
      (ts.flatMap QuadNode.getall) := by
  induction ts with
  | nil => simp
  | cons n rest ih =>
    simp only [List.flatMap_cons, List.flatMap_append]
    exact (terminals_getall_perm theta n).append ih

/-- C11: for a tree built from `N` points, every `theta`, every `numpts > 0` and
every outcome of the random draws, `QuadTree::reduce` returns a sub-list of the
concatenated `getall()` of the visited terminal nodes; it holds only indices
below `N`, none twice, and so has at most `N` entries. -/
theorem QuadTree_reduce_sublist {G : Type} (M : Libm K) (bernoulli : K → G → Bool × G)
    (fuel : Nat) (pts : List (Vec3 K)) (t : QuadTree K) (h : QuadTree.ctor M fuel pts = some t)
    (theta : K) (numpts : Int) (hn : 0 < numpts) (gen : G) :
    ∃ res, (t.reduce M bernoulli theta numpts gen).1 = .ok res ∧
      res.Sublist ((t.trees.flatMap (QuadNode.terminals theta)).flatMap QuadNode.getall) ∧
      (∀ i ∈ res, i < pts.length) ∧ res.Nodup ∧ res.length ≤ pts.length := by
  have h0 : ¬ numpts = 0 := by omega
  have h1 : ¬ numpts < 0 := by omega
  obtain ⟨res, hres, hsub⟩ := reduceTrees_sublist bernoulli theta
    (2 * M.pi * (1 - M.cos theta)) numpts hn t.trees gen
  obtain ⟨_, hperm⟩ := QuadTree_ctor_roots_perm M fuel pts t h
  have hp := (terminals_flatMap_perm theta t.trees).trans hperm
  refine ⟨res, ?_, hsub, ?_, ?_, ?_⟩
  · simp only [QuadTree.reduce, if_neg h0, if_neg h1]
    exact hres
  · intro i hi
    exact List.mem_range.mp (hp.subset (hsub.subset hi))
  · exact hsub.nodup (hp.nodup_iff.mpr (List.nodup_range _))
  · have := hsub.length_le
    rw [hp.length_eq, List.length_range] at this
    exact this

/-- C12: with `numpts > 0`, at a node where `reduce` stops descending (a leaf, or
`ccr * 2 < theta`) that holds at most `numpts * area / cap_area` indices, the
result is exactly `getall()` of the node and the generator state is the one
passed in (no random number is drawn). -/
theorem QuadNode_reduce_keeps_all {G : Type} (bernoulli : K → G → Bool × G)
    (theta cap_area : K) (numpts : Int) (hn : 0 < numpts) (n : QuadNode K)
    (hstop : n.isleaf = true ∨ n.ccr * 2 < theta)
    (hfew : (n.getall.length : K) ≤ (numpts : K) * n.area / cap_area) (gen : G) :
    n.reduce bernoulli theta cap_area numpts gen = (.ok n.getall, gen) := by
  have h0 : ¬ numpts = 0 := by omega
  have h1 : ¬ numpts < 0 := by omega
  cases n with
  | leaf ccp ccr area indices =>
    simp only [QuadNode.getall, QuadNode.area] at hfew
    simp only [QuadNode.reduce, if_neg h0, if_neg h1, reduceHere, if_pos hfew, QuadNode.getall]
  | inner ccp ccr area t1 t2 t3 t4 =>
    have hc : ccr * 2 < theta := by
      rcases hstop with h | h
      · cases h
      · exact h
    simp only [QuadNode.area] at hfew
    simp only [QuadNode.reduce, if_neg h0, if_neg h1, if_pos hc, reduceHere, if_pos hfew]

/-- C11 at a concrete input: the tree of 101 points in one octant (its root an
inner node), `theta = 1 / 2`, `numpts = 3`, and a generator that alternates its
draws. -/
theorem QuadTree_reduce_sublist_witness :
    ∃ t : QuadTree ℝ,
      QuadTree.ctor (⟨Real.sqrt, Real.arcsin, Real.arccos, Real.cos, Real.pi⟩ : Libm ℝ) 2
        (List.replicate 51 ⟨3, 1, 1⟩ ++ List.replicate 50 ⟨1, 3, 1⟩) = some t ∧
      (∃ root ∈ t.trees, ∃ ccp ccr area t1 t2 t3 t4, root = .inner ccp ccr area t1 t2 t3 t4) ∧
      ∃ res, (t.reduce ⟨Real.sqrt, Real.arcsin, Real.arccos, Real.cos, Real.pi⟩
          (fun (_ : ℝ) (g : Nat) => (g % 2 == 0, g + 1)) (1 / 2) 3 0).1 = .ok res ∧
        res.Sublist ((t.trees.flatMap (QuadNode.terminals (1 / 2))).flatMap QuadNode.getall) ∧
        (∀ i ∈ res, i < 101) ∧ res.Nodup ∧ res.length ≤ 101 := by
  obtain ⟨t, ht, hroot⟩ := QuadTree_ctor_two_level_example
  have h := QuadTree_reduce_sublist _ (fun (_ : ℝ) (g : Nat) => (g % 2 == 0, g + 1)) 2 _ t ht
    (1 / 2) 3 (by decide) 0
  have hl : (List.replicate 51 (⟨3, 1, 1⟩ : Vec3 ℝ) ++
      List.replicate 50 (⟨1, 3, 1⟩ : Vec3 ℝ)).length = 101 := by
    simp
  rw [hl] at h
  exact ⟨t, ht, hroot, h⟩

/-- C12 at a concrete input: an inner node with `ccr = 1 / 4` and area 2 over
three indices, `theta = 1`, `numpts = 3` and `cap_area = 1`, so that `k = 6`. -/
theorem QuadNode_reduce_keeps_all_witness :
    (QuadNode.inner (⟨0, 0, 1⟩ : Vec3 ℚ) (1 / 4) 2 (.leaf ⟨0, 0, 1⟩ 1 1 [0])
        (.leaf ⟨0, 0, 1⟩ 1 1 [1]) (.leaf ⟨0, 0, 1⟩ 1 1 []) (.leaf ⟨0, 0, 1⟩ 1 1 [2])).reduce
        (fun (_ : ℚ) (g : Nat) => (true, g + 1)) 1 1 3 0 = (.ok [2, 1, 0], 0) :=
  QuadNode_reduce_keeps_all (fun (_ : ℚ) (g : Nat) => (true, g + 1)) 1 1 3 (by decide)
    (QuadNode.inner (⟨0, 0, 1⟩ : Vec3 ℚ) (1 / 4) 2 (.leaf ⟨0, 0, 1⟩ 1 1 [0])
      (.leaf ⟨0, 0, 1⟩ 1 1 [1]) (.leaf ⟨0, 0, 1⟩ 1 1 []) (.leaf ⟨0, 0, 1⟩ 1 1 [2]))
    (Or.inr (by norm_num [QuadNode.ccr])) (by norm_num [QuadNode.getall, QuadNode.area]) 0

end Reduce

section Easy

variable {K : Type} [LinearOrderedField K]

/-- C15: whenever `kmin > kmax`, both adaptive normal computations throw the
invalid-argument error "kmin must not be larger than kmax", whatever the points
and the sensor position, and the vector `normals` is the one passed in. -/
theorem calculateNormalsAdaptive_throws {P : Type}
    (loopApx : List P → Int → Int → Vec3 K → K → List P)
    (loopKNN : List P → Int → Int → Vec3 K → List P)
    (normals points : List P) (kmin kmax : Int) (rPos : Vec3 K) (eps : K)
    (h : kmin > kmax) :
    calculateNormalsAdaptiveApxKNN loopApx normals points kmin kmax rPos eps =
        (.error "kmin must not be larger than kmax", normals) ∧
      calculateNormalsAdaptiveKNN loopKNN normals points kmin kmax rPos =
        (.error "kmin must not be larger than kmax", normals) := by
  constructor
  · unfold calculateNormalsAdaptiveApxKNN
    rw [if_pos h]
  · unfold calculateNormalsAdaptiveKNN
    rw [if_pos h]

/-- C15 at a concrete input: `kmin = 5`, `kmax = 3`, one normal already in the
vector. -/
theorem calculateNormalsAdaptive_throws_witness :
    calculateNormalsAdaptiveApxKNN (P := Vec3 ℚ) (K := ℚ) (fun pts _ _ _ _ => pts)
        [⟨0, 0, 1⟩] [⟨1, 2, 3⟩, ⟨4, 5, 6⟩] 5 3 ⟨0, 0, 0⟩ 0 =
        (.error "kmin must not be larger than kmax", [⟨0, 0, 1⟩]) ∧
      calculateNormalsAdaptiveKNN (P := Vec3 ℚ) (K := ℚ) (fun pts _ _ _ => pts)
        [⟨0, 0, 1⟩] [⟨1, 2, 3⟩, ⟨4, 5, 6⟩] 5 3 ⟨0, 0, 0⟩ =
        (.error "kmin must not be larger than kmax", [⟨0, 0, 1⟩]) :=
  calculateNormalsAdaptive_throws (P := Vec3 ℚ) (K := ℚ) (fun pts _ _ _ _ => pts)
    (fun pts _ _ _ => pts) [⟨0, 0, 1⟩] [⟨1, 2, 3⟩, ⟨4, 5, 6⟩] 5 3 ⟨0, 0, 0⟩ 0 (by decide)

/-- Every index returned by `QuadNode::search` is stored at or below the node. -/
theorem QuadNode_search_subset (M : Libm K) (pts : List (Vec3 K)) (q : Vec3 K) (r : K)
    (n : QuadNode K) : ∀ i ∈ n.search M pts q r, i ∈ n.getall := by
  induction n with
  | leaf ccp ccr area indices =>
    intro i hi
    simp only [QuadNode.search, List.mem_filter] at hi
    exact hi.1
  | inner ccp ccr area t1 t2 t3 t4 ih1 ih2 ih3 ih4 =>
    intro i hi
    simp only [QuadNode.search] at hi
    split_ifs at hi
    · cases hi
    · exact hi
    · simp only [List.mem_append] at hi
      simp only [QuadNode.getall, List.mem_append]
      rcases hi with h | h | h | h
      · exact Or.inl (ih4 i h)
      · exact Or.inr (Or.inl (ih3 i h))
      · exact Or.inr (Or.inr (Or.inl (ih2 i h)))
      · exact Or.inr (Or.inr (Or.inr (ih1 i h)))

/-- `QuadNode::search` is monotone in the radius, on every node. -/
theorem QuadNode_search_mono (M : Libm K) (pts : List (Vec3 K)) (q : Vec3 K) (r1 r2 : K)
    (hr : r1 ≤ r2) (n : QuadNode K) :
    ∀ i ∈ n.search M pts q r1, i ∈ n.search M pts q r2 := by
  induction n with
  | leaf ccp ccr area indices =>
    intro i hi
    simp only [QuadNode.search, List.mem_filter] at hi ⊢
    refine ⟨hi.1, ?_⟩
    have h2 := hi.2
    split_ifs at h2 ⊢ with hd
    · rfl
    · exact decide_eq_true (lt_of_lt_of_le (of_decide_eq_true h2) hr)
  | inner ccp ccr area t1 t2 t3 t4 ih1 ih2 ih3 ih4 =>
    intro i hi
    have hsub := QuadNode_search_subset M pts q r1 (.inner ccp ccr area t1 t2 t3 t4) i hi
    simp only [QuadNode.search] at hi ⊢
    by_cases hfar1 : M.acos (q.x * ccp.x + q.y * ccp.y + q.z * ccp.z) > r1 + ccr
    · rw [if_pos hfar1] at hi
      cases hi
    · rw [if_neg hfar1] at hi
      have hfar2 : ¬ M.acos (q.x * ccp.x + q.y * ccp.y + q.z * ccp.z) > r2 + ccr := by
        intro h
        apply hfar1
        have : r1 + ccr ≤ r2 + ccr := by linarith
        exact lt_of_le_of_lt this h
      rw [if_neg hfar2]
      by_cases hnear2 : M.acos (q.x * ccp.x + q.y * ccp.y + q.z * ccp.z) < r2 - ccr
      · rw [if_pos hnear2]
        exact hsub
      · rw [if_neg hnear2]
        have hnear1 : ¬ M.acos (q.x * ccp.x + q.y * ccp.y + q.z * ccp.z) < r1 - ccr := by
          intro h
          apply hnear2
          have : r1 - ccr ≤ r2 - ccr := by linarith
          exact lt_of_lt_of_le h this
        rw [if_neg hnear1] at hi
        simp only [List.mem_append] at hi ⊢
        rcases hi with h | h | h | h
        · exact Or.inl (ih4 i h)
        · exact Or.inr (Or.inl (ih3 i h))
        · exact Or.inr (Or.inr (Or.inl (ih2 i h)))
        · exact Or.inr (Or.inr (Or.inr (ih1 i h)))

/-- C20: `QuadTree::search` is monotone in the radius: for every tree, every
query vector and all radii `r1 <= r2`, every index returned for `r1` is returned
for `r2`. -/
theorem QuadTree_search_mono (M : Libm K) (t : QuadTree K) (q : Vec3 K) (r1 r2 : K)
    (hr : r1 ≤ r2) : ∀ i ∈ t.search M q r1, i ∈ t.search M q r2 := by
  intro i hi
  simp only [QuadTree.search, List.mem_flatMap] at hi ⊢
  obtain ⟨n, hn, hin⟩ := hi
  exact ⟨n, hn, QuadNode_search_mono M t.pts q r1 r2 hr n i hin⟩

/-- C13: for each of the eight sign triples the constructor swaps the first and
the third vertex exactly when the number of positive signs is even, and the
three axis vectors, in the resulting order, have triple product `+1`. -/
theorem mainvertex_orientation (x y z : Int)
    (hx : x = -1 ∨ x = 1) (hy : y = -1 ∨ y = 1) (hz : z = -1 ∨ z = 1) :
    mainvertex x y z =
        (if ((if x > 0 then 1 else 0) + (if y > 0 then 1 else 0) + (if z > 0 then 1 else 0)) % 2
            = 0
          then ((if z < 0 then 4 else 5), (if y < 0 then 2 else 3), (if x < 0 then 0 else 1))
          else ((if x < 0 then 0 else 1), (if y < 0 then 2 else 3), (if z < 0 then 4 else 5))) ∧
      tripleproduct (getVec (seedVertices : List (Vec3 K)) (mainvertex x y z).1)
        (getVec seedVertices (mainvertex x y z).2.1)
        (getVec seedVertices (mainvertex x y z).2.2) = 1 := by
  rcases hx with rfl | rfl <;> rcases hy with rfl | rfl <;> rcases hz with rfl | rfl <;>
    refine ⟨by decide, ?_⟩ <;>
    simp [mainvertex, getVec, seedVertices, tripleproduct, Cross]

/-- C20 at a concrete input: the tree of 101 points in one octant (its root an
inner node), the query `(1, 0, 0)` and the radii `1 / 2` and `1`. -/
theorem QuadTree_search_mono_witness :
    ∃ t : QuadTree ℝ,
      QuadTree.ctor (⟨Real.sqrt, Real.arcsin, Real.arccos, Real.cos, Real.pi⟩ : Libm ℝ) 2
        (List.replicate 51 ⟨3, 1, 1⟩ ++ List.replicate 50 ⟨1, 3, 1⟩) = some t ∧
      (∃ root ∈ t.trees, ∃ ccp ccr area t1 t2 t3 t4, root = .inner ccp ccr area t1 t2 t3 t4) ∧
      ∀ i ∈ t.search ⟨Real.sqrt, Real.arcsin, Real.arccos, Real.cos, Real.pi⟩
          (⟨1, 0, 0⟩ : Vec3 ℝ) (1 / 2),
        i ∈ t.search ⟨Real.sqrt, Real.arcsin, Real.arccos, Real.cos, Real.pi⟩
          (⟨1, 0, 0⟩ : Vec3 ℝ) 1 := by
  obtain ⟨t, ht, hroot⟩ := QuadTree_ctor_two_level_example
  exact ⟨t, ht, hroot, QuadTree_search_mono _ t ⟨1, 0, 0⟩ (1 / 2) 1 (by norm_num)⟩

/-- C13 at a concrete input: the octant `(-1, 1, 1)` has two positive signs, so
the first and the third vertex are swapped. -/
theorem mainvertex_orientation_witness :
    mainvertex (-1) 1 1 = (5, 3, 0) ∧
      tripleproduct (getVec (seedVertices : List (Vec3 ℚ)) (mainvertex (-1) 1 1).1)
        (getVec seedVertices (mainvertex (-1) 1 1).2.1)
        (getVec seedVertices (mainvertex (-1) 1 1).2.2) = 1 :=
  mainvertex_orientation (K := ℚ) (-1) 1 1 (Or.inl rfl) (Or.inr rfl) (Or.inr rfl)

end Easy

end Slam6D

namespace Slam6D

section Refinement

/-- The midpoint vertex of two vertices whose sum is not the zero vector is a
positive multiple of their sum. -/
theorem midpoint_scale (M : Libm ℝ) (hM : M.Exact) (wa wb : Vec3 ℝ)
    (h : Len2 (halfSum wa wb) ≠ 0) :
    ∃ c : ℝ, 0 < c ∧ Normalize3 M (halfSum wa wb) = vscale c wa wb := by
  have hpos : 0 < Len2 (halfSum wa wb) := lt_of_le_of_ne (Len2_nonneg _) (Ne.symm h)
  have hs : 0 < √(Len2 (halfSum wa wb)) := Real.sqrt_pos.mpr hpos
  refine ⟨1 / (2 * √(Len2 (halfSum wa wb))), by positivity, ?_⟩
  rw [Normalize3_exact M hM]
  simp only [vscale, halfSum]
  ext <;> simp only <;> field_simp

/-- The edges of a good triangle have midpoints of non-zero length. -/
theorem GoodTri_halfSum_ne (w1 w2 w3 : Vec3 ℝ) (hg : GoodTri w1 w2 w3) :
    Len2 (halfSum w1 w2) ≠ 0 ∧ Len2 (halfSum w2 w3) ≠ 0 ∧ Len2 (halfSum w3 w1) ≠ 0 := by
  obtain ⟨h1, h2, h3, d12, d23, d31, _⟩ := hg
  have e : ∀ u v : Vec3 ℝ, Len2 (halfSum u v) = (Len2 u + Len2 v + 2 * dot3 u v) / 4 := by
    intro u v
    simp only [halfSum, Len2, sqr, dot3]
    ring
  refine ⟨?_, ?_, ?_⟩
  · rw [e, h1, h2]
    have : (0:ℝ) < (1 + 1 + 2 * dot3 w1 w2) / 4 := by linarith
    exact ne_of_gt this
  · rw [e, h2, h3]
    have : (0:ℝ) < (1 + 1 + 2 * dot3 w2 w3) / 4 := by linarith
    exact ne_of_gt this
  · rw [e, h3, h1]
    have : (0:ℝ) < (1 + 1 + 2 * dot3 w3 w1) / 4 := by linarith
    exact ne_of_gt this

/-- On a point of the closed parent triangle, with the midpoints positive
multiples of the edge sums, the twelve-test version chooses the child that the
three-test cascade chooses. -/
theorem childOf12_eq (w1 w2 w3 w4 w5 w6 p : Vec3 ℝ) (c4 c5 c6 : ℝ)
    (hc4 : 0 < c4) (hc5 : 0 < c5) (hc6 : 0 < c6)
    (h4 : w4 = vscale c4 w1 w2) (h5 : w5 = vscale c5 w2 w3) (h6 : w6 = vscale c6 w3 w1)
    (hin : InTri w1 w2 w3 p) :
    childOf12 w1 w2 w3 w4 w5 w6 p = some (childOf w4 w5 w6 p) := by
  obtain ⟨i1, i2, i3⟩ := hin
  have a14 : tripleproduct w1 w4 p = c4 * tripleproduct w1 w2 p := by
    rw [h4]; simp only [vscale, tripleproduct, Cross]; ring
  have a61 : tripleproduct w6 w1 p = c6 * tripleproduct w3 w1 p := by
    rw [h6]; simp only [vscale, tripleproduct, Cross]; ring
  have a25 : tripleproduct w2 w5 p = c5 * tripleproduct w2 w3 p := by
    rw [h5]; simp only [vscale, tripleproduct, Cross]; ring
  have a42 : tripleproduct w4 w2 p = c4 * tripleproduct w1 w2 p := by
    rw [h4]; simp only [vscale, tripleproduct, Cross]; ring
  have a36 : tripleproduct w3 w6 p = c6 * tripleproduct w3 w1 p := by
    rw [h6]; simp only [vscale, tripleproduct, Cross]; ring
  have a53 : tripleproduct w5 w3 p = c5 * tripleproduct w2 w3 p := by
    rw [h5]; simp only [vscale, tripleproduct, Cross]; ring
  have s45 : tripleproduct w4 w5 p = -tripleproduct w5 w4 p := by
    simp only [tripleproduct, Cross]; ring
  have s56 : tripleproduct w5 w6 p = -tripleproduct w6 w5 p := by
    simp only [tripleproduct, Cross]; ring
  have s64 : tripleproduct w6 w4 p = -tripleproduct w4 w6 p := by
    simp only [tripleproduct, Cross]; ring
  have b14 : tripleproduct w1 w4 p ≥ 0 := by rw [a14]; positivity
  have b61 : tripleproduct w6 w1 p ≥ 0 := by rw [a61]; positivity
  have b25 : tripleproduct w2 w5 p ≥ 0 := by rw [a25]; positivity
  have b42 : tripleproduct w4 w2 p ≥ 0 := by rw [a42]; positivity
  have b36 : tripleproduct w3 w6 p ≥ 0 := by rw [a36]; positivity
  have b53 : tripleproduct w5 w3 p ≥ 0 := by rw [a53]; positivity
  unfold childOf12 childOf
  by_cases t1 : tripleproduct w4 w6 p ≥ 0
  · rw [if_pos ⟨b14, t1, b61⟩, if_pos t1]
  · rw [if_neg (fun h => t1 h.2.1), if_neg t1]
    by_cases t2 : tripleproduct w5 w4 p ≥ 0
    · rw [if_pos ⟨b25, t2, b42⟩, if_pos t2]
    · rw [if_neg (fun h => t2 h.2.1), if_neg t2]
      by_cases t3 : tripleproduct w6 w5 p ≥ 0
      · rw [if_pos ⟨b36, t3, b53⟩, if_pos t3]
      · rw [if_neg (fun h => t3 h.2.1), if_neg t3]
        have c1 : tripleproduct w4 w5 p ≥ 0 := by rw [s45]; linarith [not_le.mp t2]
        have c2 : tripleproduct w5 w6 p ≥ 0 := by rw [s56]; linarith [not_le.mp t3]
        have c3 : tripleproduct w6 w4 p ≥ 0 := by rw [s64]; linarith [not_le.mp t1]
        rw [if_pos ⟨c1, c2, c3⟩]

/-- C16: in exact real arithmetic, for a triangle whose three edge midpoints are
not the zero vector (so for every good triangle, and every triangle that the
build subdivides), with `w4`, `w5`, `w6` the normalized midpoints computed by
`middle`, and a point `p` that passes the three edge tests of the parent: the
twelve-test version does not reach its `impossible` branch and chooses the child
that the three-test cascade chooses, and `p` passes the three edge tests of that
child. -/
theorem childOf_refines_twelve (M : Libm ℝ) (hM : M.Exact) (w1 w2 w3 w4 w5 w6 p : Vec3 ℝ)
    (h12 : Len2 (halfSum w1 w2) ≠ 0) (h23 : Len2 (halfSum w2 w3) ≠ 0)
    (h31 : Len2 (halfSum w3 w1) ≠ 0)
    (h4 : w4 = Normalize3 M (halfSum w1 w2)) (h5 : w5 = Normalize3 M (halfSum w2 w3))
    (h6 : w6 = Normalize3 M (halfSum w3 w1)) (hin : InTri w1 w2 w3 p) :
    childOf12 w1 w2 w3 w4 w5 w6 p = some (childOf w4 w5 w6 p) ∧
      (childOf w4 w5 w6 p = 1 → InTri w1 w4 w6 p) ∧
      (childOf w4 w5 w6 p = 2 → InTri w2 w5 w4 p) ∧
      (childOf w4 w5 w6 p = 3 → InTri w3 w6 w5 p) ∧
      (childOf w4 w5 w6 p = 4 → InTri w4 w5 w6 p) := by
  obtain ⟨c4, hc4, f4⟩ := midpoint_scale M hM w1 w2 h12
  obtain ⟨c5, hc5, f5⟩ := midpoint_scale M hM w2 w3 h23
  obtain ⟨c6, hc6, f6⟩ := midpoint_scale M hM w3 w1 h31
  rw [← h4] at f4
  rw [← h5] at f5
  rw [← h6] at f6
  exact ⟨childOf12_eq w1 w2 w3 w4 w5 w6 p c4 c5 c6 hc4 hc5 hc6 f4 f5 f6 hin,
    InTri_child w1 w2 w3 w4 w5 w6 p c4 c5 c6 hc4 hc5 hc6 f4 f5 f6 hin⟩

/-- C16 at a concrete input: the octant triangle of the three positive axes and
the point `(1, 1, 1)`. -/
theorem childOf_refines_twelve_witness :
    childOf12 (⟨1, 0, 0⟩ : Vec3 ℝ) ⟨0, 1, 0⟩ ⟨0, 0, 1⟩
        (Normalize3 ⟨Real.sqrt, Real.arcsin, Real.arccos, Real.cos, Real.pi⟩
          (halfSum ⟨1, 0, 0⟩ ⟨0, 1, 0⟩))
        (Normalize3 ⟨Real.sqrt, Real.arcsin, Real.arccos, Real.cos, Real.pi⟩
          (halfSum ⟨0, 1, 0⟩ ⟨0, 0, 1⟩))
        (Normalize3 ⟨Real.sqrt, Real.arcsin, Real.arccos, Real.cos, Real.pi⟩
          (halfSum ⟨0, 0, 1⟩ ⟨1, 0, 0⟩)) ⟨1, 1, 1⟩ =
      some (childOf
        (Normalize3 ⟨Real.sqrt, Real.arcsin, Real.arccos, Real.cos, Real.pi⟩
          (halfSum ⟨1, 0, 0⟩ ⟨0, 1, 0⟩))
        (Normalize3 ⟨Real.sqrt, Real.arcsin, Real.arccos, Real.cos, Real.pi⟩
          (halfSum ⟨0, 1, 0⟩ ⟨0, 0, 1⟩))
        (Normalize3 ⟨Real.sqrt, Real.arcsin, Real.arccos, Real.cos, Real.pi⟩
          (halfSum ⟨0, 0, 1⟩ ⟨1, 0, 0⟩)) ⟨1, 1, 1⟩) :=
  (childOf_refines_twelve ⟨Real.sqrt, Real.arcsin, Real.arccos, Real.cos, Real.pi⟩
    ⟨rfl, rfl, rfl, rfl, rfl⟩ ⟨1, 0, 0⟩ ⟨0, 1, 0⟩ ⟨0, 0, 1⟩ _ _ _ ⟨1, 1, 1⟩
    (by norm_num [Len2, sqr, halfSum]) (by norm_num [Len2, sqr, halfSum])
    (by norm_num [Len2, sqr, halfSum]) rfl rfl rfl
    (by norm_num [InTri, tripleproduct, Cross])).1

end Refinement

section PoolFacts

/-- A call of `middle` leaves the pool as it is or appends the normalized
midpoint of the two vertices. -/
theorem middle_cases {K : Type} [LinearOrderedField K] (M : Libm K) (a b : Nat)
    (vs : List (Vec3 K)) (mm : MiddleMap) :
    (mm.lookup (a, b) ≠ none ∧ (middle M a b vs mm).2.1 = vs) ∨
      (mm.lookup (a, b) = none ∧ (middle M a b vs mm).1 = vs.length ∧
        (middle M a b vs mm).2.1 =
          vs ++ [Normalize3 M (halfSum (getVec vs a) (getVec vs b))]) := by
  cases hlk : mm.lookup (a, b) with
  | some i =>
    left
    refine ⟨by simp, ?_⟩
    simp only [middle, hlk]
  | none =>
    right
    refine ⟨rfl, ?_, ?_⟩
    · simp only [middle, hlk, List.length_append, List.length_singleton, Nat.add_sub_cancel]
    · simp only [middle, hlk, halfSum]

/-- The constructor extends the pool and keeps the midpoint map sound, whatever
the points. -/
theorem QuadNode_ctor_pool {K : Type} [LinearOrderedField K] (M : Libm K) (pts : List (Vec3 K)) :
    ∀ (fuel v1 v2 v3 : Nat) (indices : List Nat) (vertices : List (Vec3 K))
      (middlemap : MiddleMap) (r : QuadNode K × List (Vec3 K) × MiddleMap),
      MapOK M vertices middlemap →
      v1 < vertices.length → v2 < vertices.length → v3 < vertices.length →
      QuadNode.ctor M fuel v1 v2 v3 indices pts vertices middlemap = some r →
      MapOK M r.2.1 r.2.2 ∧ vertices <+: r.2.1 := by
  intro fuel
  induction fuel with
  | zero =>
    intro v1 v2 v3 indices vertices middlemap r _ _ _ _ h
    simp [QuadNode.ctor] at h
  | succ fuel ih =>
    intro v1 v2 v3 indices vertices middlemap r hok hv1 hv2 hv3 h
    rcases QuadNode_ctor_succ_inv M pts fuel v1 v2 v3 indices vertices middlemap r h with
      ⟨_, hr⟩ | ⟨_, m4, m5, m6, t1, t2, t3, t4, s1, s2, s3, s4, hm4, hm5, hm6,
        e1, e2, e3, e4, hr⟩
    · rw [hr]
      exact ⟨hok, List.prefix_refl _⟩
    · obtain ⟨p4, ok4, l4, _⟩ := middle_extends M v1 v2 vertices middlemap hok hv1 hv2
      rw [← hm4] at p4 ok4 l4
      have len4 := p4.length_le
      obtain ⟨p5, ok5, l5, _⟩ := middle_extends M v2 v3 m4.2.1 m4.2.2 ok4 (by omega) (by omega)
      rw [← hm5] at p5 ok5 l5
      have len5 := p5.length_le
      obtain ⟨p6, ok6, l6, _⟩ := middle_extends M v3 v1 m5.2.1 m5.2.2 ok5 (by omega) (by omega)
      rw [← hm6] at p6 ok6 l6
      have len6 := p6.length_le
      obtain ⟨ok1, pr1⟩ := ih v1 m4.1 m6.1 _ m6.2.1 m6.2.2 (t1, s1) ok6 (by omega) (by omega)
        l6 e1
      have len1 := pr1.length_le
      simp only at ok1 pr1 len1
      obtain ⟨ok2, pr2⟩ := ih v2 m5.1 m4.1 _ s1.1 s1.2 (t2, s2) ok1 (by omega) (by omega)
        (by omega) e2
      have len2 := pr2.length_le
      simp only at ok2 pr2 len2
      obtain ⟨ok3, pr3⟩ := ih v3 m6.1 m5.1 _ s2.1 s2.2 (t3, s3) ok2 (by omega) (by omega)
        (by omega) e3
      have len3 := pr3.length_le
      simp only at ok3 pr3 len3
      obtain ⟨ok4', pr4⟩ := ih m4.1 m5.1 m6.1 _ s3.1 s3.2 (t4, s4) ok3 (by omega) (by omega)
        (by omega) e4
      simp only at ok4' pr4
      rw [hr]
      exact ⟨ok4', ((p4.trans p5).trans p6).trans (((pr1.trans pr2).trans pr3).trans pr4)⟩

/-- The cached fields of a constructed node are computed from the three
vertices it was given. -/
theorem QuadNode_ctor_fields {K : Type} [LinearOrderedField K] (M : Libm K)
    (pts : List (Vec3 K)) (fuel v1 v2 v3 : Nat) (indices : List Nat) (vertices : List (Vec3 K))
    (middlemap : MiddleMap) (r : QuadNode K × List (Vec3 K) × MiddleMap)
    (h : QuadNode.ctor M fuel v1 v2 v3 indices pts vertices middlemap = some r) :
    r.1.ccp = (circumcircle M (getVec vertices v1) (getVec vertices v2) (getVec vertices v3)).1 ∧
    r.1.ccr = (circumcircle M (getVec vertices v1) (getVec vertices v2) (getVec vertices v3)).2 ∧
    r.1.area = triangleArea M (getVec vertices v1) (getVec vertices v2) (getVec vertices v3) := by
  cases fuel with
  | zero => simp [QuadNode.ctor] at h
  | succ fuel =>
    rcases QuadNode_ctor_succ_inv M pts fuel v1 v2 v3 indices vertices middlemap r h with
      ⟨_, hr⟩ | ⟨_, m4, m5, m6, t1, t2, t3, t4, s1, s2, s3, s4, _, _, _, _, _, _, _, hr⟩
    · rw [hr]
      exact ⟨rfl, rfl, rfl⟩
    · rw [hr]
      exact ⟨rfl, rfl, rfl⟩

/-- The loop over the roots, position by position: root `k` holds a permutation
of bucket `k` and caches the circumcircle and the area of triangle `k`, read from
the pool `base` that the loop started from. -/
theorem buildTrees_roots {K : Type} [LinearOrderedField K] (M : Libm K) (fuel : Nat)
    (pts : List (Vec3 K)) (base : List (Vec3 K)) :
    ∀ (l : List ((Nat × Nat × Nat) × List Nat)) (vertices : List (Vec3 K))
      (middlemap : MiddleMap) (r : List (QuadNode K) × List (Vec3 K) × MiddleMap),
      base <+: vertices → MapOK M vertices middlemap →
      (∀ x ∈ l, x.1.1 < base.length ∧ x.1.2.1 < base.length ∧ x.1.2.2 < base.length) →
      buildTrees M fuel pts l vertices middlemap = some r →
      List.Forall₂ (fun x n =>
        n.getall.Perm x.2 ∧
        n.ccp = (circumcircle M (getVec base x.1.1) (getVec base x.1.2.1)
          (getVec base x.1.2.2)).1 ∧
        n.ccr = (circumcircle M (getVec base x.1.1) (getVec base x.1.2.1)
          (getVec base x.1.2.2)).2 ∧
        n.area = triangleArea M (getVec base x.1.1) (getVec base x.1.2.1)
          (getVec base x.1.2.2)) l r.1 ∧
      base <+: r.2.1 ∧ MapOK M r.2.1 r.2.2 := by
  intro l
  induction l with
  | nil =>
    intro vertices middlemap r hpre hok _ h
    simp only [buildTrees] at h
    cases h
    exact ⟨List.Forall₂.nil, hpre, hok⟩
  | cons x rest ih =>
    intro vertices middlemap r hpre hok hl h
    obtain ⟨mv, bucket⟩ := x
    simp only [buildTrees] at h
    split at h
    · cases h
    · rename_i t vs mm e1
      split at h
      · cases h
      · rename_i ts vs2 mm2 e2
        cases h
        obtain ⟨b1, b2, b3⟩ := hl (mv, bucket) (List.mem_cons_self _ _)
        simp only at b1 b2 b3
        have hlen := hpre.length_le
        obtain ⟨ok1, pr1⟩ := QuadNode_ctor_pool M pts fuel mv.1 mv.2.1 mv.2.2
          bucket vertices middlemap (t, vs, mm) hok (by omega) (by omega) (by omega) e1
        simp only at ok1 pr1
        obtain ⟨f1, f2, f3⟩ := QuadNode_ctor_fields M pts fuel mv.1 mv.2.1 mv.2.2
          bucket vertices middlemap (t, vs, mm) e1
        simp only at f1 f2 f3
        rw [getVec_of_extends _ _ hpre _ b1, getVec_of_extends _ _ hpre _ b2,
          getVec_of_extends _ _ hpre _ b3] at f1 f2 f3
        have hperm := QuadNode_ctor_getall_perm M pts _ _ _ _ _ _ _ _ e1
        simp only at hperm
        obtain ⟨hrest, hp2, hok2⟩ := ih vs mm (ts, vs2, mm2) (hpre.trans pr1) ok1
          (fun y hy => hl y (List.mem_cons_of_mem _ hy)) e2
        exact ⟨List.Forall₂.cons ⟨hperm, f1, f2, f3⟩ hrest, hp2, hok2⟩

/-- The eight roots of a built tree, position by position, together with the
pool: root `k` holds a permutation of bucket `k` and caches the circumcircle and
the area of the octant triangle `mainvertices[k]` on the seed vertices. -/
theorem QuadTree_ctor_roots {K : Type} [LinearOrderedField K] (M : Libm K) (fuel : Nat)
    (pts : List (Vec3 K)) (t : QuadTree K) (h : QuadTree.ctor M fuel pts = some t) :
    t.pts = pts.map (Normalize3 M) ∧
    List.Forall₂ (fun x n =>
        n.getall.Perm x.2 ∧
        n.ccp = (circumcircle M (getVec seedVertices x.1.1) (getVec seedVertices x.1.2.1)
          (getVec seedVertices x.1.2.2)).1 ∧
        n.ccr = (circumcircle M (getVec seedVertices x.1.1) (getVec seedVertices x.1.2.1)
          (getVec seedVertices x.1.2.2)).2 ∧
        n.area = triangleArea M (getVec seedVertices x.1.1) (getVec seedVertices x.1.2.1)
          (getVec seedVertices x.1.2.2))
      (mainvertices.zip (buckets (pts.map (Normalize3 M)))) t.trees ∧
    seedVertices <+: t.vertices ∧ MapOK M t.vertices t.middlemap := by
  simp only [QuadTree.ctor] at h
  split at h
  · cases h
  · rename_i trees vertices middlemap e
    cases h
    refine ⟨rfl, ?_⟩
    refine buildTrees_roots M fuel _ seedVertices _ seedVertices [] (trees, vertices, middlemap)
      (List.prefix_refl _) (MapOK_nil M _) ?_ e
    intro x hx
    have hm := (List.of_mem_zip hx).1
    rw [mainvertices_eq] at hm
    simp only [List.mem_cons, List.mem_singleton, List.not_mem_nil, or_false] at hm
    have hlen : (seedVertices : List (Vec3 K)).length = 6 := rfl
    rw [hlen]
    rcases hm with h | h | h | h | h | h | h | h <;> rw [h] <;> simp

/-- Each element of the right list of a `Forall₂` has a partner in the left
list. -/
theorem forall₂_mem_right {α β : Type} (R : α → β → Prop) (l1 : List α) (l2 : List β)
    (h : List.Forall₂ R l1 l2) : ∀ b ∈ l2, ∃ a ∈ l1, R a b := by
  induction h with
  | nil =>
    intro b hb
    cases hb
  | cons hab _ ih =>
    intro b hb
    rcases List.mem_cons.mp hb with rfl | hb
    · exact ⟨_, List.mem_cons_self _ _, hab⟩
    · obtain ⟨a, ha, hr⟩ := ih b hb
      exact ⟨a, List.mem_cons_of_mem _ ha, hr⟩

/-- In exact arithmetic the spherical excess of each of the eight octant
triangles on the seed vertices is `pi / 2`. -/
theorem triangleArea_seed (M : Libm ℝ) (hM : M.Exact) :
    ∀ mv ∈ mainvertices,
      triangleArea M (getVec seedVertices mv.1) (getVec seedVertices mv.2.1)
        (getVec seedVertices mv.2.2) = Real.pi / 2 := by
  intro mv hmv
  rw [mainvertices_eq] at hmv
  simp only [List.mem_cons, List.mem_singleton, List.not_mem_nil, or_false] at hmv
  obtain ⟨hs, _, hc, _, hp⟩ := hM
  rcases hmv with rfl | rfl | rfl | rfl | rfl | rfl | rfl | rfl <;>
    simp [triangleArea, getVec, seedVertices, Cross, Normalize3, hs, hc, hp] <;> ring

/-- C19: in exact arithmetic, each of the eight root nodes of a built tree caches
the area `pi / 2`, and the eight areas sum to `4 * pi`. -/
theorem QuadTree_root_areas (M : Libm ℝ) (hM : M.Exact) (fuel : Nat) (pts : List (Vec3 ℝ))
    (t : QuadTree ℝ) (h : QuadTree.ctor M fuel pts = some t) :
    t.trees.length = 8 ∧ (∀ n ∈ t.trees, n.area = Real.pi / 2) ∧
      (t.trees.map QuadNode.area).sum = 4 * Real.pi := by
  obtain ⟨hlen, _⟩ := QuadTree_ctor_roots_perm M fuel pts t h
  obtain ⟨_, hall, _, _⟩ := QuadTree_ctor_roots M fuel pts t h
  have harea : ∀ n ∈ t.trees, n.area = Real.pi / 2 := by
    intro n hn
    obtain ⟨x, hx, _, _, _, ha⟩ := forall₂_mem_right _ _ _ hall n hn
    rw [ha]
    exact triangleArea_seed M hM x.1 (List.of_mem_zip hx).1
  refine ⟨hlen, harea, ?_⟩
  have hrep : t.trees.map QuadNode.area = List.replicate 8 (Real.pi / 2) := by
    rw [List.eq_replicate_iff]
    refine ⟨by rw [List.length_map, hlen], ?_⟩
    intro b hb
    obtain ⟨n, hn, rfl⟩ := List.mem_map.mp hb
    exact harea n hn
  rw [hrep, List.sum_replicate]
  simp only [nsmul_eq_mul]
  push_cast
  ring

/-- C19 at a concrete input: the tree of 101 points in one octant. -/
theorem QuadTree_root_areas_witness :
    ∃ t : QuadTree ℝ,
      QuadTree.ctor (⟨Real.sqrt, Real.arcsin, Real.arccos, Real.cos, Real.pi⟩ : Libm ℝ) 2
        (List.replicate 51 ⟨3, 1, 1⟩ ++ List.replicate 50 ⟨1, 3, 1⟩) = some t ∧
      t.trees.length = 8 ∧ (∀ n ∈ t.trees, n.area = Real.pi / 2) ∧
        (t.trees.map QuadNode.area).sum = 4 * Real.pi := by
  obtain ⟨t, ht, _⟩ := QuadTree_ctor_two_level_example
  exact ⟨t, ht, QuadTree_root_areas _ ⟨rfl, rfl, rfl, rfl, rfl⟩ 2 _ t ht⟩

/-- Root `k` of a built tree: it holds exactly the indices whose normalized point
has bucket index `k`, and it caches the circumcircle of the octant triangle
`mainvertices[k]` on the seed vertices. -/
theorem QuadTree_ctor_root_at {K : Type} [LinearOrderedField K] (M : Libm K) (fuel : Nat)
    (pts : List (Vec3 K)) (t : QuadTree K) (h : QuadTree.ctor M fuel pts = some t)
    (k : Nat) (hk : k < 8) :
    ∃ root mv, t.trees[k]? = some root ∧ mainvertices[k]? = some mv ∧
      (∀ i, i ∈ root.getall ↔ i < pts.length ∧ bucketIdx (getVec t.pts i) = k) ∧
      root.ccp = (circumcircle M (getVec seedVertices mv.1) (getVec seedVertices mv.2.1)
          (getVec seedVertices mv.2.2)).1 ∧
      root.ccr = (circumcircle M (getVec seedVertices mv.1) (getVec seedVertices mv.2.1)
          (getVec seedVertices mv.2.2)).2 := by
  obtain ⟨hpts, hall, _, _⟩ := QuadTree_ctor_roots M fuel pts t h
  obtain ⟨hlen, _⟩ := QuadTree_ctor_roots_perm M fuel pts t h
  rw [List.forall₂_iff_get] at hall
  obtain ⟨hl, hget⟩ := hall
  have hk1 : k < (mainvertices.zip (buckets (pts.map (Normalize3 M)))).length := by
    rw [hl, hlen]
    exact hk
  have hk2 : k < t.trees.length := by
    rw [hlen]
    exact hk
  have hk3 : k < mainvertices.length := by
    rw [mainvertices_length]
    exact hk
  have hk4 : k < (buckets (pts.map (Normalize3 M))).length := by
    rw [buckets_length]
    exact hk
  obtain ⟨hperm, hccp, hccr, _⟩ := hget k hk1 hk2
  simp only [List.get_eq_getElem, List.getElem_zip] at hperm hccp hccr
  refine ⟨t.trees[k], mainvertices[k], List.getElem?_eq_getElem hk2,
    List.getElem?_eq_getElem hk3, ?_, hccp, hccr⟩
  intro i
  rw [hperm.mem_iff, hpts]
  simp only [buckets, List.getElem_map, List.getElem_range, List.mem_filter, List.mem_range,
    List.length_map, decide_eq_true_eq]

/-- The bit encoding of the bucket index matches the order in which the three
nested loops enumerate the octant triangles. -/
theorem mainvertices_bucketIdx {K : Type} [LinearOrderedField K] (q : Vec3 K) :
    mainvertices[bucketIdx q]? =
      some (mainvertex (if 0 < q.x then 1 else -1) (if 0 < q.y then 1 else -1)
        (if 0 < q.z then 1 else -1)) := by
  rw [mainvertices_eq]
  by_cases hx : 0 < q.x <;> by_cases hy : 0 < q.y <;> by_cases hz : 0 < q.z <;>
    simp only [bucketIdx, gt_iff_lt, hx, hy, hz, if_true, if_false] <;> decide

/-- In exact arithmetic the normalization keeps the signs of the components of
a vector of non-zero length. -/
theorem Normalize3_signs (M : Libm ℝ) (hM : M.Exact) (v : Vec3 ℝ) (hv : Len2 v ≠ 0) :
    (0 < (Normalize3 M v).x ↔ 0 < v.x) ∧ (0 < (Normalize3 M v).y ↔ 0 < v.y) ∧
      (0 < (Normalize3 M v).z ↔ 0 < v.z) := by
  have hL : 0 < Len2 v := lt_of_le_of_ne (Len2_nonneg _) (Ne.symm hv)
  have hs : 0 < √(Len2 v) := Real.sqrt_pos.mpr hL
  rw [Normalize3_exact M hM]
  exact ⟨div_pos_iff_of_pos_right hs, div_pos_iff_of_pos_right hs, div_pos_iff_of_pos_right hs⟩

/-- The three vertices of the octant triangle of the signs of `p` are the axis
vectors with these signs, and `p` has a non-negative scalar product with each,
in every ordered field. -/
theorem mainvertex_signs {K : Type} [LinearOrderedField K] (p : Vec3 K) (sx sy sz : Int)
    (hx : sx = if 0 < p.x then 1 else -1) (hy : sy = if 0 < p.y then 1 else -1)
    (hz : sz = if 0 < p.z then 1 else -1) :
    getVec seedVertices (mainvertex sx sy sz).2.1 = (⟨0, sy, 0⟩ : Vec3 K) ∧
    ((getVec seedVertices (mainvertex sx sy sz).1 = (⟨sx, 0, 0⟩ : Vec3 K) ∧
        getVec seedVertices (mainvertex sx sy sz).2.2 = (⟨0, 0, sz⟩ : Vec3 K)) ∨
      (getVec seedVertices (mainvertex sx sy sz).1 = (⟨0, 0, sz⟩ : Vec3 K) ∧
        getVec seedVertices (mainvertex sx sy sz).2.2 = (⟨sx, 0, 0⟩ : Vec3 K))) ∧
    0 ≤ dot3 p (getVec seedVertices (mainvertex sx sy sz).1) ∧
    0 ≤ dot3 p (getVec seedVertices (mainvertex sx sy sz).2.1) ∧
    0 ≤ dot3 p (getVec seedVertices (mainvertex sx sy sz).2.2) := by
  by_cases h1 : 0 < p.x <;> by_cases h2 : 0 < p.y <;> by_cases h3 : 0 < p.z <;>
    simp only [h1, h2, h3, if_true, if_false] at hx hy hz <;> subst hx <;> subst hy <;>
    subst hz <;>
    simp [mainvertex, getVec, seedVertices, dot3] <;>
    refine ⟨?_, ?_, ?_⟩ <;> linarith

/-- C14: for every input index `i` whose point has a computed length
`sqrt(x*x + y*y + z*z)` other than 0, let `p` be the stored point of `i` (the
result of `Normalize3` on the input point) and let `sx`, `sy`, `sz` be `+1` where
the component of `p` is positive and `-1` otherwise.  The root at position
`bucketIdx p` holds `i`, no other root does, it is the root of the octant
triangle `mainvertex sx sy sz` (entry `bucketIdx p` of `mainvertices`), the
vertices of that triangle are the axis vectors `sx e_x`, `sy e_y`, `sz e_z`, and
`p` has a non-negative scalar product with each of them.  This holds in every
ordered field and for every math library.  The hypothesis on the length is the
one of the claim; it keeps the division of `Normalize3` a division by a number
other than 0, and the proof does not need it in an ordered field. -/
theorem QuadTree_root_signs {K : Type} [LinearOrderedField K] (M : Libm K) (fuel : Nat)
    (pts : List (Vec3 K)) (t : QuadTree K) (h : QuadTree.ctor M fuel pts = some t)
    (i : Nat) (hi : i < pts.length) (_hlen : Len M (getVec pts i) ≠ 0) :
    ∃ (root : QuadNode K) (sx sy sz : Int) (mv : Nat × Nat × Nat),
      getVec t.pts i = Normalize3 M (getVec pts i) ∧
      sx = (if 0 < (getVec t.pts i).x then 1 else -1) ∧
      sy = (if 0 < (getVec t.pts i).y then 1 else -1) ∧
      sz = (if 0 < (getVec t.pts i).z then 1 else -1) ∧
      mv = mainvertex sx sy sz ∧
      mainvertices[bucketIdx (getVec t.pts i)]? = some mv ∧
      t.trees[bucketIdx (getVec t.pts i)]? = some root ∧ i ∈ root.getall ∧
      (∀ k root', t.trees[k]? = some root' → i ∈ root'.getall →
        k = bucketIdx (getVec t.pts i)) ∧
      root.ccp = (circumcircle M (getVec seedVertices mv.1) (getVec seedVertices mv.2.1)
          (getVec seedVertices mv.2.2)).1 ∧
      root.ccr = (circumcircle M (getVec seedVertices mv.1) (getVec seedVertices mv.2.1)
          (getVec seedVertices mv.2.2)).2 ∧
      getVec seedVertices mv.2.1 = (⟨0, sy, 0⟩ : Vec3 K) ∧
      ((getVec seedVertices mv.1 = (⟨sx, 0, 0⟩ : Vec3 K) ∧
          getVec seedVertices mv.2.2 = (⟨0, 0, sz⟩ : Vec3 K)) ∨
        (getVec seedVertices mv.1 = (⟨0, 0, sz⟩ : Vec3 K) ∧
          getVec seedVertices mv.2.2 = (⟨sx, 0, 0⟩ : Vec3 K))) ∧
      0 ≤ dot3 (getVec t.pts i) (getVec seedVertices mv.1) ∧
      0 ≤ dot3 (getVec t.pts i) (getVec seedVertices mv.2.1) ∧
      0 ≤ dot3 (getVec t.pts i) (getVec seedVertices mv.2.2) := by
  obtain ⟨root, mv, hroot, hmv, hmem, hccp, hccr⟩ :=
    QuadTree_ctor_root_at M fuel pts t h (bucketIdx (getVec t.pts i)) (bucketIdx_lt _)
  obtain ⟨hp, _⟩ := QuadTree_ctor_roots M fuel pts t h
  have hq : getVec t.pts i = Normalize3 M (getVec pts i) := by
    rw [hp]
    exact getVec_map_Normalize3 M pts i hi
  have hmv2 := mainvertices_bucketIdx (getVec t.pts i)
  rw [hmv] at hmv2
  have hmv3 := Option.some.inj hmv2
  obtain ⟨s1, s2, s3, s4, s5⟩ := mainvertex_signs (getVec t.pts i) _ _ _ rfl rfl rfl
  rw [← hmv3] at s1 s2 s3 s4 s5
  refine ⟨root, _, _, _, mv, hq, rfl, rfl, rfl, hmv3, hmv, hroot, (hmem i).mpr ⟨hi, rfl⟩, ?_,
    hccp, hccr, s1, s2, s3, s4, s5⟩
  intro k root' hk hin
  have hk8 : k < 8 := by
    have := (QuadTree_ctor_roots_perm M fuel pts t h).1
    have hlt : k < t.trees.length := by
      by_contra hcon
      rw [List.getElem?_eq_none (not_lt.mp hcon)] at hk
      cases hk
    omega
  obtain ⟨root2, _, hroot2, _, hmem2, _, _⟩ := QuadTree_ctor_root_at M fuel pts t h k hk8
  rw [hk] at hroot2
  cases hroot2
  exact ((hmem2 i).mp hin).2.symm

/-- C14 at a concrete input: index 60, the point `(1, 3, 1)`, of the 101 points
in the octant of the three positive axes; its stored point has bucket index 7,
and root 7 holds the index. -/
theorem QuadTree_root_signs_witness :
    ∃ t : QuadTree ℝ,
      QuadTree.ctor (⟨Real.sqrt, Real.arcsin, Real.arccos, Real.cos, Real.pi⟩ : Libm ℝ) 2
        (List.replicate 51 ⟨3, 1, 1⟩ ++ List.replicate 50 ⟨1, 3, 1⟩) = some t ∧
      bucketIdx (getVec t.pts 60) = 7 ∧
      ∃ root : QuadNode ℝ, t.trees[7]? = some root ∧ 60 ∈ root.getall := by
  obtain ⟨t, ht, _⟩ := QuadTree_ctor_two_level_example
  have hlen : Len (⟨Real.sqrt, Real.arcsin, Real.arccos, Real.cos, Real.pi⟩ : Libm ℝ)
      (getVec (List.replicate 51 (⟨3, 1, 1⟩ : Vec3 ℝ) ++ List.replicate 50 ⟨1, 3, 1⟩) 60)
      ≠ 0 := by
    rw [example_points 60 (by norm_num)]
    simp only [show ¬ (60 < 51) by norm_num, if_false, Len, Len2, sqr]
    exact (Real.sqrt_pos.mpr (by norm_num)).ne'
  obtain ⟨root, _, _, _, _, hq, _, _, _, _, _, hroot, hin, _⟩ :=
    QuadTree_root_signs _ 2 _ t ht 60 (by simp) hlen
  have hb : bucketIdx (getVec t.pts 60) = 7 := by
    rw [hq, example_points 60 (by norm_num)]
    simp only [show ¬ (60 < 51) by norm_num, if_false]
    exact bucketIdx_positive _ ⟨rfl, rfl, rfl, rfl, rfl⟩ _ (by norm_num) (by norm_num)
      (by norm_num)
  rw [hb] at hroot
  exact ⟨t, ht, hb, root, hroot, hin⟩

end PoolFacts

end Slam6D

namespace Slam6D

section Contraction

/-- The squared distance of two unit vectors. -/
theorem Len2_vsub_unit (u v : Vec3 ℝ) (hu : Len2 u = 1) (hv : Len2 v = 1) :
    Len2 (vsub u v) = 2 - 2 * dot3 u v := by
  simp only [Len2, sqr] at hu hv
  simp only [Len2, sqr, vsub, dot3]
  linear_combination hu + hv

/-- `tanSq` does not depend on which vertex comes first. -/
theorem tanSq_rot (w1 w2 w3 : Vec3 ℝ) : tanSq w2 w3 w1 = tanSq w1 w2 w3 := by
  have hT : tripleproduct w2 w3 w1 = tripleproduct w1 w2 w3 := by
    simp only [tripleproduct, Cross]
    ring
  have h1 : Len2 (vsub w2 w1) = Len2 (vsub w1 w2) := by
    simp only [Len2, sqr, vsub]
    ring
  have h2 : Len2 (vsub w3 w1) = Len2 (vsub w1 w3) := by
    simp only [Len2, sqr, vsub]
    ring
  unfold tanSq
  rw [hT, h1, h2]
  ring

/-- A good triangle, read from its second vertex, is a good triangle. -/
theorem GoodTri_rot (w1 w2 w3 : Vec3 ℝ) (hg : GoodTri w1 w2 w3) : GoodTri w2 w3 w1 := by
  obtain ⟨h1, h2, h3, d12, d23, d31, hT⟩ := hg
  refine ⟨h2, h3, h1, d23, d31, d12, ?_⟩
  have : tripleproduct w2 w3 w1 = tripleproduct w1 w2 w3 := by
    simp only [tripleproduct, Cross]
    ring
  rw [this]
  exact hT

/-- The inequality behind the contraction at a corner child, in the cosines `P`,
`R` of the half edges at the corner and the scalar product `D` of the opposite
edge. -/
theorem corner_ineq (P R D T : ℝ) (hP : 0 < P) (hP1 : P ≤ 1) (hR : 0 < R) (hR1 : R ≤ 1)
    (hD : D ≤ 1) (hT : 0 < T) :
    (2 - 2 * R) * (2 - 2 * (1 / (2 * P) * (1 / (2 * R)) * (2 * P ^ 2 + 2 * R ^ 2 + D - 1))) *
        (2 - 2 * P) / (4 * ((1 / (2 * P) * (1 / (2 * R)) * T) *
          (1 / (2 * P) * (1 / (2 * R)) * T))) ≤
      (2 - 2 * (2 * R ^ 2 - 1)) * (2 - 2 * D) * (2 - 2 * (2 * P ^ 2 - 1)) / (4 * (T * T)) / 4 := by
  have hT2 : 0 < T ^ 2 := by positivity
  have el : (2 - 2 * R) *
        (2 - 2 * (1 / (2 * P) * (1 / (2 * R)) * (2 * P ^ 2 + 2 * R ^ 2 + D - 1))) *
        (2 - 2 * P) / (4 * ((1 / (2 * P) * (1 / (2 * R)) * T) *
          (1 / (2 * P) * (1 / (2 * R)) * T))) =
      (2 * P * R * (2 - 2 * R) * (2 - 2 * P) * ((1 - D) - 2 * (P - R) ^ 2)) / T ^ 2 := by
    field_simp
    ring
  have er : (2 - 2 * (2 * R ^ 2 - 1)) * (2 - 2 * D) * (2 - 2 * (2 * P ^ 2 - 1)) /
        (4 * (T * T)) / 4 =
      (2 * (1 - R ^ 2) * (1 - P ^ 2) * (1 - D)) / T ^ 2 := by
    field_simp
    ring
  rw [el, er, div_le_div_iff_of_pos_right hT2]
  have a1 : 0 ≤ 1 - P := by linarith
  have a2 : 0 ≤ 1 - R := by linarith
  have a3 : 0 ≤ 1 - D := by linarith
  have k1 : 4 * P * R ≤ (1 + R) * (1 + P) := by
    nlinarith [mul_nonneg a1 a2, mul_nonneg hP.le a2, mul_nonneg hR.le a1]
  have k2 : 4 * P * R * ((1 - D) - 2 * (P - R) ^ 2) ≤ (1 + R) * (1 + P) * (1 - D) := by
    have := mul_le_mul_of_nonneg_right k1 a3
    nlinarith [mul_nonneg (mul_nonneg hP.le hR.le) (sq_nonneg (P - R))]
  have := mul_le_mul_of_nonneg_left k2 (mul_nonneg a1 a2)
  nlinarith

/-- The inequality behind the contraction at the centre child, in the cosines
`P`, `Q`, `R` of the three half edges. -/
theorem center_ineq (P Q R T : ℝ) (hP : 0 < P) (hQ : 0 < Q)
    (hR : 0 < R) (hT : 0 < T)
    (h46 : 0 ≤ 2 - 2 * (1 / (2 * P) * (1 / (2 * R)) * (2 * P ^ 2 + 2 * Q ^ 2 + 2 * R ^ 2 - 2)))
    (h56 : 0 ≤ 2 - 2 * (1 / (2 * Q) * (1 / (2 * R)) * (2 * P ^ 2 + 2 * Q ^ 2 + 2 * R ^ 2 - 2)))
    (h45 : 0 ≤ 2 - 2 * (1 / (2 * P) * (1 / (2 * Q)) * (2 * P ^ 2 + 2 * Q ^ 2 + 2 * R ^ 2 - 2))) :
    (2 - 2 * (1 / (2 * P) * (1 / (2 * R)) * (2 * P ^ 2 + 2 * Q ^ 2 + 2 * R ^ 2 - 2))) *
        (2 - 2 * (1 / (2 * Q) * (1 / (2 * R)) * (2 * P ^ 2 + 2 * Q ^ 2 + 2 * R ^ 2 - 2))) *
        (2 - 2 * (1 / (2 * P) * (1 / (2 * Q)) * (2 * P ^ 2 + 2 * Q ^ 2 + 2 * R ^ 2 - 2))) /
        (4 * ((1 / (2 * P) * (1 / (2 * Q)) * (1 / (2 * R)) * (2 * T)) *
          (1 / (2 * P) * (1 / (2 * Q)) * (1 / (2 * R)) * (2 * T)))) ≤
      (2 - 2 * (2 * R ^ 2 - 1)) * (2 - 2 * (2 * Q ^ 2 - 1)) * (2 - 2 * (2 * P ^ 2 - 1)) /
        (4 * (T * T)) / 4 := by
  have hT2 : 0 < T ^ 2 := by positivity
  have e46 : 2 - 2 * (1 / (2 * P) * (1 / (2 * R)) * (2 * P ^ 2 + 2 * Q ^ 2 + 2 * R ^ 2 - 2)) =
      (1 - Q ^ 2 - (P - R) ^ 2) / (P * R) := by
    field_simp
    ring
  have e56 : 2 - 2 * (1 / (2 * Q) * (1 / (2 * R)) * (2 * P ^ 2 + 2 * Q ^ 2 + 2 * R ^ 2 - 2)) =
      (1 - P ^ 2 - (Q - R) ^ 2) / (Q * R) := by
    field_simp
    ring
  have e45 : 2 - 2 * (1 / (2 * P) * (1 / (2 * Q)) * (2 * P ^ 2 + 2 * Q ^ 2 + 2 * R ^ 2 - 2)) =
      (1 - R ^ 2 - (P - Q) ^ 2) / (P * Q) := by
    field_simp
    ring
  rw [e46] at h46 ⊢
  rw [e56] at h56 ⊢
  rw [e45] at h45 ⊢
  have hPR : 0 < P * R := mul_pos hP hR
  have hQR : 0 < Q * R := mul_pos hQ hR
  have hPQ : 0 < P * Q := mul_pos hP hQ
  have a : 0 ≤ 1 - Q ^ 2 - (P - R) ^ 2 := by
    have := mul_nonneg h46 hPR.le
    rwa [div_mul_cancel₀ _ hPR.ne'] at this
  have b : 0 ≤ 1 - P ^ 2 - (Q - R) ^ 2 := by
    have := mul_nonneg h56 hQR.le
    rwa [div_mul_cancel₀ _ hQR.ne'] at this
  have c : 0 ≤ 1 - R ^ 2 - (P - Q) ^ 2 := by
    have := mul_nonneg h45 hPQ.le
    rwa [div_mul_cancel₀ _ hPQ.ne'] at this
  have el : (1 - Q ^ 2 - (P - R) ^ 2) / (P * R) * ((1 - P ^ 2 - (Q - R) ^ 2) / (Q * R)) *
        ((1 - R ^ 2 - (P - Q) ^ 2) / (P * Q)) /
        (4 * ((1 / (2 * P) * (1 / (2 * Q)) * (1 / (2 * R)) * (2 * T)) *
          (1 / (2 * P) * (1 / (2 * Q)) * (1 / (2 * R)) * (2 * T)))) =
      (4 * ((1 - Q ^ 2 - (P - R) ^ 2) * (1 - P ^ 2 - (Q - R) ^ 2) *
        (1 - R ^ 2 - (P - Q) ^ 2))) / T ^ 2 := by
    field_simp
    ring
  have er : (2 - 2 * (2 * R ^ 2 - 1)) * (2 - 2 * (2 * Q ^ 2 - 1)) * (2 - 2 * (2 * P ^ 2 - 1)) /
        (4 * (T * T)) / 4 =
      (4 * ((1 - Q ^ 2) * (1 - P ^ 2) * (1 - R ^ 2))) / T ^ 2 := by
    field_simp
    ring
  rw [el, er, div_le_div_iff_of_pos_right hT2]
  have a' : 1 - Q ^ 2 - (P - R) ^ 2 ≤ 1 - Q ^ 2 := sub_le_self _ (sq_nonneg _)
  have b' : 1 - P ^ 2 - (Q - R) ^ 2 ≤ 1 - P ^ 2 := sub_le_self _ (sq_nonneg _)
  have c' : 1 - R ^ 2 - (P - Q) ^ 2 ≤ 1 - R ^ 2 := sub_le_self _ (sq_nonneg _)
  have m1 := mul_le_mul a' b' b (le_trans a a')
  have m2 := mul_le_mul m1 c' c (mul_nonneg (le_trans a a') (le_trans b b'))
  linarith

end Contraction

section Contraction2

/-- The cosine `P` of the half edge `(wa, wb)`: with `m = c (wa + wb)` a unit
vector, `c = 1 / (2 P)` and `wa . wb = 2 P² - 1`. -/
theorem half_edge (wa wb m : Vec3 ℝ) (c : ℝ) (ha : Len2 wa = 1) (hb : Len2 wb = 1)
    (hab : 0 ≤ dot3 wa wb) (hc : 0 < c) (hm : m = vscale c wa wb) (um : Len2 m = 1) :
    0 < dot3 wa m ∧ dot3 wa m ≤ 1 ∧ c = 1 / (2 * dot3 wa m) ∧
      dot3 wa wb = 2 * dot3 wa m ^ 2 - 1 ∧ dot3 wb m = dot3 wa m := by
  have e1 : dot3 wa m = c * (1 + dot3 wa wb) := by
    rw [hm]
    simp only [Len2, sqr] at ha
    simp only [vscale, dot3]
    linear_combination c * ha
  have e2 : dot3 wb m = c * (1 + dot3 wa wb) := by
    rw [hm]
    simp only [Len2, sqr] at hb
    simp only [vscale, dot3]
    linear_combination c * hb
  have e3 : c ^ 2 * (2 + 2 * dot3 wa wb) = 1 := by
    rw [← um, hm]
    simp only [Len2, sqr] at ha hb
    simp only [vscale, dot3, Len2, sqr]
    linear_combination (-(c ^ 2)) * ha - c ^ 2 * hb
  have hP : 0 < dot3 wa m := by
    rw [e1]
    positivity
  have F1 : 2 * c * dot3 wa m = 1 := by
    rw [e1]
    linear_combination e3
  refine ⟨hP, dot3_le_one wa m ha um, ?_, ?_, ?_⟩
  · field_simp
    linarith
  · linear_combination (-(1 + dot3 wa wb)) * F1 + 2 * dot3 wa m * e1.symm
  · rw [e2, e1]

/-- The scalar product of two edge midpoints. -/
theorem dot3_vscale (u v w x : Vec3 ℝ) (c d : ℝ) :
    dot3 (vscale c u v) (vscale d w x) =
      c * d * (dot3 u w + dot3 u x + dot3 v w + dot3 v x) := by
  simp only [vscale, dot3]
  ring

/-- The corner child `(w1, w4, w6)` of a good triangle has at most a quarter of
the `tanSq` of the triangle. -/
theorem tanSq_corner (w1 w2 w3 w4 w6 : Vec3 ℝ) (c4 c6 : ℝ) (hg : GoodTri w1 w2 w3)
    (hc4 : 0 < c4) (hc6 : 0 < c6) (h4 : w4 = vscale c4 w1 w2) (h6 : w6 = vscale c6 w3 w1)
    (u4 : Len2 w4 = 1) (u6 : Len2 w6 = 1) :
    tanSq w1 w4 w6 ≤ tanSq w1 w2 w3 / 4 := by
  obtain ⟨h1, h2, h3, d12, d23, d31, hT⟩ := hg
  obtain ⟨hP, hP1, hc4e, hd12, _⟩ := half_edge w1 w2 w4 c4 h1 h2 d12 hc4 h4 u4
  obtain ⟨hR0, hR01, hc6e, hd31, hR2⟩ := half_edge w3 w1 w6 c6 h3 h1 d31 hc6 h6 u6
  rw [← hR2] at hR0 hR01 hc6e hd31
  have hD := dot3_le_one w2 w3 h2 h3
  obtain ⟨P, hPdef⟩ : ∃ P, P = dot3 w1 w4 := ⟨_, rfl⟩
  obtain ⟨R, hRdef⟩ : ∃ R, R = dot3 w1 w6 := ⟨_, rfl⟩
  obtain ⟨D, hDdef⟩ : ∃ D, D = dot3 w2 w3 := ⟨_, rfl⟩
  obtain ⟨T, hTdef⟩ : ∃ T, T = tripleproduct w1 w2 w3 := ⟨_, rfl⟩
  rw [← hPdef] at hP hP1 hc4e hd12
  rw [← hRdef] at hR0 hR01 hc6e hd31
  rw [← hDdef] at hD
  rw [← hTdef] at hT
  have L16 : Len2 (vsub w1 w6) = 2 - 2 * R := by
    rw [Len2_vsub_unit w1 w6 h1 u6, hRdef]
  have L14 : Len2 (vsub w1 w4) = 2 - 2 * P := by
    rw [Len2_vsub_unit w1 w4 h1 u4, hPdef]
  have d13 : dot3 w1 w3 = 2 * R ^ 2 - 1 := by
    rw [dot3_comm, hd31]
  have L46 : Len2 (vsub w4 w6) =
      2 - 2 * (1 / (2 * P) * (1 / (2 * R)) * (2 * P ^ 2 + 2 * R ^ 2 + D - 1)) := by
    rw [Len2_vsub_unit w4 w6 u4 u6, h4, h6, dot3_vscale, ← hc4e, ← hc6e]
    have s1 : dot3 w1 w1 = 1 := by
      simp only [Len2, sqr] at h1
      simp only [dot3]
      exact h1
    have d21 : dot3 w2 w1 = 2 * P ^ 2 - 1 := by
      rw [dot3_comm, hd12]
    linear_combination (-2 * c4 * c6) * (s1 + d13 + d21 + hDdef.symm)
  have T1 : tripleproduct w1 w4 w6 = 1 / (2 * P) * (1 / (2 * R)) * T := by
    rw [← hc4e, ← hc6e, hTdef, h4, h6]
    simp only [vscale, tripleproduct, Cross]
    ring
  have La : Len2 (vsub w1 w3) = 2 - 2 * (2 * R ^ 2 - 1) := by
    rw [Len2_vsub_unit w1 w3 h1 h3, d13]
  have Lb : Len2 (vsub w2 w3) = 2 - 2 * D := by
    rw [Len2_vsub_unit w2 w3 h2 h3, hDdef]
  have Lc : Len2 (vsub w1 w2) = 2 - 2 * (2 * P ^ 2 - 1) := by
    rw [Len2_vsub_unit w1 w2 h1 h2, hd12]
  unfold tanSq
  rw [L16, L46, L14, T1, La, Lb, Lc, ← hTdef]
  exact corner_ineq P R D T hP hP1 hR0 hR01 hD hT

/-- The centre child `(w4, w5, w6)` of a good triangle has at most a quarter of
the `tanSq` of the triangle. -/
theorem tanSq_center (w1 w2 w3 w4 w5 w6 : Vec3 ℝ) (c4 c5 c6 : ℝ) (hg : GoodTri w1 w2 w3)
    (hc4 : 0 < c4) (hc5 : 0 < c5) (hc6 : 0 < c6)
    (h4 : w4 = vscale c4 w1 w2) (h5 : w5 = vscale c5 w2 w3) (h6 : w6 = vscale c6 w3 w1)
    (u4 : Len2 w4 = 1) (u5 : Len2 w5 = 1) (u6 : Len2 w6 = 1) :
    tanSq w4 w5 w6 ≤ tanSq w1 w2 w3 / 4 := by
  obtain ⟨h1, h2, h3, d12, d23, d31, hT⟩ := hg
  obtain ⟨hP, _, hc4e, hd12, _⟩ := half_edge w1 w2 w4 c4 h1 h2 d12 hc4 h4 u4
  obtain ⟨hQ, _, hc5e, hd23, _⟩ := half_edge w2 w3 w5 c5 h2 h3 d23 hc5 h5 u5
  obtain ⟨hR, _, hc6e, hd31, _⟩ := half_edge w3 w1 w6 c6 h3 h1 d31 hc6 h6 u6
  obtain ⟨P, hPdef⟩ : ∃ P, P = dot3 w1 w4 := ⟨_, rfl⟩
  obtain ⟨Q, hQdef⟩ : ∃ Q, Q = dot3 w2 w5 := ⟨_, rfl⟩
  obtain ⟨R, hRdef⟩ : ∃ R, R = dot3 w3 w6 := ⟨_, rfl⟩
  obtain ⟨T, hTdef⟩ : ∃ T, T = tripleproduct w1 w2 w3 := ⟨_, rfl⟩
  rw [← hPdef] at hP hc4e hd12
  rw [← hQdef] at hQ hc5e hd23
  rw [← hRdef] at hR hc6e hd31
  rw [← hTdef] at hT
  have s1 : dot3 w1 w1 = 1 := by
    simp only [Len2, sqr] at h1
    simp only [dot3]
    exact h1
  have s2 : dot3 w2 w2 = 1 := by
    simp only [Len2, sqr] at h2
    simp only [dot3]
    exact h2
  have s3 : dot3 w3 w3 = 1 := by
    simp only [Len2, sqr] at h3
    simp only [dot3]
    exact h3
  have d13 : dot3 w1 w3 = 2 * R ^ 2 - 1 := by
    rw [dot3_comm, hd31]
  have d21 : dot3 w2 w1 = 2 * P ^ 2 - 1 := by
    rw [dot3_comm, hd12]
  have L46 : Len2 (vsub w4 w6) =
      2 - 2 * (1 / (2 * P) * (1 / (2 * R)) * (2 * P ^ 2 + 2 * Q ^ 2 + 2 * R ^ 2 - 2)) := by
    rw [Len2_vsub_unit w4 w6 u4 u6, h4, h6, dot3_vscale, ← hc4e, ← hc6e]
    linear_combination (-2 * c4 * c6) * (s1 + d13 + d21 + hd23)
  have L56 : Len2 (vsub w5 w6) =
      2 - 2 * (1 / (2 * Q) * (1 / (2 * R)) * (2 * P ^ 2 + 2 * Q ^ 2 + 2 * R ^ 2 - 2)) := by
    rw [Len2_vsub_unit w5 w6 u5 u6, h5, h6, dot3_vscale, ← hc5e, ← hc6e]
    linear_combination (-2 * c5 * c6) * (s3 + d21 + hd31 + hd23)
  have L45 : Len2 (vsub w4 w5) =
      2 - 2 * (1 / (2 * P) * (1 / (2 * Q)) * (2 * P ^ 2 + 2 * Q ^ 2 + 2 * R ^ 2 - 2)) := by
    rw [Len2_vsub_unit w4 w5 u4 u5, h4, h5, dot3_vscale, ← hc4e, ← hc5e]
    linear_combination (-2 * c4 * c5) * (s2 + d13 + hd12 + hd23)
  have T4 : tripleproduct w4 w5 w6 =
      1 / (2 * P) * (1 / (2 * Q)) * (1 / (2 * R)) * (2 * T) := by
    rw [← hc4e, ← hc5e, ← hc6e, hTdef, h4, h5, h6]
    simp only [vscale, tripleproduct, Cross]
    ring
  have La : Len2 (vsub w1 w3) = 2 - 2 * (2 * R ^ 2 - 1) := by
    rw [Len2_vsub_unit w1 w3 h1 h3, d13]
  have Lb : Len2 (vsub w2 w3) = 2 - 2 * (2 * Q ^ 2 - 1) := by
    rw [Len2_vsub_unit w2 w3 h2 h3, hd23]
  have Lc : Len2 (vsub w1 w2) = 2 - 2 * (2 * P ^ 2 - 1) := by
    rw [Len2_vsub_unit w1 w2 h1 h2, hd12]
  have n46 := Len2_nonneg (vsub w4 w6)
  have n56 := Len2_nonneg (vsub w5 w6)
  have n45 := Len2_nonneg (vsub w4 w5)
  rw [L46] at n46
  rw [L56] at n56
  rw [L45] at n45
  unfold tanSq
  rw [L46, L56, L45, T4, La, Lb, Lc, ← hTdef]
  exact center_ineq P Q R T hP hQ hR hT n46 n56 n45

/-- Each of the four children of a good triangle has at most a quarter of the
`tanSq` of the triangle. -/
theorem tanSq_children (w1 w2 w3 w4 w5 w6 : Vec3 ℝ) (c4 c5 c6 : ℝ) (hg : GoodTri w1 w2 w3)
    (hc4 : 0 < c4) (hc5 : 0 < c5) (hc6 : 0 < c6)
    (h4 : w4 = vscale c4 w1 w2) (h5 : w5 = vscale c5 w2 w3) (h6 : w6 = vscale c6 w3 w1)
    (u4 : Len2 w4 = 1) (u5 : Len2 w5 = 1) (u6 : Len2 w6 = 1) :
    tanSq w1 w4 w6 ≤ tanSq w1 w2 w3 / 4 ∧ tanSq w2 w5 w4 ≤ tanSq w1 w2 w3 / 4 ∧
      tanSq w3 w6 w5 ≤ tanSq w1 w2 w3 / 4 ∧ tanSq w4 w5 w6 ≤ tanSq w1 w2 w3 / 4 := by
  have hg2 := GoodTri_rot w1 w2 w3 hg
  have hg3 := GoodTri_rot w2 w3 w1 hg2
  refine ⟨tanSq_corner w1 w2 w3 w4 w6 c4 c6 hg hc4 hc6 h4 h6 u4 u6, ?_, ?_,
    tanSq_center w1 w2 w3 w4 w5 w6 c4 c5 c6 hg hc4 hc5 hc6 h4 h5 h6 u4 u5 u6⟩
  · rw [← tanSq_rot w1 w2 w3]
    exact tanSq_corner w2 w3 w1 w5 w4 c5 c4 hg2 hc5 hc4 h5 h4 u5 u4
  · rw [← tanSq_rot w1 w2 w3, ← tanSq_rot w2 w3 w1]
    exact tanSq_corner w3 w1 w2 w6 w5 c6 c5 hg3 hc6 hc5 h6 h5 u6 u5

/-- In exact arithmetic, a good triangle whose `tanSq` is at most
`1 / (4 * 10^20)` has a circumcircle half angle below `10^-10`. -/
theorem ccr_small (M : Libm ℝ) (hM : M.Exact) (w1 w2 w3 : Vec3 ℝ) (hg : GoodTri w1 w2 w3)
    (ht : tanSq w1 w2 w3 ≤ 1 / (4 * 10 ^ 20)) :
    (circumcircle M w1 w2 w3).2 < 1 / 10 ^ 10 := by
  obtain ⟨h1, h2, h3, _, _, _, hT⟩ := hg
  obtain ⟨hN, _, _, _, _, _⟩ := circumcenter_facts w1 w2 w3 h1 h2 h3 hT
  rw [circumcircle_snd M hM]
  have hc : Len2 (vsub (vsub w1 w3) (vsub w2 w3)) = Len2 (vsub w1 w2) := by
    simp only [Len2, sqr, vsub]
    ring
  rw [hc]
  obtain ⟨A, hA⟩ : ∃ A, A = Len2 (vsub w1 w3) := ⟨_, rfl⟩
  obtain ⟨B, hB⟩ : ∃ B, B = Len2 (vsub w2 w3) := ⟨_, rfl⟩
  obtain ⟨C, hC⟩ : ∃ C, C = Len2 (vsub w1 w2) := ⟨_, rfl⟩
  obtain ⟨N, hNdef⟩ : ∃ N, N = Len2 (Cross (vsub w1 w3) (vsub w2 w3)) := ⟨_, rfl⟩
  obtain ⟨T, hTdef⟩ : ∃ T, T = tripleproduct w1 w2 w3 := ⟨_, rfl⟩
  have hA0 : 0 ≤ A := hA ▸ Len2_nonneg _
  have hB0 : 0 ≤ B := hB ▸ Len2_nonneg _
  have hC0 : 0 ≤ C := hC ▸ Len2_nonneg _
  have hTN : T * T ≤ N := by
    have hl := Len2_Cross (Cross (vsub w1 w3) (vsub w2 w3)) w3
    have hd : dot3 (Cross (vsub w1 w3) (vsub w2 w3)) w3 = T := by
      rw [hTdef, ← tripleproduct_edges]
      rfl
    rw [hd, h3, ← hNdef] at hl
    have := Len2_nonneg (Cross (Cross (vsub w1 w3) (vsub w2 w3)) w3)
    linarith
  unfold tanSq at ht
  rw [← hA, ← hB, ← hC, ← hTdef] at ht
  rw [← hA, ← hB, ← hC, ← hNdef]
  rw [← hNdef] at hN
  rw [← hTdef] at hT
  have hTT : 0 < T * T := mul_pos hT hT
  -- the sine of the half angle
  have hr0 : 0 ≤ √A * √B * √C / (2 * √N) := by positivity
  have hr2 : (√A * √B * √C / (2 * √N)) ^ 2 = A * B * C / (4 * N) := by
    rw [div_pow, mul_pow, mul_pow, mul_pow, Real.sq_sqrt hA0, Real.sq_sqrt hB0,
      Real.sq_sqrt hC0, Real.sq_sqrt hN.le]
    norm_num
  have hle : A * B * C / (4 * N) ≤ A * B * C / (4 * (T * T)) := by
    apply div_le_div_of_nonneg_left (by positivity) (by positivity)
    linarith
  have hr : √A * √B * √C / (2 * √N) ≤ 1 / (2 * 10 ^ 10) := by
    have h2' : (√A * √B * √C / (2 * √N)) ^ 2 ≤ (1 / (2 * 10 ^ 10)) ^ 2 := by
      rw [hr2]
      refine le_trans hle (le_trans ht ?_)
      norm_num
    exact (abs_le_of_sq_le_sq' h2' (by positivity)).2
  have hy : (1:ℝ) / 10 ^ 10 ∈ Set.Ioc (-(Real.pi / 2)) (Real.pi / 2) := by
    constructor
    · have := Real.pi_pos
      have : (0:ℝ) < 1 / 10 ^ 10 := by positivity
      linarith
    · have := Real.pi_gt_three
      have : (1:ℝ) / 10 ^ 10 ≤ 1 := by norm_num
      linarith
  rw [Real.arcsin_lt_iff_lt_sin' hy]
  have hs := Real.sin_gt_sub_cube (x := 1 / 10 ^ 10) (by positivity) (by norm_num)
  have : (1:ℝ) / (2 * 10 ^ 10) ≤ 1 / 10 ^ 10 - (1 / 10 ^ 10) ^ 3 / 4 := by norm_num
  linarith

/-- The eight octant triangles on the seed vertices have `tanSq` equal to 2. -/
theorem tanSq_seed : ∀ mv ∈ mainvertices,
    tanSq (getVec (seedVertices : List (Vec3 ℝ)) mv.1) (getVec seedVertices mv.2.1)
      (getVec seedVertices mv.2.2) = 2 := by
  intro mv hmv
  rw [mainvertices_eq] at hmv
  simp only [List.mem_cons, List.mem_singleton, List.not_mem_nil, or_false] at hmv
  rcases hmv with rfl | rfl | rfl | rfl | rfl | rfl | rfl | rfl <;>
    norm_num [tanSq, getVec, seedVertices, Len2, sqr, vsub, tripleproduct, Cross]

end Contraction2

section Step

/-- In exact arithmetic the normalized midpoint of two vertices whose sum is not
the zero vector is a unit vector. -/
theorem midpoint_unit (M : Libm ℝ) (hM : M.Exact) (wa wb : Vec3 ℝ)
    (h : ¬ (wa.x + wb.x = 0 ∧ wa.y + wb.y = 0 ∧ wa.z + wb.z = 0)) :
    Len2 (Normalize3 M (halfSum wa wb)) = 1 := by
  apply Len2_Normalize3 M hM
  refine lt_of_le_of_ne (Len2_nonneg _) (fun h0 => h ?_)
  obtain ⟨hx, hy, hz⟩ := eq_zero_of_Len2 _ h0.symm
  simp only [halfSum] at hx hy hz
  refine ⟨by linarith, by linarith, by linarith⟩

/-- In exact arithmetic a call of `middle` on two vertices whose sum is not the
zero vector keeps a pool of unit vectors a pool of unit vectors. -/
theorem middle_unit (M : Libm ℝ) (hM : M.Exact) (a b : Nat) (vs : List (Vec3 ℝ))
    (mm : MiddleMap)
    (h : ¬ ((getVec vs a).x + (getVec vs b).x = 0 ∧ (getVec vs a).y + (getVec vs b).y = 0 ∧
      (getVec vs a).z + (getVec vs b).z = 0))
    (hall : ∀ v ∈ vs, Len2 v = 1) :
    ∀ v ∈ (middle M a b vs mm).2.1, Len2 v = 1 := by
  rcases middle_cases M a b vs mm with ⟨_, e⟩ | ⟨_, _, e⟩
  · rw [e]
    exact hall
  · rw [e]
    intro v hv
    rcases List.mem_append.mp hv with hv | hv
    · exact hall v hv
    · rw [List.mem_singleton.mp hv]
      exact midpoint_unit M hM _ _ h

/-- Two unit vectors with non-negative scalar product do not sum to zero. -/
theorem sum_ne_zero_of_dot (u v : Vec3 ℝ) (hu : Len2 u = 1) (huv : 0 ≤ dot3 u v) :
    ¬ (u.x + v.x = 0 ∧ u.y + v.y = 0 ∧ u.z + v.z = 0) := by
  rintro ⟨hx, hy, hz⟩
  simp only [Len2, sqr] at hu
  simp only [dot3] at huv
  have e1 : v.x = -u.x := by linarith
  have e2 : v.y = -u.y := by linarith
  have e3 : v.z = -u.z := by linarith
  rw [e1, e2, e3] at huv
  nlinarith

/-- One subdivision step in exact arithmetic, on a sound pool and a good
triangle: the three calls of `middle` extend the pool soundly, the four child
triangles are good triangles with at most a quarter of the `tanSq` of the
triangle, and a pool of unit vectors stays a pool of unit vectors. -/
theorem subdivision_step (M : Libm ℝ) (hM : M.Exact) (v1 v2 v3 : Nat) (vs : List (Vec3 ℝ))
    (mm : MiddleMap) (hok : MapOK M vs mm)
    (hv1 : v1 < vs.length) (hv2 : v2 < vs.length) (hv3 : v3 < vs.length)
    (hg : GoodTri (getVec vs v1) (getVec vs v2) (getVec vs v3))
    (m4 m5 m6 : Nat × List (Vec3 ℝ) × MiddleMap)
    (hm4 : m4 = middle M v1 v2 vs mm) (hm5 : m5 = middle M v2 v3 m4.2.1 m4.2.2)
    (hm6 : m6 = middle M v3 v1 m5.2.1 m5.2.2) :
    vs <+: m6.2.1 ∧ MapOK M m6.2.1 m6.2.2 ∧
    m4.1 < m6.2.1.length ∧ m5.1 < m6.2.1.length ∧ m6.1 < m6.2.1.length ∧
    GoodTri (getVec m6.2.1 v1) (getVec m6.2.1 m4.1) (getVec m6.2.1 m6.1) ∧
    GoodTri (getVec m6.2.1 v2) (getVec m6.2.1 m5.1) (getVec m6.2.1 m4.1) ∧
    GoodTri (getVec m6.2.1 v3) (getVec m6.2.1 m6.1) (getVec m6.2.1 m5.1) ∧
    GoodTri (getVec m6.2.1 m4.1) (getVec m6.2.1 m5.1) (getVec m6.2.1 m6.1) ∧
    tanSq (getVec m6.2.1 v1) (getVec m6.2.1 m4.1) (getVec m6.2.1 m6.1) ≤
      tanSq (getVec vs v1) (getVec vs v2) (getVec vs v3) / 4 ∧
    tanSq (getVec m6.2.1 v2) (getVec m6.2.1 m5.1) (getVec m6.2.1 m4.1) ≤
      tanSq (getVec vs v1) (getVec vs v2) (getVec vs v3) / 4 ∧
    tanSq (getVec m6.2.1 v3) (getVec m6.2.1 m6.1) (getVec m6.2.1 m5.1) ≤
      tanSq (getVec vs v1) (getVec vs v2) (getVec vs v3) / 4 ∧
    tanSq (getVec m6.2.1 m4.1) (getVec m6.2.1 m5.1) (getVec m6.2.1 m6.1) ≤
      tanSq (getVec vs v1) (getVec vs v2) (getVec vs v3) / 4 ∧
    ((∀ v ∈ vs, Len2 v = 1) → ∀ v ∈ m6.2.1, Len2 v = 1) := by
  obtain ⟨p4, ok4, l4, g4⟩ := middle_extends M v1 v2 vs mm hok hv1 hv2
  have un4 := middle_unit M hM v1 v2 vs mm
  rw [← hm4] at p4 ok4 l4 g4 un4
  have len4 := p4.length_le
  obtain ⟨p5, ok5, l5, g5⟩ := middle_extends M v2 v3 m4.2.1 m4.2.2 ok4 (by omega) (by omega)
  have un5 := middle_unit M hM v2 v3 m4.2.1 m4.2.2
  rw [← hm5] at p5 ok5 l5 g5 un5
  have len5 := p5.length_le
  obtain ⟨p6, ok6, l6, g6⟩ := middle_extends M v3 v1 m5.2.1 m5.2.2 ok5 (by omega) (by omega)
  have un6 := middle_unit M hM v3 v1 m5.2.1 m5.2.2
  rw [← hm6] at p6 ok6 l6 g6 un6
  have len6 := p6.length_le
  rw [getVec_of_extends _ _ p4 v2 hv2, getVec_of_extends _ _ p4 v3 hv3] at g5 un5
  rw [getVec_of_extends _ _ p5 v3 (by omega), getVec_of_extends _ _ p4 v3 hv3,
    getVec_of_extends _ _ p5 v1 (by omega), getVec_of_extends _ _ p4 v1 hv1] at g6 un6
  have p06 : vs <+: m6.2.1 := (p4.trans p5).trans p6
  have q1 : getVec m6.2.1 v1 = getVec vs v1 := getVec_of_extends _ _ p06 v1 hv1
  have q2 : getVec m6.2.1 v2 = getVec vs v2 := getVec_of_extends _ _ p06 v2 hv2
  have q3 : getVec m6.2.1 v3 = getVec vs v3 := getVec_of_extends _ _ p06 v3 hv3
  have q4 : getVec m6.2.1 m4.1 =
      Normalize3 M (halfSum (getVec vs v1) (getVec vs v2)) := by
    rw [getVec_of_extends _ _ (p5.trans p6) m4.1 l4, g4]
  have q5 : getVec m6.2.1 m5.1 =
      Normalize3 M (halfSum (getVec vs v2) (getVec vs v3)) := by
    rw [getVec_of_extends _ _ p6 m5.1 l5, g5]
  have q6 : getVec m6.2.1 m6.1 =
      Normalize3 M (halfSum (getVec vs v3) (getVec vs v1)) := g6
  obtain ⟨u1, u2, u3, d12, d23, d31, hT⟩ := hg
  obtain ⟨c4, hc4, f4, n4⟩ := midpoint_form M hM _ _ u1 u2 d12
  obtain ⟨c5, hc5, f5, n5⟩ := midpoint_form M hM _ _ u2 u3 d23
  obtain ⟨c6, hc6, f6, n6⟩ := midpoint_form M hM _ _ u3 u1 d31
  rw [← q4] at f4 n4
  rw [← q5] at f5 n5
  rw [← q6] at f6 n6
  obtain ⟨G1, G2, G3, G4⟩ := GoodTri_children _ _ _ _ _ _ c4 c5 c6
    ⟨u1, u2, u3, d12, d23, d31, hT⟩ hc4 hc5 hc6 f4 f5 f6 n4 n5 n6
  obtain ⟨t1, t2, t3, t4⟩ := tanSq_children _ _ _ _ _ _ c4 c5 c6
    ⟨u1, u2, u3, d12, d23, d31, hT⟩ hc4 hc5 hc6 f4 f5 f6 n4 n5 n6
  rw [q1, q2, q3]
  refine ⟨p06, ok6, by omega, by omega, l6, G1, G2, G3, G4, t1, t2, t3, t4, ?_⟩
  intro hall
  exact un6 (sum_ne_zero_of_dot _ _ u3 d31)
    (un5 (sum_ne_zero_of_dot _ _ u2 d23) (un4 (sum_ne_zero_of_dot _ _ u1 d12) hall))

/-- In exact arithmetic, on a sound pool of unit vectors and a good triangle, the
constructor returns a pool of unit vectors. -/
theorem QuadNode_ctor_pool_unit (M : Libm ℝ) (hM : M.Exact) (pts : List (Vec3 ℝ)) :
    ∀ (fuel v1 v2 v3 : Nat) (indices : List Nat) (vertices : List (Vec3 ℝ))
      (middlemap : MiddleMap) (r : QuadNode ℝ × List (Vec3 ℝ) × MiddleMap),
      MapOK M vertices middlemap →
      v1 < vertices.length → v2 < vertices.length → v3 < vertices.length →
      GoodTri (getVec vertices v1) (getVec vertices v2) (getVec vertices v3) →
      (∀ v ∈ vertices, Len2 v = 1) →
      QuadNode.ctor M fuel v1 v2 v3 indices pts vertices middlemap = some r →
      ∀ v ∈ r.2.1, Len2 v = 1 := by
  intro fuel
  induction fuel with
  | zero =>
    intro v1 v2 v3 indices vertices middlemap r _ _ _ _ _ _ h
    simp [QuadNode.ctor] at h
  | succ fuel ih =>
    intro v1 v2 v3 indices vertices middlemap r hok hv1 hv2 hv3 hg hall h
    rcases QuadNode_ctor_succ_inv M pts fuel v1 v2 v3 indices vertices middlemap r h with
      ⟨_, hr⟩ | ⟨_, m4, m5, m6, t1, t2, t3, t4, s1, s2, s3, s4, hm4, hm5, hm6,
        e1, e2, e3, e4, hr⟩
    · rw [hr]
      exact hall
    · obtain ⟨p06, ok6, L4, L5, L6, G1, G2, G3, G4, _, _, _, _, hun⟩ :=
        subdivision_step M hM v1 v2 v3 vertices middlemap hok hv1 hv2 hv3 hg m4 m5 m6
          hm4 hm5 hm6
      have len06 := p06.length_le
      have L1 : v1 < m6.2.1.length := by omega
      have L2 : v2 < m6.2.1.length := by omega
      have L3 : v3 < m6.2.1.length := by omega
      have un6 := hun hall
      -- first child
      obtain ⟨ok1, pr1⟩ := QuadNode_ctor_pool M pts fuel v1 m4.1 m6.1 _ m6.2.1 m6.2.2 (t1, s1)
        ok6 L1 L4 L6 e1
      have un1 := ih v1 m4.1 m6.1 _ m6.2.1 m6.2.2 (t1, s1) ok6 L1 L4 L6 G1 un6 e1
      have len1 := pr1.length_le
      simp only at ok1 pr1 len1 un1
      -- second child
      obtain ⟨ok2, pr2⟩ := QuadNode_ctor_pool M pts fuel v2 m5.1 m4.1 _ s1.1 s1.2 (t2, s2)
        ok1 (by omega) (by omega) (by omega) e2
      have un2 := ih v2 m5.1 m4.1 _ s1.1 s1.2 (t2, s2) ok1 (by omega) (by omega) (by omega)
        (by
          rw [getVec_of_extends _ _ pr1 v2 L2, getVec_of_extends _ _ pr1 m5.1 L5,
            getVec_of_extends _ _ pr1 m4.1 L4]
          exact G2) un1 e2
      have len2 := pr2.length_le
      simp only at ok2 pr2 len2 un2
      have pr12 := pr1.trans pr2
      -- third child
      obtain ⟨ok3, pr3⟩ := QuadNode_ctor_pool M pts fuel v3 m6.1 m5.1 _ s2.1 s2.2 (t3, s3)
        ok2 (by omega) (by omega) (by omega) e3
      have un3 := ih v3 m6.1 m5.1 _ s2.1 s2.2 (t3, s3) ok2 (by omega) (by omega) (by omega)
        (by
          rw [getVec_of_extends _ _ pr12 v3 L3, getVec_of_extends _ _ pr12 m6.1 L6,
            getVec_of_extends _ _ pr12 m5.1 L5]
          exact G3) un2 e3
      have len3 := pr3.length_le
      simp only at ok3 pr3 len3 un3
      have pr123 := pr12.trans pr3
      -- fourth child
      have un4 := ih m4.1 m5.1 m6.1 _ s3.1 s3.2 (t4, s4) ok3 (by omega) (by omega) (by omega)
        (by
          rw [getVec_of_extends _ _ pr123 m4.1 L4, getVec_of_extends _ _ pr123 m5.1 L5,
            getVec_of_extends _ _ pr123 m6.1 L6]
          exact G4) un3 e4
      simp only at un4
      rw [hr]
      exact un4

/-- The loop over the roots keeps a pool of unit vectors a pool of unit
vectors. -/
theorem buildTrees_pool_unit (M : Libm ℝ) (hM : M.Exact) (fuel : Nat) (pts : List (Vec3 ℝ))
    (base : List (Vec3 ℝ)) :
    ∀ (l : List ((Nat × Nat × Nat) × List Nat)) (vertices : List (Vec3 ℝ))
      (middlemap : MiddleMap) (r : List (QuadNode ℝ) × List (Vec3 ℝ) × MiddleMap),
      base <+: vertices → MapOK M vertices middlemap →
      (∀ x ∈ l, x.1.1 < base.length ∧ x.1.2.1 < base.length ∧ x.1.2.2 < base.length ∧
        GoodTri (getVec base x.1.1) (getVec base x.1.2.1) (getVec base x.1.2.2)) →
      (∀ v ∈ vertices, Len2 v = 1) →
      buildTrees M fuel pts l vertices middlemap = some r →
      ∀ v ∈ r.2.1, Len2 v = 1 := by
  intro l
  induction l with
  | nil =>
    intro vertices middlemap r _ _ _ hall h
    simp only [buildTrees] at h
    cases h
    exact hall
  | cons x rest ih =>
    intro vertices middlemap r hpre hok hl hall h
    obtain ⟨mv, bucket⟩ := x
    simp only [buildTrees] at h
    split at h
    · cases h
    · rename_i t vs mm e1
      split at h
      · cases h
      · rename_i ts vs2 mm2 e2
        cases h
        obtain ⟨b1, b2, b3, hg⟩ := hl (mv, bucket) (List.mem_cons_self _ _)
        simp only at b1 b2 b3 hg
        have hlen := hpre.length_le
        obtain ⟨ok1, pr1⟩ := QuadNode_ctor_pool M pts fuel mv.1 mv.2.1 mv.2.2
          bucket vertices middlemap (t, vs, mm) hok (by omega) (by omega) (by omega) e1
        have un1 := QuadNode_ctor_pool_unit M hM pts fuel mv.1 mv.2.1 mv.2.2
          bucket vertices middlemap (t, vs, mm) hok (by omega) (by omega) (by omega)
          (by
            rw [getVec_of_extends _ _ hpre _ b1, getVec_of_extends _ _ hpre _ b2,
              getVec_of_extends _ _ hpre _ b3]
            exact hg) hall e1
        simp only at ok1 pr1 un1
        exact ih vs mm (ts, vs2, mm2) (hpre.trans pr1) ok1
          (fun y hy => hl y (List.mem_cons_of_mem _ hy)) un1 e2

/-- In exact arithmetic every vertex of the pool of a built tree is a unit
vector. -/
theorem QuadTree_ctor_pool_unit (M : Libm ℝ) (hM : M.Exact) (fuel : Nat) (pts : List (Vec3 ℝ))
    (t : QuadTree ℝ) (h : QuadTree.ctor M fuel pts = some t) :
    ∀ v ∈ t.vertices, Len2 v = 1 := by
  simp only [QuadTree.ctor] at h
  split at h
  · cases h
  · rename_i trees vertices middlemap e
    cases h
    refine buildTrees_pool_unit M hM fuel _ seedVertices _ seedVertices []
      (trees, vertices, middlemap) (List.prefix_refl _) (MapOK_nil M _) ?_ ?_ e
    · intro x hx
      obtain ⟨a1, a2, a3, hg, _⟩ := roots_good _ x hx
      have hlen : (seedVertices : List (Vec3 ℝ)).length = 6 := rfl
      rw [hlen]
      exact ⟨a1, a2, a3, hg⟩
    · intro v hv
      simp only [seedVertices, List.mem_cons, List.mem_singleton, List.not_mem_nil,
        or_false] at hv
      rcases hv with rfl | rfl | rfl | rfl | rfl | rfl <;> norm_num [Len2, sqr]

/-- The pool in exact real arithmetic: the six seed vertices are unit vectors; a
call `middle(a, b)` on a pool of unit vectors, for two vertices that are not
antipodal, leaves the existing entries where they are and returns a pool of unit
vectors, and when the pair is not yet in the map the pool grows by exactly the
normalized midpoint, which has length 1; and every entry of the pool of a built
tree, which starts with the seed vertices, is a unit vector. -/
theorem vertex_pool_unit (M : Libm ℝ) (hM : M.Exact) :
    (∀ v ∈ (seedVertices : List (Vec3 ℝ)), Len2 v = 1) ∧
    (∀ (a b : Nat) (vs : List (Vec3 ℝ)) (mm : MiddleMap),
      (∀ v ∈ vs, Len2 v = 1) →
      ¬ ((getVec vs a).x + (getVec vs b).x = 0 ∧ (getVec vs a).y + (getVec vs b).y = 0 ∧
        (getVec vs a).z + (getVec vs b).z = 0) →
      (∃ ext, (middle M a b vs mm).2.1 = vs ++ ext) ∧
      (∀ v ∈ (middle M a b vs mm).2.1, Len2 v = 1) ∧
      (mm.lookup (a, b) = none →
        (middle M a b vs mm).2.1 =
            vs ++ [Normalize3 M (halfSum (getVec vs a) (getVec vs b))] ∧
          Len2 (Normalize3 M (halfSum (getVec vs a) (getVec vs b))) = 1)) ∧
    (∀ (fuel : Nat) (pts : List (Vec3 ℝ)) (t : QuadTree ℝ),
      QuadTree.ctor M fuel pts = some t →
      (∃ ext, t.vertices = seedVertices ++ ext) ∧ ∀ v ∈ t.vertices, Len2 v = 1) := by
  refine ⟨?_, ?_, ?_⟩
  · intro v hv
    simp only [seedVertices, List.mem_cons, List.mem_singleton, List.not_mem_nil,
      or_false] at hv
    rcases hv with rfl | rfl | rfl | rfl | rfl | rfl <;> norm_num [Len2, sqr]
  · intro a b vs mm hall hab
    refine ⟨?_, middle_unit M hM a b vs mm hab hall, ?_⟩
    · rcases middle_cases M a b vs mm with ⟨_, e⟩ | ⟨_, _, e⟩
      · exact ⟨[], by rw [e, List.append_nil]⟩
      · exact ⟨_, e⟩
    · intro hnone
      rcases middle_cases M a b vs mm with ⟨hne, _⟩ | ⟨_, _, e⟩
      · exact absurd hnone hne
      · exact ⟨e, midpoint_unit M hM _ _ hab⟩
  · intro fuel pts t h
    obtain ⟨_, _, hpre, _⟩ := QuadTree_ctor_roots M fuel pts t h
    obtain ⟨ext, hext⟩ := hpre
    exact ⟨⟨ext, hext.symm⟩, QuadTree_ctor_pool_unit M hM fuel pts t h⟩

/-- The pool for the real math library, as a closed statement: the first vertex
that `middle(0, 2)` appends to the seed vertices has length 1, and the pool of
the tree built from 101 points in one octant holds unit vectors only. -/
theorem vertex_pool_unit_witness :
    Len2 (Normalize3 (⟨Real.sqrt, Real.arcsin, Real.arccos, Real.cos, Real.pi⟩ : Libm ℝ)
        (halfSum (getVec seedVertices 0) (getVec seedVertices 2))) = 1 ∧
      ∃ t : QuadTree ℝ,
        QuadTree.ctor (⟨Real.sqrt, Real.arcsin, Real.arccos, Real.cos, Real.pi⟩ : Libm ℝ) 2
          (List.replicate 51 ⟨3, 1, 1⟩ ++ List.replicate 50 ⟨1, 3, 1⟩) = some t ∧
        ∀ v ∈ t.vertices, Len2 v = 1 := by
  have h := vertex_pool_unit ⟨Real.sqrt, Real.arcsin, Real.arccos, Real.cos, Real.pi⟩
    ⟨rfl, rfl, rfl, rfl, rfl⟩
  obtain ⟨t, ht, _⟩ := QuadTree_ctor_two_level_example
  refine ⟨((h.2.1 0 2 seedVertices [] h.1 ?_).2.2 rfl).2, t, ht, (h.2.2 2 _ t ht).2⟩
  norm_num [getVec, seedVertices]

end Step

section Termination

/-- A constructor call at the leaf cutoff returns a leaf, with any positive
budget. -/
theorem QuadNode_ctor_leaf {K : Type} [LinearOrderedField K] (M : Libm K) (pts : List (Vec3 K))
    (fuel v1 v2 v3 : Nat) (indices : List Nat) (vertices : List (Vec3 K))
    (middlemap : MiddleMap)
    (h : indices.length ≤ 100 ∨
      (circumcircle M (getVec vertices v1) (getVec vertices v2) (getVec vertices v3)).2
        < 1 / 10 ^ 10) :
    QuadNode.ctor M (fuel + 1) v1 v2 v3 indices pts vertices middlemap =
      some (.leaf (circumcircle M (getVec vertices v1) (getVec vertices v2) (getVec vertices v3)).1
        (circumcircle M (getVec vertices v1) (getVec vertices v2) (getVec vertices v3)).2
        (triangleArea M (getVec vertices v1) (getVec vertices v2) (getVec vertices v3))
        indices, vertices, middlemap) := by
  simp only [QuadNode.ctor]
  rw [if_pos h]

/-- In exact arithmetic the constructor returns on every good triangle whose
`tanSq` is at most `4^n / (4 * 10^20)`, with a budget of `n + 1`, whatever the
indices and the points. -/
theorem QuadNode_ctor_terminates (M : Libm ℝ) (hM : M.Exact) (pts : List (Vec3 ℝ)) :
    ∀ (n v1 v2 v3 : Nat) (indices : List Nat) (vertices : List (Vec3 ℝ))
      (middlemap : MiddleMap),
      MapOK M vertices middlemap →
      v1 < vertices.length → v2 < vertices.length → v3 < vertices.length →
      GoodTri (getVec vertices v1) (getVec vertices v2) (getVec vertices v3) →
      tanSq (getVec vertices v1) (getVec vertices v2) (getVec vertices v3) ≤
        4 ^ n / (4 * 10 ^ 20) →
      QuadNode.ctor M (n + 1) v1 v2 v3 indices pts vertices middlemap ≠ none := by
  intro n
  induction n with
  | zero =>
    intro v1 v2 v3 indices vertices middlemap _ _ _ _ hg ht
    have hc := ccr_small M hM _ _ _ hg (by simpa using ht)
    rw [QuadNode_ctor_leaf M pts 0 _ _ _ _ _ _ (Or.inr hc)]
    simp
  | succ n ih =>
    intro v1 v2 v3 indices vertices middlemap hok hv1 hv2 hv3 hg ht
    by_cases hleaf : indices.length ≤ 100 ∨
      (circumcircle M (getVec vertices v1) (getVec vertices v2) (getVec vertices v3)).2
        < 1 / 10 ^ 10
    · rw [QuadNode_ctor_leaf M pts (n + 1) _ _ _ _ _ _ hleaf]
      simp
    · obtain ⟨p06, ok6, L4, L5, L6, G1, G2, G3, G4, t1, t2, t3, t4, _⟩ :=
        subdivision_step M hM v1 v2 v3 vertices middlemap hok hv1 hv2 hv3 hg _ _ _
          rfl rfl rfl
      have hq : tanSq (getVec vertices v1) (getVec vertices v2) (getVec vertices v3) / 4 ≤
          4 ^ n / (4 * 10 ^ 20) := by
        have e : (4:ℝ) ^ (n + 1) / (4 * 10 ^ 20) = 4 * (4 ^ n / (4 * 10 ^ 20)) := by
          rw [pow_succ]
          ring
        rw [e] at ht
        linarith
      have len06 := p06.length_le
      rw [show n + 1 + 1 = (n + 1) + 1 from rfl, QuadNode.ctor]
      simp only [if_neg hleaf]
      split
      · rename_i heq
        exact absurd heq (ih _ _ _ _ _ _ ok6 (by omega) L4 L6 G1 (le_trans t1 hq))
      · rename_i c1 vs1 mm1 heq1
        obtain ⟨ok1, pr1⟩ := QuadNode_ctor_pool M pts _ _ _ _ _ _ _ (c1, vs1, mm1) ok6
          (by omega) L4 L6 heq1
        simp only at ok1 pr1
        have len1 := pr1.length_le
        have x2 := getVec_of_extends _ _ pr1 v2 (by omega)
        have x5 := getVec_of_extends _ _ pr1 _ L5
        have x4 := getVec_of_extends _ _ pr1 _ L4
        split
        · rename_i heq
          refine absurd heq (ih _ _ _ _ _ _ ok1 (by omega) (by omega) (by omega) ?_ ?_)
          · rw [x2, x5, x4]
            exact G2
          · rw [x2, x5, x4]
            exact le_trans t2 hq
        · rename_i c2 vs2 mm2 heq2
          obtain ⟨ok2, pr2⟩ := QuadNode_ctor_pool M pts _ _ _ _ _ _ _ (c2, vs2, mm2) ok1
            (by omega) (by omega) (by omega) heq2
          simp only at ok2 pr2
          have len2 := pr2.length_le
          have pr12 := pr1.trans pr2
          have y3 := getVec_of_extends _ _ pr12 v3 (by omega)
          have y6 := getVec_of_extends _ _ pr12 _ L6
          have y5 := getVec_of_extends _ _ pr12 _ L5
          split
          · rename_i heq
            refine absurd heq (ih _ _ _ _ _ _ ok2 (by omega) (by omega) (by omega) ?_ ?_)
            · rw [y3, y6, y5]
              exact G3
            · rw [y3, y6, y5]
              exact le_trans t3 hq
          · rename_i c3 vs3 mm3 heq3
            obtain ⟨ok3, pr3⟩ := QuadNode_ctor_pool M pts _ _ _ _ _ _ _ (c3, vs3, mm3) ok2
              (by omega) (by omega) (by omega) heq3
            simp only at ok3 pr3
            have len3 := pr3.length_le
            have pr123 := pr12.trans pr3
            have z4 := getVec_of_extends _ _ pr123 _ L4
            have z5 := getVec_of_extends _ _ pr123 _ L5
            have z6 := getVec_of_extends _ _ pr123 _ L6
            split
            · rename_i heq
              refine absurd heq (ih _ _ _ _ _ _ ok3 (by omega) (by omega) (by omega) ?_ ?_)
              · rw [z4, z5, z6]
                exact G4
              · rw [z4, z5, z6]
                exact le_trans t4 hq
            · simp

/-- In exact arithmetic the loop over the roots returns when every triangle is a
good triangle on the pool the loop started from, with `tanSq` at most
`4^n / (4 * 10^20)`, and the budget is `n + 1`. -/
theorem buildTrees_terminates (M : Libm ℝ) (hM : M.Exact) (n : Nat) (pts : List (Vec3 ℝ))
    (base : List (Vec3 ℝ)) :
    ∀ (l : List ((Nat × Nat × Nat) × List Nat)) (vertices : List (Vec3 ℝ))
      (middlemap : MiddleMap),
      base <+: vertices → MapOK M vertices middlemap →
      (∀ x ∈ l, x.1.1 < base.length ∧ x.1.2.1 < base.length ∧ x.1.2.2 < base.length ∧
        GoodTri (getVec base x.1.1) (getVec base x.1.2.1) (getVec base x.1.2.2) ∧
        tanSq (getVec base x.1.1) (getVec base x.1.2.1) (getVec base x.1.2.2) ≤
          4 ^ n / (4 * 10 ^ 20)) →
      buildTrees M (n + 1) pts l vertices middlemap ≠ none := by
  intro l
  induction l with
  | nil =>
    intro vertices middlemap _ _ _
    simp [buildTrees]
  | cons x rest ih =>
    intro vertices middlemap hpre hok hl
    obtain ⟨mv, bucket⟩ := x
    obtain ⟨b1, b2, b3, hg, ht⟩ := hl (mv, bucket) (List.mem_cons_self _ _)
    simp only at b1 b2 b3 hg ht
    have hlen := hpre.length_le
    have x1 := getVec_of_extends _ _ hpre _ b1
    have x2 := getVec_of_extends _ _ hpre _ b2
    have x3 := getVec_of_extends _ _ hpre _ b3
    simp only [buildTrees]
    split
    · rename_i heq
      refine absurd heq (QuadNode_ctor_terminates M hM pts n _ _ _ _ _ _ hok (by omega)
        (by omega) (by omega) ?_ ?_)
      · rw [x1, x2, x3]
        exact hg
      · rw [x1, x2, x3]
        exact ht
    · rename_i t vs mm e1
      obtain ⟨ok1, pr1⟩ := QuadNode_ctor_pool M pts _ _ _ _ _ _ _ (t, vs, mm) hok (by omega)
        (by omega) (by omega) e1
      simp only at ok1 pr1
      split
      · rename_i heq
        exact absurd heq (ih vs mm (hpre.trans pr1) ok1
          (fun y hy => hl y (List.mem_cons_of_mem _ hy)))
      · simp

/-- In exact arithmetic `QuadTree::QuadTree` returns on every input when the
budget of each root is at least 36. -/
theorem QuadTree_ctor_terminates (M : Libm ℝ) (hM : M.Exact) (fuel : Nat) (hfuel : 36 ≤ fuel)
    (pts : List (Vec3 ℝ)) : ∃ t, QuadTree.ctor M fuel pts = some t := by
  obtain ⟨n, rfl⟩ : ∃ n, fuel = n + 1 := ⟨fuel - 1, by omega⟩
  have hn : 35 ≤ n := by omega
  have hb : (2:ℝ) ≤ 4 ^ n / (4 * 10 ^ 20) := by
    have h35 : (4:ℝ) ^ 35 ≤ 4 ^ n := pow_le_pow_right₀ (by norm_num) hn
    rw [le_div_iff₀ (by positivity)]
    refine le_trans ?_ h35
    norm_num
  have hne := buildTrees_terminates M hM n (pts.map (Normalize3 M)) seedVertices
    (mainvertices.zip (buckets (pts.map (Normalize3 M)))) seedVertices []
    (List.prefix_refl _) (MapOK_nil M _) (by
      intro x hx
      obtain ⟨a1, a2, a3, hg, _⟩ := roots_good _ x hx
      have hlen : (seedVertices : List (Vec3 ℝ)).length = 6 := rfl
      rw [hlen, tanSq_seed x.1 (List.of_mem_zip hx).1]
      exact ⟨a1, a2, a3, hg, hb⟩)
  unfold QuadTree.ctor
  simp only []
  split
  · rename_i heq
    exact absurd heq hne
  · exact ⟨_, rfl⟩

end Termination

section Budget

variable {K : Type} [LinearOrderedField K]

/-- A constructor call that returns with some budget returns the same with one
more. -/
theorem QuadNode_ctor_fuel_succ (M : Libm K) (pts : List (Vec3 K)) :
    ∀ (fuel v1 v2 v3 : Nat) (indices : List Nat) (vertices : List (Vec3 K))
      (middlemap : MiddleMap) (r : QuadNode K × List (Vec3 K) × MiddleMap),
      QuadNode.ctor M fuel v1 v2 v3 indices pts vertices middlemap = some r →
      QuadNode.ctor M (fuel + 1) v1 v2 v3 indices pts vertices middlemap = some r := by
  intro fuel
  induction fuel with
  | zero =>
    intro v1 v2 v3 indices vertices middlemap r h
    simp [QuadNode.ctor] at h
  | succ fuel ih =>
    intro v1 v2 v3 indices vertices middlemap r h
    rcases QuadNode_ctor_succ_inv M pts fuel v1 v2 v3 indices vertices middlemap r h with
      ⟨hleaf, hr⟩ | ⟨hbig, m4, m5, m6, t1, t2, t3, t4, s1, s2, s3, s4, hm4, hm5, hm6,
        e1, e2, e3, e4, hr⟩
    · rw [hr]
      exact QuadNode_ctor_leaf M pts (fuel + 1) _ _ _ _ _ _ hleaf
    · subst hm4
      subst hm5
      subst hm6
      obtain ⟨s1v, s1m⟩ := s1
      obtain ⟨s2v, s2m⟩ := s2
      obtain ⟨s3v, s3m⟩ := s3
      obtain ⟨s4v, s4m⟩ := s4
      simp only at e2 e3 e4 hr
      rw [show fuel + 1 + 1 = (fuel + 1) + 1 from rfl, QuadNode.ctor]
      simp only [if_neg hbig]
      rw [ih _ _ _ _ _ _ _ e1]
      simp only
      rw [ih _ _ _ _ _ _ _ e2]
      simp only
      rw [ih _ _ _ _ _ _ _ e3]
      simp only
      rw [ih _ _ _ _ _ _ _ e4]
      simp only
      rw [hr]

/-- A constructor call that returns with some budget returns the same with any
larger budget. -/
theorem QuadNode_ctor_fuel_le (M : Libm K) (pts : List (Vec3 K)) (fuel fuel2 : Nat)
    (hle : fuel ≤ fuel2) (v1 v2 v3 : Nat) (indices : List Nat) (vertices : List (Vec3 K))
    (middlemap : MiddleMap) (r : QuadNode K × List (Vec3 K) × MiddleMap)
    (h : QuadNode.ctor M fuel v1 v2 v3 indices pts vertices middlemap = some r) :
    QuadNode.ctor M fuel2 v1 v2 v3 indices pts vertices middlemap = some r := by
  induction fuel2, hle using Nat.le_induction with
  | base => exact h
  | succ k _ ih => exact QuadNode_ctor_fuel_succ M pts k _ _ _ _ _ _ _ ih

/-- A constructed node has at most as many levels as the budget. -/
theorem QuadNode_ctor_depth (M : Libm K) (pts : List (Vec3 K)) :
    ∀ (fuel v1 v2 v3 : Nat) (indices : List Nat) (vertices : List (Vec3 K))
      (middlemap : MiddleMap) (r : QuadNode K × List (Vec3 K) × MiddleMap),
      QuadNode.ctor M fuel v1 v2 v3 indices pts vertices middlemap = some r →
      r.1.depth ≤ fuel := by
  intro fuel
  induction fuel with
  | zero =>
    intro v1 v2 v3 indices vertices middlemap r h
    simp [QuadNode.ctor] at h
  | succ fuel ih =>
    intro v1 v2 v3 indices vertices middlemap r h
    rcases QuadNode_ctor_succ_inv M pts fuel v1 v2 v3 indices vertices middlemap r h with
      ⟨_, hr⟩ | ⟨_, m4, m5, m6, t1, t2, t3, t4, s1, s2, s3, s4, _, _, _,
        e1, e2, e3, e4, hr⟩
    · rw [hr]
      simp [QuadNode.depth]
    · have d1 := ih _ _ _ _ _ _ _ e1
      have d2 := ih _ _ _ _ _ _ _ e2
      have d3 := ih _ _ _ _ _ _ _ e3
      have d4 := ih _ _ _ _ _ _ _ e4
      simp only at d1 d2 d3 d4
      rw [hr]
      simp only [QuadNode.depth]
      have := max_le (max_le d1 d2) (max_le d3 d4)
      omega

/-- The loop over the roots returns the same with any larger budget, and every
root has at most as many levels as the budget. -/
theorem buildTrees_fuel_le (M : Libm K) (pts : List (Vec3 K)) (fuel fuel2 : Nat)
    (hle : fuel ≤ fuel2) :
    ∀ (l : List ((Nat × Nat × Nat) × List Nat)) (vertices : List (Vec3 K))
      (middlemap : MiddleMap) (r : List (QuadNode K) × List (Vec3 K) × MiddleMap),
      buildTrees M fuel pts l vertices middlemap = some r →
      buildTrees M fuel2 pts l vertices middlemap = some r ∧ ∀ n ∈ r.1, n.depth ≤ fuel := by
  intro l
  induction l with
  | nil =>
    intro vertices middlemap r h
    simp only [buildTrees] at h ⊢
    cases h
    exact ⟨rfl, fun n hn => by cases hn⟩
  | cons x rest ih =>
    intro vertices middlemap r h
    obtain ⟨mv, bucket⟩ := x
    simp only [buildTrees] at h ⊢
    split at h
    · cases h
    · rename_i t vs mm e1
      split at h
      · cases h
      · rename_i ts vs2 mm2 e2
        cases h
        obtain ⟨h2, hd⟩ := ih vs mm (ts, vs2, mm2) e2
        rw [QuadNode_ctor_fuel_le M pts fuel fuel2 hle _ _ _ _ _ _ _ e1]
        simp only
        rw [h2]
        refine ⟨rfl, ?_⟩
        intro n hn
        rcases List.mem_cons.mp hn with rfl | hn
        · exact QuadNode_ctor_depth M pts fuel _ _ _ _ _ _ _ e1
        · exact hd n hn

/-- A tree built with some budget is the tree built with any larger budget, and
its roots have at most as many levels as the smaller budget. -/
theorem QuadTree_ctor_fuel_le (M : Libm K) (pts : List (Vec3 K)) (fuel fuel2 : Nat)
    (hle : fuel ≤ fuel2) (t : QuadTree K) (h : QuadTree.ctor M fuel pts = some t) :
    QuadTree.ctor M fuel2 pts = some t ∧ ∀ root ∈ t.trees, root.depth ≤ fuel := by
  simp only [QuadTree.ctor] at h ⊢
  split at h
  · cases h
  · rename_i trees vertices middlemap e
    cases h
    obtain ⟨h2, hd⟩ := buildTrees_fuel_le M _ fuel fuel2 hle _ _ _ _ e
    rw [h2]
    exact ⟨rfl, hd⟩

/-- C17: in exact arithmetic the construction of a `QuadTree` returns on every
finite input: there is one tree that the constructor returns for every recursion
budget of at least 36, and none of its roots has more than 36 levels.  Each
subdivision divides `tanSq` of the triangle, which is 2 for a root and bounds the
squared sine of the half angle `ccr`, by at least 4, so that `ccr < 10^-10` at
the latest after 35 subdivisions, whatever the points. -/
theorem QuadTree_ctor_total (M : Libm ℝ) (hM : M.Exact) (pts : List (Vec3 ℝ)) :
    ∃ t, (∀ fuel, 36 ≤ fuel → QuadTree.ctor M fuel pts = some t) ∧
      ∀ root ∈ t.trees, root.depth ≤ 36 := by
  obtain ⟨t, ht⟩ := QuadTree_ctor_terminates M hM 36 (le_refl _) pts
  refine ⟨t, ?_, (QuadTree_ctor_fuel_le M pts 36 36 (le_refl _) t ht).2⟩
  intro fuel hfuel
  exact (QuadTree_ctor_fuel_le M pts 36 fuel hfuel t ht).1

/-- C17 at a concrete input: 101 copies of the point `(1, 1, 1)`, with the
budgets 36 and 1000. -/
theorem QuadTree_ctor_total_witness :
    ∃ t : QuadTree ℝ,
      QuadTree.ctor (⟨Real.sqrt, Real.arcsin, Real.arccos, Real.cos, Real.pi⟩ : Libm ℝ) 36
        (List.replicate 101 ⟨1, 1, 1⟩) = some t ∧
      QuadTree.ctor (⟨Real.sqrt, Real.arcsin, Real.arccos, Real.cos, Real.pi⟩ : Libm ℝ) 1000
        (List.replicate 101 ⟨1, 1, 1⟩) = some t ∧
      ∀ root ∈ t.trees, root.depth ≤ 36 := by
  obtain ⟨t, ht, hd⟩ := QuadTree_ctor_total
    ⟨Real.sqrt, Real.arcsin, Real.arccos, Real.cos, Real.pi⟩ ⟨rfl, rfl, rfl, rfl, rfl⟩
    (List.replicate 101 ⟨1, 1, 1⟩)
  exact ⟨t, ht 36 (by norm_num), ht 1000 (by norm_num), hd⟩

end Budget

end Slam6D

namespace Slam6D

section Sampling

variable {K : Type} [LinearOrderedField K]

/-- In the sampling branch of `reduce` with `numpts > 0`, a non-negative area
and a positive `cap_area`, the list `all` is not empty and the parameter of the
Bernoulli distribution lies in `[0, 1)`. -/
theorem sampling_parameter (cap_area area : K) (numpts : Int) (all : List Nat)
    (hn : 0 < numpts) (hcap : 0 < cap_area) (harea : 0 ≤ area)
    (hmany : ¬ ((all.length : K) ≤ (numpts : K) * area / cap_area)) :
    0 < all.length ∧ 0 ≤ (numpts : K) * area / cap_area / (all.length : K) ∧
      (numpts : K) * area / cap_area / (all.length : K) < 1 := by
  have hnK : (0 : K) < (numpts : K) := by exact_mod_cast hn
  have hk : 0 ≤ (numpts : K) * area / cap_area :=
    div_nonneg (mul_nonneg hnK.le harea) hcap.le
  have hlt : (numpts : K) * area / cap_area < (all.length : K) := not_le.mp hmany
  have hlen : (0 : K) < (all.length : K) := lt_of_le_of_lt hk hlt
  refine ⟨by exact_mod_cast hlen, div_nonneg hk hlen.le, ?_⟩
  rw [div_lt_one hlen]
  exact hlt

/-- The area of the sphere cap computed by `QuadTree::reduce` is zero exactly
when `cos(theta)` is 1, and positive exactly when `cos(theta)` is not 1. -/
theorem cap_area_zero_iff (M : Libm K) (theta : K) (hpi : 0 < M.pi) (hcos : M.cos theta ≤ 1) :
    (2 * M.pi * (1 - M.cos theta) = 0 ↔ M.cos theta = 1) ∧
      (0 < 2 * M.pi * (1 - M.cos theta) ↔ M.cos theta ≠ 1) := by
  have h2 : (0 : K) < 2 * M.pi := by positivity
  constructor
  · constructor
    · intro h
      rcases mul_eq_zero.mp h with h | h
      · exact absurd h h2.ne'
      · linarith
    · intro h
      rw [h]
      ring
  · constructor
    · intro h hc
      rw [hc] at h
      simp at h
    · intro h
      have : M.cos theta < 1 := lt_of_le_of_ne hcos h
      exact mul_pos h2 (by linarith)

/-- C21: with `numpts > 0`, at a node where `reduce` stops descending (a leaf, or
`ccr * 2 < theta`) with a non-negative area, a positive `cap_area` and more
indices than `numpts * area / cap_area`, so that the sampling loop is reached:
the node holds at least one index, the parameter
`numpts * area / cap_area / all.size()` handed to the Bernoulli distribution
lies in `[0, 1)`, and the result is the sample drawn with that parameter.  The
`cap_area` that `QuadTree::reduce` passes down is `2 * M_PI * (1 - cos(theta))`;
with `M_PI > 0` and `cos(theta) <= 1` it is zero exactly when `cos(theta)` is 1
and positive otherwise. -/
theorem reduce_sampling_safe {G : Type} (M : Libm K) (bernoulli : K → G → Bool × G)
    (theta : K) (numpts : Int) (hn : 0 < numpts) (hpi : 0 < M.pi)
    (hcos : M.cos theta ≤ 1) :
    (∀ (cap_area : K) (n : QuadNode K) (gen : G),
      0 < cap_area → 0 ≤ n.area → (n.isleaf = true ∨ n.ccr * 2 < theta) →
      ¬ ((n.getall.length : K) ≤ (numpts : K) * n.area / cap_area) →
      0 < n.getall.length ∧
        0 ≤ (numpts : K) * n.area / cap_area / (n.getall.length : K) ∧
        (numpts : K) * n.area / cap_area / (n.getall.length : K) < 1 ∧
        n.reduce bernoulli theta cap_area numpts gen =
          (.ok (sampleAll bernoulli ((numpts : K) * n.area / cap_area / (n.getall.length : K))
              n.getall gen).1,
            (sampleAll bernoulli ((numpts : K) * n.area / cap_area / (n.getall.length : K))
              n.getall gen).2)) ∧
    (∀ (t : QuadTree K) (gen : G),
      t.reduce M bernoulli theta numpts gen =
        reduceTrees bernoulli theta (2 * M.pi * (1 - M.cos theta)) numpts t.trees gen) ∧
    (2 * M.pi * (1 - M.cos theta) = 0 ↔ M.cos theta = 1) ∧
    (0 < 2 * M.pi * (1 - M.cos theta) ↔ M.cos theta ≠ 1) := by
  have h0 : ¬ numpts = 0 := by omega
  have h1 : ¬ numpts < 0 := by omega
  refine ⟨?_, ?_, cap_area_zero_iff M theta hpi hcos⟩
  · intro cap_area n gen hcap harea hstop hmany
    obtain ⟨p1, p2, p3⟩ := sampling_parameter cap_area n.area numpts n.getall hn hcap harea hmany
    refine ⟨p1, p2, p3, ?_⟩
    cases n with
    | leaf ccp ccr area indices =>
      simp only [QuadNode.getall, QuadNode.area] at hmany ⊢
      simp only [QuadNode.reduce, if_neg h0, if_neg h1, reduceHere, if_neg hmany]
    | inner ccp ccr area t1 t2 t3 t4 =>
      have hc : ccr * 2 < theta := by
        rcases hstop with h | h
        · cases h
        · exact h
      simp only [QuadNode.area] at hmany ⊢
      simp only [QuadNode.reduce, if_neg h0, if_neg h1, if_pos hc, reduceHere, if_neg hmany]
  · intro t gen
    simp only [QuadTree.reduce, if_neg h0, if_neg h1]

/-- C21 at a concrete input: a leaf of area `1 / 10` over three indices,
`numpts = 3` and `cap_area = 1`, so that `k = 3 / 10` and the parameter is
`1 / 10`; and the cap of `theta = 1` for the real cosine. -/
theorem reduce_sampling_safe_witness :
    (0 < (QuadNode.leaf (⟨0, 0, 1⟩ : Vec3 ℝ) 1 (1 / 10) [0, 1, 2]).getall.length ∧
      0 ≤ ((3 : Int) : ℝ) * (QuadNode.leaf (⟨0, 0, 1⟩ : Vec3 ℝ) 1 (1 / 10) [0, 1, 2]).area / 1 /
        ((QuadNode.leaf (⟨0, 0, 1⟩ : Vec3 ℝ) 1 (1 / 10) [0, 1, 2]).getall.length : ℝ) ∧
      ((3 : Int) : ℝ) * (QuadNode.leaf (⟨0, 0, 1⟩ : Vec3 ℝ) 1 (1 / 10) [0, 1, 2]).area / 1 /
        ((QuadNode.leaf (⟨0, 0, 1⟩ : Vec3 ℝ) 1 (1 / 10) [0, 1, 2]).getall.length : ℝ) < 1) ∧
    (0 < 2 * Real.pi * (1 - Real.cos 1) ↔ Real.cos 1 ≠ 1) := by
  have h := reduce_sampling_safe
    (⟨Real.sqrt, Real.arcsin, Real.arccos, Real.cos, Real.pi⟩ : Libm ℝ)
    (fun (_ : ℝ) (g : Nat) => (g % 2 == 0, g + 1)) 1 3 (by decide) Real.pi_pos
    (Real.cos_le_one 1)
  obtain ⟨a, b, c, _⟩ := h.1 1 (QuadNode.leaf (⟨0, 0, 1⟩ : Vec3 ℝ) 1 (1 / 10) [0, 1, 2]) 0
    one_pos (by norm_num [QuadNode.area]) (Or.inl rfl)
    (by norm_num [QuadNode.area, QuadNode.getall])
  exact ⟨⟨a, b, c⟩, h.2.2.2⟩

end Sampling

end Slam6D

namespace Slam6D

section LeafSearch

variable {K : Type} [LinearOrderedField K]

end LeafSearch

section LeafSearch2

variable {K : Type} [LinearOrderedField K]

end LeafSearch2

section PoolShape

variable {K : Type} [LinearOrderedField K]

end PoolShape

end Slam6D

namespace Slam6D

section LibmTransfer

variable {K : Type} [LinearOrderedField K]

end LibmTransfer

section Rounding

end Rounding

section Rounding2

end Rounding2

end Slam6D

namespace Slam6D

section Built

variable {K : Type} [LinearOrderedField K]

end Built

section Built2

variable {K : Type} [LinearOrderedField K]

end Built2

section Counterexamples

end Counterexamples

end Slam6D
